import Mathlib

/-!
# raspir: IR codec and trace store of `raspir.c`

Shallow embedding of the pure parts of `src/raspir.c` (the heat-pump encoder
`generateRaw`/`addSample`, the decoder `decodeRawData`/`isEqual`, the hex helpers
`getHex`/`getByteFromHex`, the tail trimming of `sampleGpio` and the trace file
writer/reader) together with theorems about them.

Conventions of the embedding.

* A C `int` is an `Int`.  The definitions named `Machine.…` and the sampler wrap every
  `int` result to 32 bits (`wrap32`) and give `generateRaw` its `malloc`ed buffer size; the
  encoder definitions without that prefix compute over the integers the cells that are
  written, whatever the buffer size, and agree with the former as long as no `int` overflows
  and the cells fit (`machine_generateRaw_eq`).  The decoder computes over the integers;
  its differences of times do not overflow on traces with times in `[0, 2^31)`.
* An `unsigned char` is a `Nat` kept below 256 with an explicit `% 256`.
* An `int*` array is a `List Int` indexed from 0; `a.getD i 0` is the read `a[i]`,
  `a.set i v` the write `a[i]=v` inside an existing array, and pointer arithmetic
  `a+k` is `a.drop k`.
* `for` loops are recursive functions that carry the loop index and the mutable state;
  the first `Nat` argument is the number of iterations that remain.
-/

namespace Raspir

/-! ## Hex helpers -/

/-- One digit of `printf("%X")` for a value below 16. -/
def hexDigitUpper (d : Nat) : Char :=
  if d < 10 then Char.ofNat (48 + d) else Char.ofNat (55 + d)

/-- Value of one hexadecimal digit as `sscanf("%x")` reads it, in either letter case. -/
def hexVal (c : Char) : Option Nat :=
  if 48 ≤ c.toNat ∧ c.toNat ≤ 57 then some (c.toNat - 48)
  else if 65 ≤ c.toNat ∧ c.toNat ≤ 70 then some (c.toNat - 55)
  else if 97 ≤ c.toNat ∧ c.toNat ≤ 102 then some (c.toNat - 87)
  else none

/-- Function `getHex`: `sprintf(hex+i*2,"%02X",byte[i])` for every byte, two uppercase digits each.
The bytes are `unsigned char`, so `b / 16` is below 16. -/
def getHex (byte : List Nat) : List Char :=
  match byte with
  | [] => []
  | b :: rest => hexDigitUpper (b / 16 % 16) :: hexDigitUpper (b % 16) :: getHex rest

/-- The loop of `getByteFromHex`: `count` pairs remain; `sscanf(pos, "%2hhx", &result[count])`
reads the two characters at `pos` as one byte, then `pos += 2`.  Where a pair is not two
hexadecimal digits `sscanf` stores nothing (or a shorter number) and the C code goes on with
an unset byte; the embedding returns `none` there. -/
def getByteFromHexLoop : Nat → List Char → Option (List Nat)
  | 0, _ => some []
  | count + 1, c1 :: c2 :: pos =>
    match hexVal c1, hexVal c2, getByteFromHexLoop count pos with
    | some hi, some lo, some rest => some ((16 * hi + lo) % 256 :: rest)
    | _, _, _ => none
  | _ + 1, _ => none

/-- Function `getByteFromHex`: `len = strlen(hex)/2` bytes are read. -/
def getByteFromHex (hex : List Char) : Option (List Nat) :=
  getByteFromHexLoop (hex.length / 2) hex

/-! ## Machine integers -/

/-- The value a C `int` (32 bits, two's complement) holds after an arithmetic operation whose
exact result is `x`: `x` itself when it lies in `[-2^31, 2^31)`, otherwise `x` reduced modulo
`2^32` into that range (signed overflow is undefined in C; on the target it wraps). -/
def wrap32 (x : Int) : Int := (x + 2147483648) % 4294967296 - 2147483648

/-! ## Encoder -/

/-- A write `a[i]=v` into a freshly allocated array that is being filled from the front:
inside the part written so far it overwrites, right behind it it extends that part.
(Cells skipped over would read as 0; `generateRaw` never skips a cell.) -/
def store (a : List Int) (i : Nat) (v : Int) : List Int :=
  if i < a.length then a.set i v else a ++ List.replicate (i - a.length) 0 ++ [v]

/-- The `while (t+hTime+lTime<=startTime+pulseHLength)` loop of `addSample`, on the arrays
`sampleTime+base` and `sample+base`; `limit` is `startTime+pulseHLength`.  The state is
`(t, pos, sampleTime, sample)`.  The result is `none` when the loop is still running after
`fuel` iterations. -/
def addSampleLoop (hTime lTime limit : Int) (base : Nat) :
    Nat → Int → Nat → List Int → List Int → Option (Int × Nat × List Int × List Int)
  | 0, t, pos, sampleTime, sample =>
    if t + hTime + lTime ≤ limit then none else some (t, pos, sampleTime, sample)
  | fuel + 1, t, pos, sampleTime, sample =>
    if t + hTime + lTime ≤ limit then
      let sample := store sample (base + pos) 1
      let sampleTime := store sampleTime (base + (pos + 1)) (t + hTime)
      let sample := store sample (base + (pos + 1)) 0
      let sampleTime := store sampleTime (base + (pos + 2)) (t + hTime + lTime)
      addSampleLoop hTime lTime limit base fuel (t + (hTime + lTime)) (pos + 2) sampleTime sample
    else some (t, pos, sampleTime, sample)

/-- The call `addSample(sampleTime+base, sample+base, hTime, lTime, pulseHLength, pulseLLength)`:
returns the consumed samples `pos` and the two arrays after the writes.  With
`0 < hTime + lTime` every iteration advances `t` by at least 1, so `pulseHLength`
iterations always suffice; the result is `none` exactly when the C loop does not end.
The sums are those of the integers and every cell written is kept; `Machine.addSample` is
the same function on 32-bit `int`s. -/
def addSample (sampleTime sample : List Int) (base : Nat)
    (hTime lTime pulseHLength pulseLLength : Int) : Option (Nat × List Int × List Int) :=
  let startTime := sampleTime.getD base 0
  match addSampleLoop hTime lTime (startTime + pulseHLength) base pulseHLength.toNat
      startTime 0 sampleTime sample with
  | none => none
  | some (t, pos, sampleTime, sample) =>
    some (pos, store sampleTime (base + pos) (t + pulseLLength), sample)

/-- Time for short high pulse (timings of `generateRaw` are in µs, measured). -/
def hTime : Int := 15

/-- Time for short low pulse. -/
def lTime : Int := 11

/-- Start time of the first burst. -/
def initOffsetTime : Int := 700

/-- Length of the header burst. -/
def initPulseHLength : Int := 3344

/-- Length of the low after the header burst. -/
def initPulseLLength : Int := 1688

/-- Normal 1 bit high time. -/
def bitHLength : Int := 428

/-- Normal 1 bit low time. -/
def oneBitLLength : Int := 1268

/-- Normal 0 bit low time. -/
def zeroBitLLength : Int := 430

/-- Pause between the two frames. -/
def repeatePause : Int := 11354

/-- State of `generateRaw` between two calls of `addSample`: `pos` and the two arrays. -/
structure GenState where
  pos : Nat
  sampleTime : List Int
  sample : List Int
deriving DecidableEq, Repr

/-- The statement `pos += addSample(sampleTime+pos, sample+pos, hTime, lTime, h, l)`. -/
def GenState.add (σ : GenState) (pulseHLength pulseLLength : Int) : Option GenState :=
  match addSample σ.sampleTime σ.sample σ.pos hTime lTime pulseHLength pulseLLength with
  | none => none
  | some (n, sampleTime, sample) => some ⟨σ.pos + n, sampleTime, sample⟩

/-- The loop `for (bitIndex=0;bitIndex<8;bitIndex++)` of `generateRaw` for the byte `b`:
`bitVal = (b >> bitIndex) & 1` selects the length of the low that follows the burst. -/
def genBits (b : Nat) : Nat → Nat → GenState → Option GenState
  | 0, _, σ => some σ
  | n + 1, bitIndex, σ =>
    let bitVal := (b >>> bitIndex) &&& 1
    let lLength := if bitVal ≠ 0 then oneBitLLength else zeroBitLLength
    match σ.add bitHLength lLength with
    | none => none
    | some σ => genBits b n (bitIndex + 1) σ

/-- The loop `for (byteIndex=0;byteIndex<byteLen;byteIndex++)` of `generateRaw`. -/
def genBytes : List Nat → GenState → Option GenState
  | [], σ => some σ
  | b :: rest, σ =>
    match genBits b 8 0 σ with
    | none => none
    | some σ => genBytes rest σ

/-- One pass of the loop `for (repeatIndex=0;repeatIndex<2;repeatIndex++)`: header burst,
the payload bits, the stop bit and the repeat pause. -/
def genFrame (bytes : List Nat) (σ : GenState) : Option GenState :=
  match σ.add initPulseHLength initPulseLLength with
  | none => none
  | some σ =>
    match genBytes bytes σ with
    | none => none
    | some σ =>
      match σ.add bitHLength 0 with
      | none => none
      | some σ => σ.add 0 repeatePause

/-- A trace as `generateRaw` hands it out: the two arrays and the sample count. -/
structure Trace where
  sampleTime : List Int
  sample : List Int
  sampleCount : Nat
deriving DecidableEq, Repr

/-- The part of `generateRaw` after `getByteFromHex`: the arrays start as `sampleTime[0]=0`,
`sample[0]=0`, `sampleTime[1]=initOffsetTime` with `pos=1`; the frame is emitted twice; then
`sample[1]=1; sample[0]=0`.  The arrays are the cells written, whatever the size that was
allocated for them (see `sampleGuessCount`). -/
def generateRawBytes (bytes : List Nat) : Option Trace :=
  let σ : GenState := ⟨1, store (store [] 0 0) 1 initOffsetTime, store [] 0 0⟩
  match genFrame bytes σ with
  | none => none
  | some σ =>
    match genFrame bytes σ with
    | none => none
    | some σ => some ⟨σ.sampleTime, store (store σ.sample 1 1) 0 0, σ.pos⟩

/-- Function `generateRaw(hex, ...)`: the bytes of `getByteFromHex(hex)` are encoded.  This is
the trace over the integers with every cell written kept; `Machine.generateRaw` is the
function on 32-bit `int`s with its `malloc`ed buffers, and the two agree for payloads of 10
to 79000 bytes. -/
def generateRaw (hex : List Char) : Option Trace :=
  match getByteFromHex hex with
  | none => none
  | some bytes => generateRawBytes bytes

/-- The allocation size `(bitHLength+oneBitLLength)*bitCount/(hTime+lTime)*1.1` of
`generateRaw`, truncated to `int`.  The integer quotient is computed first; the product
with the double `1.1` truncates to `⌊11·q/10⌋` for every `q` below `2^31`. -/
def sampleGuessCount (byteLen : Nat) : Int :=
  ((bitHLength + oneBitLLength) * (byteLen * 8) / (hTime + lTime)) * 11 / 10

/-! ## Encoder on 32-bit integers -/

/-- The loop of `addSample` on 32-bit `int`s: every sum is wrapped.  The loop state is `t`
alone, one of `2^32` values, so a loop that is still running after `2^32` iterations never
ends; with `fuel = 2^32` the result `none` means exactly that. -/
def Machine.addSampleLoop (hTime lTime limit : Int) (base : Nat) :
    Nat → Int → Nat → List Int → List Int → Option (Int × Nat × List Int × List Int)
  | 0, t, pos, sampleTime, sample =>
    if wrap32 (wrap32 (t + hTime) + lTime) ≤ limit then none else some (t, pos, sampleTime, sample)
  | fuel + 1, t, pos, sampleTime, sample =>
    if wrap32 (wrap32 (t + hTime) + lTime) ≤ limit then
      let sample := store sample (base + pos) 1
      let sampleTime := store sampleTime (base + (pos + 1)) (wrap32 (t + hTime))
      let sample := store sample (base + (pos + 1)) 0
      let sampleTime := store sampleTime (base + (pos + 2)) (wrap32 (wrap32 (t + hTime) + lTime))
      Machine.addSampleLoop hTime lTime limit base fuel (wrap32 (t + wrap32 (hTime + lTime)))
        (pos + 2) sampleTime sample
    else some (t, pos, sampleTime, sample)

/-- Function `addSample` on 32-bit `int`s, called as
`addSample(sampleTime+base, sample+base, hTime, lTime, pulseHLength, pulseLLength)`:
`startTime+pulseHLength`, `t+hTime+lTime`, `t+hTime`, `t+=hTime+lTime` and `t+pulseLLength`
are `int` sums.  The arrays are the cells written (see `store`). -/
def Machine.addSample (sampleTime sample : List Int) (base : Nat)
    (hTime lTime pulseHLength pulseLLength : Int) : Option (Nat × List Int × List Int) :=
  let startTime := sampleTime.getD base 0
  match Machine.addSampleLoop hTime lTime (wrap32 (startTime + pulseHLength)) base 4294967296
      startTime 0 sampleTime sample with
  | none => none
  | some (t, pos, sampleTime, sample) =>
    some (pos, store sampleTime (base + pos) (wrap32 (t + pulseLLength)), sample)

/-- The statement `pos += addSample(sampleTime+pos, sample+pos, hTime, lTime, h, l)` on
32-bit `int`s. -/
def Machine.add (σ : GenState) (pulseHLength pulseLLength : Int) : Option GenState :=
  match Machine.addSample σ.sampleTime σ.sample σ.pos hTime lTime pulseHLength pulseLLength with
  | none => none
  | some (n, sampleTime, sample) => some ⟨σ.pos + n, sampleTime, sample⟩

/-- The loop `for (bitIndex=0;bitIndex<8;bitIndex++)` of `generateRaw` on 32-bit `int`s. -/
def Machine.genBits (b : Nat) : Nat → Nat → GenState → Option GenState
  | 0, _, σ => some σ
  | n + 1, bitIndex, σ =>
    let bitVal := (b >>> bitIndex) &&& 1
    let lLength := if bitVal ≠ 0 then oneBitLLength else zeroBitLLength
    match Machine.add σ bitHLength lLength with
    | none => none
    | some σ => Machine.genBits b n (bitIndex + 1) σ

/-- The loop `for (byteIndex=0;byteIndex<byteLen;byteIndex++)` of `generateRaw` on 32-bit
`int`s. -/
def Machine.genBytes : List Nat → GenState → Option GenState
  | [], σ => some σ
  | b :: rest, σ =>
    match Machine.genBits b 8 0 σ with
    | none => none
    | some σ => Machine.genBytes rest σ

/-- One pass of the loop `for (repeatIndex=0;repeatIndex<2;repeatIndex++)` of `generateRaw` on
32-bit `int`s. -/
def Machine.genFrame (bytes : List Nat) (σ : GenState) : Option GenState :=
  match Machine.add σ initPulseHLength initPulseLLength with
  | none => none
  | some σ =>
    match Machine.genBytes bytes σ with
    | none => none
    | some σ =>
      match Machine.add σ bitHLength 0 with
      | none => none
      | some σ => Machine.add σ 0 repeatePause

/-- The allocation size `(bitHLength+oneBitLLength)*bitCount/(hTime+lTime)*1.1` of `generateRaw`
as the 32-bit program computes it: `bitCount=byteLen*8` and the product are `int`s.  For a
product that is not negative this is the size in C exactly.  After an overflow the product
can be negative; there C rounds towards zero while `/` rounds down, and both give a size of
at most 0, which no cell fits into. -/
def Machine.sampleGuessCount (byteLen : Nat) : Int :=
  wrap32 ((bitHLength + oneBitLLength) * wrap32 ((byteLen : Int) * 8)) / (hTime + lTime) * 11 / 10

/-- Function `generateRaw(hex, ...)` with 32-bit `int`s and with its two buffers of
`sampleGuessCount` `int`s each.  The writes go to the cells `0, 1, 2, ...` in turn, so every
write stays inside its buffer exactly when the cells written at the end fit into it; when
they do not, the program has written behind a `malloc`ed block and there is no result
(`none`).  `none` also stands for a hex text that is not made of hex digits and for a burst
loop that does not end. -/
def Machine.generateRaw (hex : List Char) : Option Trace :=
  match getByteFromHex hex with
  | none => none
  | some bytes =>
    let σ : GenState := ⟨1, store (store [] 0 0) 1 initOffsetTime, store [] 0 0⟩
    match Machine.genFrame bytes σ with
    | none => none
    | some σ =>
      match Machine.genFrame bytes σ with
      | none => none
      | some σ =>
        if (σ.sampleTime.length : Int) ≤ Machine.sampleGuessCount bytes.length ∧
            ((store (store σ.sample 1 1) 0 0).length : Int) ≤
              Machine.sampleGuessCount bytes.length then
          some ⟨σ.sampleTime, store (store σ.sample 1 1) 0 0, σ.pos⟩
        else none

/-! ## Decoder -/

/-- Loop of `isEqual`: `for (i=0;i<byteCountA-1;i++) if (bytesA[i]!=bytesB[i]) return 0;`. -/
def isEqualLoop (bytesA bytesB : List Nat) : Nat → Nat → Int
  | 0, _ => 1
  | n + 1, i => if bytesA.getD i 0 ≠ bytesB.getD i 0 then 0 else isEqualLoop bytesA bytesB n (i + 1)

/-- Function `isEqual(bytesA, byteCountA, bytesB, byteCountB)`. -/
def isEqual (bytesA : List Nat) (byteCountA : Nat) (bytesB : List Nat) (byteCountB : Nat) : Int :=
  if byteCountA ≠ byteCountB then 0 else isEqualLoop bytesA bytesB (byteCountA - 1) 0

/-- First loop of `decodeRawData` (`shortTimeLimit = 200`): a 0 between two 1s whose low
lasts less than 200 µs is overwritten with 1, in place. -/
def flattenLoop (sampleTime : List Int) : Nat → Nat → List Int → List Int
  | 0, _, sample => sample
  | n + 1, i, sample =>
    flattenLoop sampleTime n (i + 1)
      (if sample.getD i 0 = 1 ∧ sample.getD (i + 1) 0 = 0 ∧ sample.getD (i + 2) 0 = 1 ∧
          sampleTime.getD (i + 2) 0 - sampleTime.getD (i + 1) 0 < 200
        then sample.set (i + 1) 1 else sample)

/-- Second loop of `decodeRawData` ("Remove all duplicates"), in place, with the counter `j`.
The result is `(j, sampleTime, sample)`. -/
def compactLoop : Nat → Nat → Nat → List Int → List Int → Nat × List Int × List Int
  | 0, _, j, sampleTime, sample => (j, sampleTime, sample)
  | n + 1, i, j, sampleTime, sample =>
    if sample.getD i 0 ≠ sample.getD (i + 1) 0 then
      compactLoop n (i + 1) (j + 1) (sampleTime.set (j + 1) (sampleTime.getD (i + 1) 0))
        (sample.set (j + 1) (sample.getD (i + 1) 0))
    else compactLoop n (i + 1) j sampleTime sample

/-- The level `(400+1200)/2` that separates a 0 space from a 1 space. -/
def oneZeroLevel : Int := (400 + 1200) / 2

/-- The bit `oneZeroLevel<dt` of a space of `dt` µs. -/
def bitOf (dt : Int) : Nat := if oneZeroLevel < dt then 1 else 0

/-- The statements `byte>>=1; byte+=bit<<7;` on an `unsigned char`. -/
def shiftIn (byte bit : Nat) : Nat := (byte / 2 + bit * 128) % 256

/-- The "Get bits" loop of `decodeRawData`, `for (i=3;i<sampleCount-1;i++)`, with its state
`bc`, `byteIndex`, `byte`, `bytes`; `bytes[byteIndex++]=byte` appends to the bytes stored so
far.  The result is `(bytes, byteIndex, lastIndex)`; `lastIndex` is `-1` unless the loop
left through `break`. -/
def bitLoop (sampleTime : List Int) :
    Nat → Nat → Nat → Nat → Nat → List Nat → List Nat × Nat × Int
  | 0, _, _, byteIndex, _, bytes => (bytes, byteIndex, -1)
  | n + 1, i, bc, byteIndex, byte, bytes =>
    if i % 2 = 0 then
      let dt := sampleTime.getD (i + 1) 0 - sampleTime.getD i 0
      let byte := shiftIn byte (bitOf dt)
      if 8 ≤ bc + 1 then
        if 2000 < dt then (bytes ++ [byte], byteIndex + 1, (i : Int))
        else bitLoop sampleTime n (i + 1) 0 (byteIndex + 1) 0 (bytes ++ [byte])
      else
        if 2000 < dt then (bytes, byteIndex, (i : Int))
        else bitLoop sampleTime n (i + 1) (bc + 1) byteIndex byte bytes
    else bitLoop sampleTime n (i + 1) bc byteIndex byte bytes

/-- The checksum loop `for (i=0;i<byteCount-1;i++) crc+=bytes[i];` on an `unsigned char`. -/
def crcLoop (bytes : List Nat) : Nat → Nat → Nat → Nat
  | 0, _, crc => crc
  | n + 1, i, crc => crcLoop bytes n (i + 1) ((crc + bytes.getD i 0) % 256)

/-- What `decodeRawData` prints. -/
inductive Msg where
  | checksumError (crc : Nat) (found : Option Nat)
  | byteCountDiffer (byteCount byteCount2 : Nat)
  | notIdentical
deriving DecidableEq, Repr

/-- Outcome of `decodeRawData`: the returned bytes and `*resultByteCount`, the flag `crcOK`,
the `(byte2, byteCount2)` of the recursive call when it was made, and the messages printed
(those of the recursive call included, in the order of printing). -/
structure Decoded where
  bytes : List Nat
  byteCount : Nat
  crcOK : Bool
  second : Option (List Nat × Nat)
  log : List Msg
deriving DecidableEq, Repr

/-- Function `decodeRawData(sampleTime, sample, sampleCount, &byteCount)`; the first argument bounds
the depth of the recursion and `none` means that it was exhausted.

* `bytes[byteCount-1]` with `byteCount = 0` reads in front of the allocation; the embedding
  has no value there (`found = none`) and treats the comparison as failed.
* `sampleCount*.4<lastIndex && lastIndex<sampleCount*.6` compares doubles; for `int`
  operands the outcome is that of the exact comparisons `2·sampleCount < 5·lastIndex` and
  `5·lastIndex < 3·sampleCount` (the products with `.4` and `.6` are off by less than half
  a unit in the last place from the exact fifths). -/
def decodeRawDataAux : Nat → List Int → List Int → Nat → Option Decoded
  | 0, _, _, _ => none
  | fuel + 1, sampleTime, sample, sampleCount =>
    let sample := flattenLoop sampleTime (sampleCount - 2) 0 sample
    let (j, sampleTime, sample) := compactLoop (sampleCount - 1) 0 0 sampleTime sample
    let sampleCount := j
    let (bytes, byteIndex, lastIndex) := bitLoop sampleTime (sampleCount - 1 - 3) 3 0 0 0 []
    let byteCount := byteIndex
    let crc := crcLoop bytes (byteCount - 1) 0 0
    let found := if byteCount = 0 then none else bytes.get? (byteCount - 1)
    let crcOK := decide (found = some crc)
    let log := if crcOK then [] else [Msg.checksumError crc found]
    if 2 * (sampleCount : Int) < 5 * lastIndex ∧ 5 * lastIndex < 3 * (sampleCount : Int) then
      match decodeRawDataAux fuel (sampleTime.drop lastIndex.toNat) (sample.drop lastIndex.toNat)
          (sampleCount - lastIndex.toNat + 1) with
      | none => none
      | some r =>
        some ⟨bytes, byteCount, crcOK, some (r.bytes, r.byteCount),
          log ++ r.log ++
            (if byteCount ≠ r.byteCount then [Msg.byteCountDiffer byteCount r.byteCount]
             else if isEqual bytes byteCount r.bytes r.byteCount = 0 then [Msg.notIdentical]
             else [])⟩
    else some ⟨bytes, byteCount, crcOK, none, log⟩

/-- Function `decodeRawData` with a recursion depth that always suffices (every recursive call is
on a shorter trace). -/
def decodeRawData (sampleTime sample : List Int) (sampleCount : Nat) : Option Decoded :=
  decodeRawDataAux (sampleCount + 1) sampleTime sample sampleCount

/-! ## Sampler -/

/-- The loop `while(0<lastSampleIndex && samples[lastSampleIndex-1]==samples[sampleSize-1])
lastSampleIndex--;` of `sampleGpio`; the argument is the current `lastSampleIndex`, the
result its value when the loop is left. -/
def trimLoop (samples : List Int) (sampleSize : Nat) : Nat → Nat
  | 0 => 0
  | l + 1 =>
    if samples.getD l 0 = samples.getD (sampleSize - 1) 0 then trimLoop samples sampleSize l
    else l + 1

/-- The loop `for (i=0;i<sampleCount;i++) sampleTime[i]-=firstTime;` of `sampleGpio`, with the
number of iterations left and the index `i`; the difference is that of 32-bit `int`s. -/
def rebaseLoop (firstTime : Int) : Nat → Nat → List Int → List Int
  | 0, _, sampleTime => sampleTime
  | n + 1, i, sampleTime =>
    rebaseLoop firstTime n (i + 1) (sampleTime.set i (wrap32 (sampleTime.getD i 0 - firstTime)))

/-- The part of `sampleGpio` between the sampling loop and `writeSamples`, on the filled
buffers `samples` and `sampleTime` of `sampleSize` entries: `lastSampleIndex` starts at
`sampleSize-1` and is trimmed, `sampleCount=lastSampleIndex+1`, `firstTime=sampleTime[0]`,
and the first `sampleCount` times are rebased.  The result is `(sampleCount, sampleTime,
samples)`; `samples` is not written.  The times are 32-bit `int`s (the `unsigned` of
`micros()` stored into an `int`); the indices stay far below `2^31`. -/
def sampleGpioTrim (samples sampleTime : List Int) (sampleSize : Nat) :
    Nat × List Int × List Int :=
  let lastSampleIndex := trimLoop samples sampleSize (sampleSize - 1)
  let sampleCount := lastSampleIndex + 1
  let firstTime := sampleTime.getD 0 0
  (sampleCount, rebaseLoop firstTime sampleCount 0 sampleTime, samples)

/-! ## Trace files -/

/-- Decimal digits of `printf("%i")` for a natural number, most significant first. -/
def fmtNat (n : Nat) : List Char :=
  if n = 0 then ['0'] else (Nat.digits 10 n).reverse.map (fun d => Char.ofNat (48 + d))

/-- The text `printf("%i", n)` prints. -/
def fmtInt (n : Int) : List Char :=
  if n < 0 then '-' :: fmtNat n.natAbs else fmtNat n.natAbs

/-- The header line `"[µs]\tSample\n"` of a trace file. -/
def header : List Char := ['[', 'µ', 's', ']', '\t', 'S', 'a', 'm', 'p', 'l', 'e', '\n']

/-- The `while(i<sampleCount)` loop of `writeSamples` (`includeFlank` and `verbose` are the
constant 0): the list of the `(sampleTime[i], sample[i])` that are printed to the file. -/
def writeSamplesLoop (sampleTime sample : List Int) : Nat → Nat → Int → List (Int × Int)
  | 0, _, _ => []
  | n + 1, i, lastSample =>
    if lastSample ≠ sample.getD i 0 then
      (sampleTime.getD i 0, sample.getD i 0) ::
        writeSamplesLoop sampleTime sample n (i + 1) (sample.getD i 0)
    else writeSamplesLoop sampleTime sample n (i + 1) lastSample

/-- One line `fprintf(file,"%i\t%i\n",sampleTime[i], sample[i])`. -/
def sampleLine (p : Int × Int) : List Char := fmtInt p.1 ++ '\t' :: (fmtInt p.2 ++ ['\n'])

/-- Function `writeSamples`: the text of the file written and the returned `savedSampleCount`. -/
def writeSamples (sampleTime sample : List Int) (sampleCount : Nat) : List Char × Nat :=
  let saved := writeSamplesLoop sampleTime sample sampleCount 0 (-1)
  (header ++ (saved.map sampleLine).flatten, saved.length)

/-- Function `getFileLineCount`: the number of `'\n'` characters of the file. -/
def getFileLineCount (file : List Char) : Nat :=
  match file with
  | [] => 0
  | c :: rest => if c = '\n' then getFileLineCount rest + 1 else getFileLineCount rest

/-- The lines successive calls of `getline` return: each ends with its `'\n'`, except a
last line that the file does not terminate. -/
def getlines : List Char → List (List Char)
  | [] => []
  | c :: rest =>
    if c = '\n' then [c] :: getlines rest
    else
      match getlines rest with
      | [] => [[c]]
      | l :: ls => (c :: l) :: ls

/-- One call of `strtok` with the delimiter `"\t"` on the rest of a line: leading tabs are
skipped; `none` is the NULL returned when nothing is left; otherwise the token and what
follows its delimiter. -/
def strtok : List Char → Option (List Char × List Char)
  | [] => none
  | c :: rest =>
    if c = '\t' then strtok rest
    else some ((c :: rest).takeWhile (· ≠ '\t'), ((c :: rest).dropWhile (· ≠ '\t')).drop 1)

/-- The digits `atoi` reads, accumulated into `acc`; it stops at the first other character. -/
def atoiDigits (acc : Nat) : List Char → Nat
  | [] => acc
  | c :: rest =>
    if 48 ≤ c.toNat ∧ c.toNat ≤ 57 then atoiDigits (acc * 10 + (c.toNat - 48)) rest else acc

/-- White space as `isspace` sees it. -/
def isspace (c : Char) : Bool :=
  c = ' ' || c = '\t' || c = '\n' || c.toNat = 11 || c.toNat = 12 || c = '\r'

/-- Function `atoi`: white space, an optional sign, then decimal digits. -/
def atoi (s : List Char) : Int :=
  match s.dropWhile isspace with
  | [] => 0
  | c :: rest =>
    if c = '-' then -(atoiDigits 0 rest : Int)
    else if c = '+' then (atoiDigits 0 rest : Int)
    else (atoiDigits 0 (c :: rest) : Int)

/-- Outcome of reading a trace file. -/
inductive ReadResult where
  | badInput (line : Nat)
  | ok (sampleTime sample : List Int) (sampleCount : Int)
deriving DecidableEq, Repr

/-- The `while ((read = getline(&line, &len, file)) != -1)` loop of `readSampleFile` over the
lines that are left; the values stored in `sampleTime[i]` and `sample[i]` are appended to the
arrays (the loop stores one pair per line, whatever `sampleCount` is). -/
def readLoop : List (List Char) → Nat → List Int → List Int → Except Nat (List Int × List Int)
  | [], _, sampleTime, sample => Except.ok (sampleTime, sample)
  | line :: rest, i, sampleTime, sample =>
    match strtok line with
    | none => Except.error i
    | some (millisText, after) =>
      match strtok after with
      | none => Except.error i
      | some (pinStateText, _) =>
        readLoop rest (i + 1) (sampleTime ++ [atoi millisText]) (sample ++ [atoi pinStateText])

/-- The part of `readSampleFile` that reads the file: `sampleCount = lineCount-1`, the
header line is skipped, every other line is split at the tab and converted with `atoi`. -/
def readSampleFile (file : List Char) : ReadResult :=
  let lineCount := getFileLineCount file
  let sampleCount : Int := (lineCount : Int) - 1
  match readLoop ((getlines file).drop 1) 0 [] [] with
  | Except.error i => ReadResult.badInput i
  | Except.ok (sampleTime, sample) => ReadResult.ok sampleTime sample sampleCount

/-! ## Auxiliary definitions for the proofs -/

/-- Times of `n` cycles of a burst that starts at `t`: `t, t+h, t+(h+l), t+(h+l)+h, ...`. -/
def cyc (h l : Int) : Int → Nat → List Int
  | _, 0 => []
  | t, n + 1 => t :: (t + h) :: cyc h l (t + (h + l)) n

/-- Levels of `n` cycles of a burst: `1, 0, 1, 0, ...`. -/
def alt : Nat → List Int
  | 0 => []
  | n + 1 => 1 :: 0 :: alt n

/-- Times written for a list of bursts `(n, g)`: `n` cycles, then the next burst starts `g` µs after the last full cycle. -/
def segsT : Int → List (Nat × Int) → List Int
  | _, [] => []
  | t, (n, g) :: r => cyc 15 11 t n ++ segsT (t + n * 26 + g) r

/-- Start time of the burst that would follow a list of bursts. -/
def segsEnd : Int → List (Nat × Int) → Int
  | t, [] => t
  | t, (n, g) :: r => segsEnd (t + n * 26 + g) r

/-- Levels written for a list of bursts. -/
def segsS : List (Nat × Int) → List Int
  | [] => []
  | (n, _) :: r => alt n ++ segsS r

/-- State of `generateRaw` in which the times `A` and levels `S` are final and the next
burst starts at `t`. -/
def GS (A S : List Int) (t : Int) : GenState := ⟨A.length, A ++ [t], S⟩

/-- Burst of bit `bitIndex` of the byte `b`: 16 cycles, then the low of a 1 or of a 0. -/
def bitSeg (b bitIndex : Nat) : Nat × Int :=
  (16, if (b >>> bitIndex) &&& 1 ≠ 0 then oneBitLLength else zeroBitLLength)

/-- Bursts of `n` bits of the byte `b` from bit `bitIndex` on. -/
def bitSegs (b : Nat) : Nat → Nat → List (Nat × Int)
  | 0, _ => []
  | n + 1, bitIndex => bitSeg b bitIndex :: bitSegs b n (bitIndex + 1)

/-- Bursts of the payload bits, bytes in order, least significant bit first. -/
def byteSegs : List Nat → List (Nat × Int)
  | [] => []
  | b :: rest => bitSegs b 8 0 ++ byteSegs rest

/-- Bursts of one frame: header, payload bits, stop bit, repeat pause. -/
def frameSegs (bytes : List Nat) : List (Nat × Int) :=
  (128, initPulseLLength) :: (byteSegs bytes ++ [(16, 0), (0, repeatePause)])

/-- Running a list of bursts from a state. -/
def genSegs (segs : List (Nat × Int)) (A S : List Int) (t : Int) : GenState :=
  GS (A ++ segsT t segs) (S ++ segsS segs) (segsEnd t segs)

/-- Levels kept by the duplicate removal when the level before the list is `prev`. -/
def keepS (prev : Int) : List Int → List Int
  | [] => []
  | s :: ss => if prev ≠ s then s :: keepS s ss else keepS prev ss

/-- Times kept by the duplicate removal (second list: the levels). -/
def keepT (prev : Int) : List Int → List Int → List Int
  | t :: ts, s :: ss => if prev ≠ s then t :: keepT s ts ss else keepT prev ts ss
  | _, _ => []

/-- Levels of a list of bursts after the flattening loop. -/
def flatS : List (Nat × Int) → List Int
  | [] => []
  | (0, _) :: r => flatS r
  | (m + 1, _) :: r => List.replicate (2 * m + 1) 1 ++ 0 :: flatS r

/-- Bursts of at least one cycle whose following low is long enough not to be flattened. -/
def GoodSegs (segs : List (Nat × Int)) : Prop := ∀ x ∈ segs, 1 ≤ x.1 ∧ 189 ≤ x.2

/-- Times of the edges that remain of a list of bursts: the rise and the last fall of each. -/
def envT : Int → List (Nat × Int) → List Int
  | _, [] => []
  | t, (0, g) :: r => envT (t + g) r
  | t, (m + 1, g) :: r => t :: (t + m * 26 + 15) :: envT (t + (m + 1) * 26 + g) r

/-- Levels of the edges that remain of a list of bursts. -/
def envS : List (Nat × Int) → List Int
  | [] => []
  | (0, _) :: r => envS r
  | (_ + 1, _) :: r => 1 :: 0 :: envS r

/-- One bit shifted into the state `(bc, byteIndex, byte, bytes)` of the bit loop. -/
def stepBit (σ : Nat × Nat × Nat × List Nat) (bit : Nat) : Nat × Nat × Nat × List Nat :=
  if 8 ≤ σ.1 + 1 then (0, σ.2.1 + 1, 0, σ.2.2.2 ++ [shiftIn σ.2.2.1 bit])
  else (σ.1 + 1, σ.2.1, shiftIn σ.2.2.1 bit, σ.2.2.2)

/-- The bit loop started from a state tuple. -/
def bitLoopAt (T : List Int) (n i : Nat) (σ : Nat × Nat × Nat × List Nat) : List Nat × Nat × Int :=
  bitLoop T n i σ.1 σ.2.1 σ.2.2.1 σ.2.2.2

/-- Bit segments: bursts followed by a low that is neither flattened nor a frame end. -/
def BitSegs (segs : List (Nat × Int)) : Prop := ∀ x ∈ segs, 1 ≤ x.1 ∧ 189 ≤ x.2 ∧ x.2 ≤ 1989

/-- The bits the decoder reads from a list of bursts. -/
def segBits (segs : List (Nat × Int)) : List Nat := segs.map (fun x => bitOf (x.2 + 11))

/-- One frame with the stop burst and the repeat pause merged into one burst. -/
def frameN (bytes : List Nat) : List (Nat × Int) :=
  (128, 1688) :: (byteSegs bytes ++ [(16, 11354)])

/-- The byte `bytes[byteCount-1]` the checksum is compared with. -/
def foundOf (P : List Nat) : Option Nat := if P.length = 0 then none else P.get? (P.length - 1)

/-- The checksum the decoder calculates for the bytes `P`. -/
def crcOf (P : List Nat) : Nat := crcLoop P (P.length - 1) 0 0

/-- The checksum message the decoder prints for the bytes `P`, if any. -/
def crcLog (P : List Nat) : List Msg :=
  if decide (foundOf P = some (crcOf P)) then [] else [Msg.checksumError (crcOf P) (foundOf P)]

/-- What the decoder returns for a trace that holds the bytes `P` twice. -/
def decodedTwice (P : List Nat) : Decoded :=
  ⟨P, P.length, decide (foundOf P = some (crcOf P)), some (P, P.length),
    crcLog P ++ crcLog P ++ []⟩

/-- The hex text of the canonical "off" frame of the specification. -/
def canonicalHex : List Char := "23CB2664000010FEFF000076614000000000B9".toList

/-- The 19 bytes written in `canonicalHex`. -/
def canonicalBytes : List Nat :=
  [0x23, 0xCB, 0x26, 0x64, 0x00, 0x00, 0x10, 0xFE, 0xFF, 0x00, 0x00, 0x76, 0x61, 0x40, 0x00,
    0x00, 0x00, 0x00, 0xB9]

/-- The checksum law of a payload: it is not empty and its last byte is the sum modulo 256
of the bytes in front of it. -/
def checksumLaw (bytes : List Nat) : Prop := bytes.getLast? = some (bytes.dropLast.sum % 256)

/-- The checksum law is decidable. -/
instance (bytes : List Nat) : Decidable (checksumLaw bytes) := by
  unfold checksumLaw; infer_instance

/-- Times of a trace of 21 edges whose eight measured spaces are alternately 800 µs and
801 µs long. -/
def thresholdTimes : List Int :=
  [0, 700, 4000, 5700, 6100, 6900, 7300, 8101, 8500, 9300, 9700, 10501, 10900, 11700, 12100,
    12901, 13300, 14100, 14500, 15301, 15700]

/-- Levels of the trace `thresholdTimes`. -/
def thresholdLevels : List Int :=
  [0, 1, 0, 1, 0, 1, 0, 1, 0, 1, 0, 1, 0, 1, 0, 1, 0, 1, 0, 1, 0]

/-- Bursts whose following low has a non-negative length. -/
def NonNegSegs (segs : List (Nat × Int)) : Prop := ∀ x ∈ segs, 0 ≤ x.2

/-- Samples kept when a sample is emitted iff its level differs from the last emitted
level `last`. -/
def keepP (last : Int) : List (Int × Int) → List (Int × Int)
  | [] => []
  | p :: r => if last ≠ p.2 then p :: keepP p.2 r else keepP last r

/-- The compaction `writeSamples` performs on a trace given as a list of `(time, level)`. -/
def compact (T : List (Int × Int)) : List (Int × Int) :=
  writeSamplesLoop (T.map Prod.fst) (T.map Prod.snd) T.length 0 (-1)

/-- Total number of cycles of a list of bursts. -/
def cycles : List (Nat × Int) → Nat
  | [] => 0
  | (n, _) :: r => n + cycles r

/-- Decimal digits of a natural number, most significant first (`[0]` for 0). -/
def decDigits (n : Nat) : List Nat := if n = 0 then [0] else (Nat.digits 10 n).reverse

/-- Times of a compact trace of two half-frames that carry the bytes `01 02` and `01 03`. -/
def lastByteTimes : List Int :=
  [0, 700, 4017, 5716, 6121, 7400, 7805, 8246, 8651, 9092, 9497, 9938, 10343, 10784, 11189,
    11630, 12035, 12476, 12881, 13322, 13727, 14168, 14573, 15852, 16257, 16698, 17103, 17544,
    17949, 18390, 18795, 19236, 19641, 20082, 20487, 20928, 21333, 32698, 36015, 37714, 38119,
    39398, 39803, 40244, 40649, 41090, 41495, 41936, 42341, 42782, 43187, 43628, 44033, 44474,
    44879, 45320, 45725, 47004, 47409, 48688, 49093, 49534, 49939, 50380, 50785, 51226, 51631,
    52072, 52477, 52918, 53323, 53764, 54169]

/-- Levels of the trace `lastByteTimes`. -/
def lastByteLevels : List Int :=
  [0, 1, 0, 1, 0, 1, 0, 1, 0, 1, 0, 1, 0, 1, 0, 1, 0, 1, 0, 1, 0, 1, 0, 1, 0, 1, 0, 1, 0, 1, 0,
    1, 0, 1, 0, 1, 0, 1, 0, 1, 0, 1, 0, 1, 0, 1, 0, 1, 0, 1, 0, 1, 0, 1, 0, 1, 0, 1, 0, 1, 0, 1,
    0, 1, 0, 1, 0, 1, 0, 1, 0, 1, 0]

/-- Times of a compact trace of 22 edges: `thresholdTimes` and one more rising edge 5000 µs
after the last fall. -/
def edgeTimes : List Int := thresholdTimes ++ [20700]

/-- Levels of the trace `edgeTimes`. -/
def edgeLevels : List Int := thresholdLevels ++ [1]

/-- Duration of the burst and the low of bit `k` (counted from the least significant bit) of
the byte `b`: `416 + 1268` µs for a 1 bit, `416 + 430` µs for a 0 bit. -/
def bitDuration (b k : Nat) : Int := if b / 2 ^ k % 2 = 1 then 416 + 1268 else 416 + 430

/-- Sum of `bitDuration` over all bits of a payload. -/
def bitsDuration (bytes : List Nat) : Int :=
  (bytes.map (fun b => ((List.range 8).map (bitDuration b)).sum)).sum

/-- A payload of 19 bytes whose last byte is the sum modulo 256 of the others: the bytes of
`canonicalHex` with the last byte replaced by the checksum 156. -/
def wellFormedBytes : List Nat := canonicalBytes.dropLast ++ [156]

/-- Times of a trace of 21 edges whose eight measured spaces are all 800 µs long. -/
def space800Times : List Int :=
  [0, 700, 4000, 5700, 6100, 6900, 7300, 8100, 8500, 9300, 9700, 10500, 10900, 11700, 12100,
    12900, 13300, 14100, 14500, 15300, 15700]

/-- Times of a trace of 21 edges whose eight measured spaces are all 801 µs long. -/
def space801Times : List Int :=
  [0, 700, 4000, 5700, 6100, 6901, 7301, 8102, 8502, 9303, 9703, 10504, 10904, 11705, 12105,
    12906, 13306, 14107, 14507, 15308, 15708]

/-- A hex text of 10 bytes whose last byte is not the sum of the others. -/
def uncheckedHex : List Char := "00000000000000000001".toList

/-! ## Lemmas -/

theorem store_end (a : List Int) (v : Int) (i : Nat) (hi : i = a.length) :
    store a i v = a ++ [v] := by
  subst hi
  simp [store]

theorem store_last (a : List Int) (x v : Int) (i : Nat) (hi : i = a.length) :
    store (a ++ [x]) i v = a ++ [v] := by
  subst hi
  simp [store]

theorem cyc_length (h l t : Int) (n : Nat) : (cyc h l t n).length = 2 * n := by
  induction n generalizing t with
  | zero => rfl
  | succ n ih => simp [cyc, ih]; omega

theorem alt_length (n : Nat) : (alt n).length = 2 * n := by
  induction n with
  | zero => rfl
  | succ n ih => simp [alt, ih]; omega

theorem addSampleLoop_spec (h l limit : Int) (base : Nat) (hpos : 0 < h + l) (k : Nat) :
    ∀ (fuel : Nat) (t : Int) (pos : Nat) (A S : List Int),
      k ≤ fuel → A.length = base + pos → S.length = base + pos →
      t + k * (h + l) ≤ limit → limit < t + (k + 1) * (h + l) →
      addSampleLoop h l limit base fuel t pos (A ++ [t]) S =
        some (t + k * (h + l), pos + 2 * k, A ++ cyc h l t k ++ [t + k * (h + l)], S ++ alt k) := by
  induction k with
  | zero =>
    intro fuel t pos A S _ _ _ h1 h2
    have hc : ¬ (t + h + l ≤ limit) := by
      simp at h2; omega
    cases fuel <;> simp [addSampleLoop, hc, cyc, alt]
  | succ k ih =>
    intro fuel t pos A S hf hA hS h1 h2
    obtain ⟨fuel, rfl⟩ : ∃ f, fuel = f + 1 := ⟨fuel - 1, by omega⟩
    have hk : (0:Int) ≤ k * (h + l) := by positivity
    have hc : t + h + l ≤ limit := by
      push_cast at h1; linarith
    simp only [addSampleLoop, hc, if_true]
    rw [store_end S 1 _ hS.symm, store_end (A ++ [t]) _ _ (by simp; omega),
      store_end (S ++ [1]) _ _ (by simp; omega),
      store_end (A ++ [t] ++ [t + h]) _ _ (by simp; omega)]
    have e1 : A ++ [t] ++ [t + h] ++ [t + h + l] = (A ++ [t, t + h]) ++ [t + (h + l)] := by
      simp; ring
    rw [e1, ih fuel (t + (h + l)) (pos + 2) (A ++ [t, t + h]) (S ++ [1] ++ [0]) (by omega)
      (by simp; omega) (by simp; omega) (by push_cast at h1; linarith)
      (by push_cast at h2 ⊢; linarith)]
    simp [cyc, alt]
    refine ⟨by ring, by omega, by ring⟩

theorem addSample_spec (h l pH pL : Int) (hpos : 0 < h + l) (hpH : 0 ≤ pH)
    (A S : List Int) (t : Int) (base : Nat) (hA : A.length = base) (hS : S.length = base) :
    addSample (A ++ [t]) S base h l pH pL =
      some (2 * (pH / (h + l)).toNat, A ++ cyc h l t (pH / (h + l)).toNat ++
        [t + (pH / (h + l)).toNat * (h + l) + pL], S ++ alt (pH / (h + l)).toNat) := by
  have hq : 0 ≤ pH / (h + l) := Int.ediv_nonneg hpH hpos.le
  have hk : (((pH / (h + l)).toNat : Nat) : Int) = pH / (h + l) := Int.toNat_of_nonneg hq
  have h1 : pH / (h + l) * (h + l) ≤ pH := Int.ediv_mul_le _ hpos.ne'
  have h2 : pH < (pH / (h + l) + 1) * (h + l) := Int.lt_ediv_add_one_mul_self _ hpos
  have hst : (A ++ [t]).getD base 0 = t := by
    subst hA; simp
  have hfuel : (pH / (h + l)).toNat ≤ pH.toNat := by
    apply Int.toNat_le_toNat
    exact Int.ediv_le_self _ hpH
  unfold addSample
  simp only [hst]
  rw [addSampleLoop_spec h l (t + pH) base hpos (pH / (h + l)).toNat pH.toNat t 0 A S hfuel
    (by omega) (by omega) (by rw [hk]; linarith) (by rw [hk]; linarith)]
  simp only [Nat.zero_add]
  rw [store_last _ _ _ _ (by simp [cyc_length]; omega)]

theorem segsT_append (t : Int) (a b : List (Nat × Int)) :
    segsT t (a ++ b) = segsT t a ++ segsT (segsEnd t a) b := by
  induction a generalizing t with
  | nil => rfl
  | cons x a ih => obtain ⟨n, g⟩ := x; simp [segsT, segsEnd, ih]

theorem segsEnd_append (t : Int) (a b : List (Nat × Int)) :
    segsEnd t (a ++ b) = segsEnd (segsEnd t a) b := by
  induction a generalizing t with
  | nil => rfl
  | cons x a ih => obtain ⟨n, g⟩ := x; simp [segsEnd, ih]

theorem segsS_append (a b : List (Nat × Int)) : segsS (a ++ b) = segsS a ++ segsS b := by
  induction a with
  | nil => rfl
  | cons x a ih => obtain ⟨n, g⟩ := x; simp [segsS, ih]

theorem segsT_length (t : Int) (a : List (Nat × Int)) : (segsT t a).length = (segsS a).length := by
  induction a generalizing t with
  | nil => rfl
  | cons x a ih => obtain ⟨n, g⟩ := x; simp [segsT, segsS, ih, cyc_length, alt_length]

theorem genSegs_append (a b : List (Nat × Int)) (A S : List Int) (t : Int) :
    genSegs (a ++ b) A S t = genSegs b (A ++ segsT t a) (S ++ segsS a) (segsEnd t a) := by
  simp [genSegs, segsT_append, segsEnd_append, segsS_append]

theorem genSegs_length (segs : List (Nat × Int)) (A S : List Int) (t : Int)
    (h : S.length = A.length) : (S ++ segsS segs).length = (A ++ segsT t segs).length := by
  simp [segsT_length, h]

theorem add_spec (A S : List Int) (t pH pL : Int) (hpH : 0 ≤ pH) (hS : S.length = A.length) :
    (GS A S t).add pH pL = some (genSegs [((pH / 26).toNat, pL)] A S t) := by
  unfold GenState.add GS
  simp only
  rw [addSample_spec hTime lTime pH pL (by decide) hpH A S t A.length rfl hS]
  simp [genSegs, GS, segsT, segsS, segsEnd, cyc_length, hTime, lTime]

theorem genBits_spec (b : Nat) (n : Nat) : ∀ (k : Nat) (A S : List Int) (t : Int),
    S.length = A.length →
    genBits b n k (GS A S t) = some (genSegs (bitSegs b n k) A S t) := by
  induction n with
  | zero => intro k A S t _; simp [genBits, genSegs, bitSegs, segsT, segsS, segsEnd]
  | succ n ih =>
    intro k A S t hS
    have e : bitSegs b (n + 1) k = [bitSeg b k] ++ bitSegs b n (k + 1) := rfl
    rw [e, genSegs_append, ← ih _ _ _ _ (genSegs_length _ A S t hS)]
    simp only [genBits]
    rw [add_spec A S t _ _ (by decide) hS]
    rfl

theorem genBytes_spec (bytes : List Nat) : ∀ (A S : List Int) (t : Int),
    S.length = A.length →
    genBytes bytes (GS A S t) = some (genSegs (byteSegs bytes) A S t) := by
  induction bytes with
  | nil => intro A S t _; simp [genBytes, genSegs, byteSegs, segsT, segsS, segsEnd]
  | cons b rest ih =>
    intro A S t hS
    simp only [byteSegs]
    rw [genSegs_append, ← ih _ _ _ (genSegs_length _ A S t hS)]
    simp only [genBytes]
    rw [genBits_spec b 8 0 A S t hS]
    rfl

theorem genFrame_spec (bytes : List Nat) (A S : List Int) (t : Int) (hS : S.length = A.length) :
    genFrame bytes (GS A S t) = some (genSegs (frameSegs bytes) A S t) := by
  have e : frameSegs bytes =
      [(128, initPulseLLength)] ++ (byteSegs bytes ++ ([(16, 0)] ++ [(0, repeatePause)])) := rfl
  have l1 := genSegs_length [(128, initPulseLLength)] A S t hS
  have l2 := genSegs_length (byteSegs bytes) _ _ (segsEnd t [(128, initPulseLLength)]) l1
  have l3 := genSegs_length [(16, 0)] _ _
    (segsEnd (segsEnd t [(128, initPulseLLength)]) (byteSegs bytes)) l2
  rw [e, genSegs_append, genSegs_append, genSegs_append]
  unfold genFrame
  rw [add_spec A S t _ _ (by decide) hS]
  have e1 : (initPulseHLength / 26).toNat = 128 := by decide
  have e2 : (bitHLength / 26).toNat = 16 := by decide
  have e3 : ((0 : Int) / 26).toNat = 0 := by decide
  rw [e1]
  simp only []
  rw [genSegs, genBytes_spec bytes _ _ _ l1]
  simp only []
  rw [genSegs, add_spec _ _ _ _ _ (by decide) l2, e2]
  simp only []
  rw [genSegs, add_spec _ _ _ _ _ (by decide) l3, e3]

theorem segsS_frame_head (bytes : List Nat) (X : List (Nat × Int)) :
    ∃ rest, segsS (frameSegs bytes ++ X) = 1 :: 0 :: rest := by
  refine ⟨alt 127 ++ segsS ((byteSegs bytes ++ [(16, 0), (0, repeatePause)]) ++ X), ?_⟩
  have h : alt 128 = 1 :: 0 :: alt 127 := rfl
  simp only [frameSegs, List.cons_append, segsS, h]
  rfl

theorem generateRawBytes_spec (bytes : List Nat) :
    generateRawBytes bytes = some
      ⟨0 :: (segsT 700 (frameSegs bytes ++ frameSegs bytes) ++
          [segsEnd 700 (frameSegs bytes ++ frameSegs bytes)]),
        0 :: segsS (frameSegs bytes ++ frameSegs bytes),
        1 + (segsS (frameSegs bytes ++ frameSegs bytes)).length⟩ := by
  unfold generateRawBytes
  have e0 : (⟨1, store (store [] 0 0) 1 initOffsetTime, store [] 0 0⟩ : GenState) = GS [0] [0] 700 := by
    simp [store, GS, initOffsetTime]
  simp only [e0]
  rw [genFrame_spec bytes _ _ _ rfl]
  simp only []
  rw [genSegs, genFrame_spec bytes _ _ _ (genSegs_length _ _ _ _ rfl)]
  simp only []
  rw [← genSegs_append]
  obtain ⟨rest, hr⟩ := segsS_frame_head bytes (frameSegs bytes)
  simp only [genSegs, GS, Trace.mk.injEq, Option.some.injEq]
  refine ⟨by simp, ?_, ?_⟩
  · rw [hr]; simp [store]
  · simp [segsT_length]; omega

theorem take_set_succ (s : List Int) (j : Nat) (v : Int) (h : j < s.length) :
    (s.set j v).take (j + 1) = s.take j ++ [v] := by
  rw [List.set_eq_take_append_cons_drop, if_pos h]
  rw [List.take_append_eq_append_take]
  simp [List.length_take, Nat.min_eq_left h.le]

theorem getD_set_of_le (s : List Int) (i j : Nat) (h : j ≤ i) :
    (s.set j (s.getD i 0)).getD i 0 = s.getD i 0 := by
  simp only [List.getD_eq_getElem?_getD, List.getElem?_set]
  by_cases hji : j = i
  · subst hji
    by_cases hl : j < s.length
    · simp [hl]
    · simp [hl, List.getElem?_eq_none (Nat.le_of_not_lt hl)]
  · simp [hji]

theorem take_succ_drop (s : List Int) (i n : Nat) (h : i < s.length) :
    (s.drop i).take (n + 1) = s.getD i 0 :: (s.drop (i + 1)).take n := by
  rw [List.drop_eq_getElem_cons h, List.take_succ_cons, List.getD_eq_getElem _ _ h]

theorem keepT_nil_right (prev : Int) (ts : List Int) : keepT prev ts [] = [] := by
  cases ts <;> rfl

theorem keepT_length (prev : Int) (ts ss : List Int) (h : ts.length = ss.length) :
    (keepT prev ts ss).length = (keepS prev ss).length := by
  induction ss generalizing prev ts with
  | nil => cases ts <;> simp [keepT, keepS]
  | cons s ss ih =>
    cases ts with
    | nil => simp at h
    | cons t ts =>
      simp only [keepT, keepS]
      split
      · simp [ih _ ts (by simpa using h)]
      · exact ih _ ts (by simpa using h)

theorem compactLoop_spec (n : Nat) : ∀ (i j : Nat) (st s : List Int),
    j ≤ i → i + n < s.length → i + n < st.length →
    ∃ st' s', compactLoop n i j st s =
        (j + (keepS (s.getD i 0) ((s.drop (i + 1)).take n)).length, st', s') ∧
      s'.take (j + 1 + (keepS (s.getD i 0) ((s.drop (i + 1)).take n)).length) =
        s.take (j + 1) ++ keepS (s.getD i 0) ((s.drop (i + 1)).take n) ∧
      st'.take (j + 1 + (keepS (s.getD i 0) ((s.drop (i + 1)).take n)).length) =
        st.take (j + 1) ++
          keepT (s.getD i 0) ((st.drop (i + 1)).take n) ((s.drop (i + 1)).take n) ∧
      s'.length = s.length ∧ st'.length = st.length := by
  induction n with
  | zero =>
    intro i j st s _ _ hl
    exact ⟨st, s, by simp [compactLoop, keepS], by simp [keepS],
      by simp [keepS, keepT_nil_right], rfl, rfl⟩
  | succ n ih =>
    intro i j st s hji hlen hl
    rw [take_succ_drop s (i + 1) n (by omega), take_succ_drop st (i + 1) n (by omega)]
    simp only [compactLoop, keepS, keepT]
    by_cases hne : s.getD i 0 = s.getD (i + 1) 0
    · simp only [hne, ne_eq, not_true_eq_false, if_false]
      have := ih (i + 1) j st s (by omega) (by omega) (by omega)
      simpa using this
    · simp only [ne_eq, hne, not_false_eq_true, if_true]
      obtain ⟨st', s', h1, h2, h3, h4, h5⟩ := ih (i + 1) (j + 1)
        (st.set (j + 1) (st.getD (i + 1) 0)) (s.set (j + 1) (s.getD (i + 1) 0))
        (by omega) (by simp; omega) (by simp; omega)
      rw [getD_set_of_le s (i + 1) (j + 1) (by omega),
        List.drop_set_of_lt _ _ (by omega : j + 1 < i + 1 + 1)] at h1 h2 h3
      rw [take_set_succ _ _ _ (by omega)] at h2
      rw [List.drop_set_of_lt _ _ (by omega : j + 1 < i + 1 + 1),
        take_set_succ _ _ _ (by omega)] at h3
      refine ⟨st', s', ?_, ?_, ?_, ?_, ?_⟩
      · rw [h1]; simp; omega
      · simp only [List.length_cons]
        rw [← Nat.add_assoc, Nat.add_right_comm _ _ 1, h2]
        simp
      · simp only [List.length_cons]
        rw [← Nat.add_assoc, Nat.add_right_comm _ _ 1, h3]
        simp
      · simpa using h4
      · simpa using h5

theorem flattenLoop_shift (n : Nat) : ∀ (i : Nat) (T : List Int) (a : Int) (s : List Int),
    flattenLoop T n (i + 1) (a :: s) = a :: flattenLoop T.tail n i s := by
  induction n with
  | zero => intro i T a s; rfl
  | succ n ih =>
    intro i T a s
    have hT : ∀ k, T.getD (k + 1) 0 = T.tail.getD k 0 := by
      intro k; cases T <;> simp
    simp only [flattenLoop, List.getD_cons_succ, List.set_cons_succ, hT]
    split
    · rw [ih]
    · rw [ih]

theorem flattenLoop_step (k : Nat) (T : List Int) (s0 : Int) (S : List Int) :
    flattenLoop T (k + 1) 0 (s0 :: S) = s0 :: flattenLoop T.tail k 0
      (if s0 = 1 ∧ S.getD 0 0 = 0 ∧ S.getD 1 0 = 1 ∧ T.getD 2 0 - T.getD 1 0 < 200
        then S.set 0 1 else S) := by
  simp only [flattenLoop, List.getD_cons_succ, List.set_cons_succ, List.getD_cons_zero]
  split
  · rw [flattenLoop_shift]
  · rw [flattenLoop_shift]

theorem flattenLoop_skip (k : Nat) (T : List Int) (s0 : Int) (S : List Int)
    (h : ¬ (s0 = 1 ∧ S.getD 0 0 = 0 ∧ S.getD 1 0 = 1 ∧ T.getD 2 0 - T.getD 1 0 < 200)) :
    flattenLoop T k 0 (s0 :: S) = s0 :: flattenLoop T.tail (k - 1) 0 S := by
  cases k with
  | zero => rfl
  | succ k => rw [flattenLoop_step, if_neg h]; rfl

theorem flatten_burst (m : Nat) : ∀ (t : Int) (k : Nat) (R TR : List Int),
    (R.getD 0 0 = 1 → 200 ≤ TR.getD 0 0 - (t + m * 26 + 15)) →
    k = 2 * m + R.length →
    flattenLoop (cyc 15 11 t (m + 1) ++ TR) k 0 (alt (m + 1) ++ R) =
      List.replicate (2 * m + 1) 1 ++ 0 :: flattenLoop TR (R.length - 2) 0 R := by
  induction m with
  | zero =>
    intro t k R TR hgap hk
    simp only [cyc, alt, List.cons_append, List.nil_append]
    rw [flattenLoop_skip, flattenLoop_skip]
    · simp [hk]
      rfl
    · simp
    · simp only [List.getD_cons_zero, List.getD_cons_succ, true_and]
      intro ⟨h1, h2⟩
      have := hgap h1
      simp at this
      omega
  | succ m ih =>
    intro t k R TR hgap hk
    obtain ⟨k, rfl⟩ : ∃ k', k = k' + 2 := ⟨k - 2, by omega⟩
    have e1 : cyc 15 11 t (m + 1 + 1) ++ TR = t :: (t + 15) :: (cyc 15 11 (t + 26) (m + 1) ++ TR) := by
      simp [cyc]
    have e2 : alt (m + 1 + 1) ++ R = 1 :: 0 :: (alt (m + 1) ++ R) := by
      simp [alt]
    have e3 : (cyc 15 11 (t + 26) (m + 1) ++ TR).getD 0 0 = t + 26 := by simp [cyc]
    have e4 : (alt (m + 1) ++ R).getD 0 0 = 1 := by simp [alt]
    rw [e1, e2, flattenLoop_step]
    simp only [List.getD_cons_zero, List.getD_cons_succ, e3, e4, List.set_cons_zero, List.tail_cons]
    rw [if_pos (by refine ⟨trivial, trivial, trivial, by omega⟩)]
    rw [flattenLoop_skip _ _ _ _ (by intro ⟨_, h, _⟩; rw [e4] at h; exact absurd h (by decide))]
    simp only [List.tail_cons, Nat.add_sub_cancel]
    rw [ih (t + 26) k R TR (by intro h; have := hgap h; push_cast at this; omega) (by omega)]
    rw [show 2 * (m + 1) + 1 = (2 * m + 1) + 1 + 1 by ring, List.replicate_succ, List.replicate_succ]
    rfl

theorem goodSegs_tail {x : Nat × Int} {r : List (Nat × Int)} (h : GoodSegs (x :: r)) :
    GoodSegs r := fun y hy => h y (List.mem_cons_of_mem _ hy)

theorem goodSegs_head {n : Nat} {g : Int} {r : List (Nat × Int)} (h : GoodSegs ((n, g) :: r)) :
    1 ≤ n ∧ 189 ≤ g := h (n, g) (List.mem_cons_self _ _)

theorem goodSegs_append {a b : List (Nat × Int)} (ha : GoodSegs a) (hb : GoodSegs b) :
    GoodSegs (a ++ b) := by
  intro x hx
  rcases List.mem_append.1 hx with h | h
  · exact ha x h
  · exact hb x h

theorem segsS_getD_zero (r : List (Nat × Int)) (X : List Int) (hr : GoodSegs r) (hne : r ≠ []) :
    (segsS r ++ X).getD 0 0 = 1 := by
  cases r with
  | nil => exact absurd rfl hne
  | cons x r =>
    obtain ⟨n, g⟩ := x
    obtain ⟨m, rfl⟩ : ∃ m, n = m + 1 := ⟨n - 1, by have := (goodSegs_head hr).1; omega⟩
    simp [segsS, alt]

theorem segsT_getD_zero (t : Int) (r : List (Nat × Int)) (X : List Int) (hr : GoodSegs r)
    (hne : r ≠ []) : (segsT t r ++ X).getD 0 0 = t := by
  cases r with
  | nil => exact absurd rfl hne
  | cons x r =>
    obtain ⟨n, g⟩ := x
    obtain ⟨m, rfl⟩ : ∃ m, n = m + 1 := ⟨n - 1, by have := (goodSegs_head hr).1; omega⟩
    simp [segsT, cyc]

theorem flatten_segs (segs : List (Nat × Int)) : ∀ (t : Int) (X : List Int) (k : Nat),
    GoodSegs segs → k = (segsS segs).length - 2 →
    flattenLoop (segsT t segs ++ X) k 0 (segsS segs) = flatS segs := by
  induction segs with
  | nil => intro t X k _ hk; subst hk; rfl
  | cons x r ih =>
    intro t X k hg hk
    obtain ⟨n, g⟩ := x
    obtain ⟨m, rfl⟩ : ∃ m, n = m + 1 := ⟨n - 1, by have := (goodSegs_head hg).1; omega⟩
    simp only [segsT, segsS, flatS, List.append_assoc]
    rw [flatten_burst m t k (segsS r) (segsT (t + ((m + 1 : Nat) : Int) * 26 + g) r ++ X)]
    · rw [ih _ X _ (goodSegs_tail hg) rfl]
    · intro h1
      have hne : r ≠ [] := by
        rintro rfl
        simp [segsS] at h1
      have := segsT_getD_zero (t + ((m + 1 : Nat) : Int) * 26 + g) r X (goodSegs_tail hg) hne
      rw [this]
      have := (goodSegs_head hg).2
      omega
    · simp [segsS, alt_length] at hk
      omega

theorem envS_getD_zero (r : List (Nat × Int)) (X : List Int) (hr : GoodSegs r) (hne : r ≠ []) :
    (envS r ++ X).getD 0 0 = 1 := by
  cases r with
  | nil => exact absurd rfl hne
  | cons x r =>
    obtain ⟨n, g⟩ := x
    obtain ⟨m, rfl⟩ : ∃ m, n = m + 1 := ⟨n - 1, by have := (goodSegs_head hr).1; omega⟩
    simp [envS]

theorem envT_getD_zero (t : Int) (r : List (Nat × Int)) (X : List Int) (hr : GoodSegs r)
    (hne : r ≠ []) : (envT t r ++ X).getD 0 0 = t := by
  cases r with
  | nil => exact absurd rfl hne
  | cons x r =>
    obtain ⟨n, g⟩ := x
    obtain ⟨m, rfl⟩ : ∃ m, n = m + 1 := ⟨n - 1, by have := (goodSegs_head hr).1; omega⟩
    simp [envT]

theorem envS_length (r : List (Nat × Int)) (hr : GoodSegs r) : (envS r).length = 2 * r.length := by
  induction r with
  | nil => rfl
  | cons x r ih =>
    obtain ⟨n, g⟩ := x
    obtain ⟨m, rfl⟩ : ∃ m, n = m + 1 := ⟨n - 1, by have := (goodSegs_head hr).1; omega⟩
    simp [envS, ih (goodSegs_tail hr)]; omega

theorem envT_length (t : Int) (r : List (Nat × Int)) : (envT t r).length = (envS r).length := by
  induction r generalizing t with
  | nil => rfl
  | cons x r ih =>
    obtain ⟨n, g⟩ := x
    cases n with
    | zero => simp [envT, envS, ih]
    | succ m => simp [envT, envS, ih]

theorem flatten_env (segs : List (Nat × Int)) : ∀ (t : Int) (k : Nat) (X Y : List Int),
    GoodSegs segs → k ≤ (envS segs).length - 2 →
    flattenLoop (envT t segs ++ X) k 0 (envS segs ++ Y) = envS segs ++ Y := by
  induction segs with
  | nil => intro t k X Y _ hk; simp [envS] at hk; subst hk; rfl
  | cons x r ih =>
    intro t k X Y hg hk
    obtain ⟨n, g⟩ := x
    obtain ⟨m, rfl⟩ : ∃ m, n = m + 1 := ⟨n - 1, by have := (goodSegs_head hg).1; omega⟩
    cases k with
    | zero => rfl
    | succ k =>
      simp only [envS, List.length_cons] at hk
      have hne : r ≠ [] := by
        rintro rfl
        simp [envS] at hk
      simp only [envT, envS, List.cons_append]
      rw [flattenLoop_skip, flattenLoop_skip]
      · simp only [List.tail_cons]
        rw [ih _ _ X Y (goodSegs_tail hg) (by omega)]
      · simp
      · simp only [List.getD_cons_zero, List.getD_cons_succ, true_and]
        rw [envT_getD_zero _ r X (goodSegs_tail hg) hne]
        have := (goodSegs_head hg).2
        omega

theorem keepS_replicate (p : Int) (j : Nat) (rest : List Int) :
    keepS p (List.replicate j p ++ rest) = keepS p rest := by
  induction j with
  | zero => rfl
  | succ j ih => simp [List.replicate_succ, keepS, ih]

theorem keepT_replicate (p : Int) (j : Nat) : ∀ (ts rest : List Int),
    keepT p ts (List.replicate j p ++ rest) = keepT p (ts.drop j) rest := by
  induction j with
  | zero => intro ts rest; rfl
  | succ j ih =>
    intro ts rest
    cases ts with
    | nil => cases rest <;> simp [List.replicate_succ, keepT]
    | cons t ts => simp [List.replicate_succ, keepT, ih]

theorem cyc_drop (m : Nat) : ∀ (t : Int) (TR : List Int),
    ((t + 15) :: (cyc 15 11 (t + 26) m ++ TR)).drop (2 * m) = (t + m * 26 + 15) :: TR := by
  induction m with
  | zero => intro t TR; simp [cyc]
  | succ m ih =>
    intro t TR
    rw [show 2 * (m + 1) = 2 * m + 1 + 1 by ring]
    simp only [cyc, List.cons_append, List.drop_succ_cons]
    have := ih (t + 26) TR
    rw [show t + 26 + (15 + 11) = t + 26 + 26 by ring, this]
    push_cast
    ring_nf

theorem keepS_flat (segs : List (Nat × Int)) (hg : GoodSegs segs) :
    keepS 0 (flatS segs) = envS segs := by
  induction segs with
  | nil => rfl
  | cons x r ih =>
    obtain ⟨n, g⟩ := x
    obtain ⟨m, rfl⟩ : ∃ m, n = m + 1 := ⟨n - 1, by have := (goodSegs_head hg).1; omega⟩
    simp only [flatS, envS]
    rw [show 2 * m + 1 = 2 * m + 1 from rfl, List.replicate_succ, List.cons_append, keepS,
      if_pos (by decide), keepS_replicate, keepS, if_pos (by decide), ih (goodSegs_tail hg)]

theorem keepT_flat (segs : List (Nat × Int)) : ∀ (t : Int) (X : List Int), GoodSegs segs →
    keepT 0 (segsT t segs ++ X) (flatS segs) = envT t segs := by
  induction segs with
  | nil => intro t X _; simp [flatS, envT, keepT_nil_right]
  | cons x r ih =>
    intro t X hg
    obtain ⟨n, g⟩ := x
    obtain ⟨m, rfl⟩ : ∃ m, n = m + 1 := ⟨n - 1, by have := (goodSegs_head hg).1; omega⟩
    simp only [flatS, envT, segsT, cyc, List.cons_append, List.append_assoc]
    rw [List.replicate_succ, List.cons_append, keepT, if_pos (by decide), keepT_replicate]
    rw [show t + (15 + 11) = t + 26 by ring, cyc_drop, keepT, if_pos (by decide),
      ih _ X (goodSegs_tail hg)]
    push_cast
    rfl

theorem keepS_env (segs : List (Nat × Int)) (hg : GoodSegs segs) :
    keepS 0 (envS segs) = envS segs := by
  induction segs with
  | nil => rfl
  | cons x r ih =>
    obtain ⟨n, g⟩ := x
    obtain ⟨m, rfl⟩ : ∃ m, n = m + 1 := ⟨n - 1, by have := (goodSegs_head hg).1; omega⟩
    simp only [envS, keepS]
    rw [if_pos (by decide), if_pos (by decide), ih (goodSegs_tail hg)]

theorem keepT_env (segs : List (Nat × Int)) : ∀ (t : Int) (X : List Int), GoodSegs segs →
    keepT 0 (envT t segs ++ X) (envS segs) = envT t segs := by
  induction segs with
  | nil => intro t X _; simp [envS, envT, keepT_nil_right]
  | cons x r ih =>
    intro t X hg
    obtain ⟨n, g⟩ := x
    obtain ⟨m, rfl⟩ : ∃ m, n = m + 1 := ⟨n - 1, by have := (goodSegs_head hg).1; omega⟩
    simp only [envS, envT, keepT, List.cons_append, List.append_eq]
    rw [if_pos (by decide), if_pos (by decide), ih _ X (goodSegs_tail hg)]

theorem getD_of_drop (T L : List Int) (i k : Nat) (h : T.drop i = L) :
    T.getD (i + k) 0 = L.getD k 0 := by
  subst h
  simp [List.getD_eq_getElem?_getD, List.getElem?_drop]

theorem bitLoopAt_odd (T : List Int) (n i : Nat) (σ : Nat × Nat × Nat × List Nat)
    (hi : i % 2 = 1) : bitLoopAt T (n + 1) i σ = bitLoopAt T n (i + 1) σ := by
  simp [bitLoopAt, bitLoop, hi]

theorem bitLoopAt_even (T : List Int) (n i : Nat) (σ : Nat × Nat × Nat × List Nat)
    (hi : i % 2 = 0) (hdt : T.getD (i + 1) 0 - T.getD i 0 ≤ 2000) :
    bitLoopAt T (n + 1) i σ =
      bitLoopAt T n (i + 1) (stepBit σ (bitOf (T.getD (i + 1) 0 - T.getD i 0))) := by
  have h : ¬ (2000 < T.getD (i + 1) 0 - T.getD i 0) := by omega
  simp only [bitLoopAt, bitLoop, hi, if_true, h, if_false, stepBit]
  split <;> rfl

theorem bitLoopAt_break (T : List Int) (n i : Nat) (σ : Nat × Nat × Nat × List Nat)
    (hi : i % 2 = 0) (hdt : 2000 < T.getD (i + 1) 0 - T.getD i 0) :
    bitLoopAt T (n + 1) i σ =
      ((stepBit σ (bitOf (T.getD (i + 1) 0 - T.getD i 0))).2.2.2,
        (stepBit σ (bitOf (T.getD (i + 1) 0 - T.getD i 0))).2.1, (i : Int)) := by
  simp only [bitLoopAt, bitLoop, hi, if_true, hdt, stepBit]
  split <;> rfl

theorem bitLoopAt_zero (T : List Int) (i : Nat) (σ : Nat × Nat × Nat × List Nat) :
    bitLoopAt T 0 i σ = (σ.2.2.2, σ.2.1, -1) := rfl

theorem bitSegs_tail {x : Nat × Int} {r : List (Nat × Int)} (h : BitSegs (x :: r)) :
    BitSegs r := fun y hy => h y (List.mem_cons_of_mem _ hy)

theorem bitSegs_head {n : Nat} {g : Int} {r : List (Nat × Int)} (h : BitSegs ((n, g) :: r)) :
    1 ≤ n ∧ 189 ≤ g ∧ g ≤ 1989 := h (n, g) (List.mem_cons_self _ _)

theorem bitSegs_good {segs : List (Nat × Int)} (h : BitSegs segs) : GoodSegs segs :=
  fun x hx => ⟨(h x hx).1, (h x hx).2.1⟩

/-- The head of what follows a list of bursts in an envelope is the next rise. -/
theorem envT_next (t : Int) (r : List (Nat × Int)) (te : Int) (TR : List Int) (hr : GoodSegs r)
    (hte : te = segsEnd t r) : (envT t r ++ te :: TR).getD 0 0 = t := by
  cases r with
  | nil => simp [envT, hte, segsEnd]
  | cons x r => exact envT_getD_zero t _ _ hr (by simp)

theorem bitLoop_bits (T : List Int) (TR : List Int) (segs : List (Nat × Int)) :
    ∀ (t : Int) (i n : Nat) (σ : Nat × Nat × Nat × List Nat),
      BitSegs segs → i % 2 = 1 → T.drop i = envT t segs ++ segsEnd t segs :: TR →
      bitLoopAt T (n + 2 * segs.length) i σ =
        bitLoopAt T n (i + 2 * segs.length) ((segBits segs).foldl stepBit σ) := by
  induction segs with
  | nil => intro t i n σ _ _ _; rfl
  | cons x r ih =>
    intro t i n σ hb hi hd
    obtain ⟨m, g⟩ := x
    obtain ⟨m, rfl⟩ : ∃ k, m = k + 1 := ⟨m - 1, by have := (bitSegs_head hb).1; omega⟩
    have h0 := getD_of_drop T _ i 1 hd
    have h1 := getD_of_drop T _ i 2 hd
    have hd2 : T.drop (i + 2) =
        envT (t + ((m : Int) + 1) * 26 + g) r ++ segsEnd (t + ((m : Int) + 1) * 26 + g) r :: TR := by
      rw [← List.drop_drop, hd]
      simp [envT, segsEnd]
    simp only [envT, List.cons_append, List.getD_cons_succ, List.getD_cons_zero] at h0 h1
    rw [envT_next _ r _ TR (bitSegs_good (bitSegs_tail hb)) (by simp [segsEnd])] at h1
    have hdt : T.getD (i + 1 + 1) 0 - T.getD (i + 1) 0 = g + 11 := by
      rw [show i + 1 + 1 = i + 2 from rfl, h0, h1]; ring
    rw [show n + 2 * (List.length ((m + 1, g) :: r)) = (n + 2 * r.length + 1) + 1 by
      simp; ring]
    rw [bitLoopAt_odd _ _ _ _ hi, bitLoopAt_even _ _ _ _ (by omega) (by rw [hdt]; have := (bitSegs_head hb); omega)]
    rw [hdt, ih _ (i + 1 + 1) n _ (bitSegs_tail hb) (by omega) hd2]
    simp only [segBits, List.map_cons, List.foldl_cons, List.length_cons]
    rw [show i + 1 + 1 + 2 * r.length = i + 2 * (r.length + 1) by ring]

theorem bitSeg_bit (b k : Nat) : bitOf ((bitSeg b k).2 + 11) = (b >>> k) &&& 1 := by
  have h : (b >>> k) &&& 1 = 0 ∨ (b >>> k) &&& 1 = 1 := by
    rw [Nat.and_one_is_mod]; omega
  rcases h with h | h <;> simp [bitSeg, h, bitOf, oneZeroLevel, oneBitLLength, zeroBitLLength]

theorem bitSegs_length (b n k : Nat) : (bitSegs b n k).length = n := by
  induction n generalizing k with
  | zero => rfl
  | succ n ih => simp [bitSegs, ih]

theorem byteSegs_length (P : List Nat) : (byteSegs P).length = 8 * P.length := by
  induction P with
  | nil => rfl
  | cons b P ih => simp [byteSegs, bitSegs_length, ih]; omega

theorem bitSegs_bitSegs (b n k : Nat) : BitSegs (bitSegs b n k) := by
  induction n generalizing k with
  | zero => intro x hx; simp [bitSegs] at hx
  | succ n ih =>
    intro x hx
    simp only [bitSegs, List.mem_cons] at hx
    rcases hx with rfl | hx
    · simp only [bitSeg, oneBitLLength, zeroBitLLength]
      split <;> decide
    · exact ih _ x hx

theorem byteSegs_bitSegs (P : List Nat) : BitSegs (byteSegs P) := by
  induction P with
  | nil => intro x hx; simp [byteSegs] at hx
  | cons b P ih =>
    intro x hx
    simp only [byteSegs, List.mem_append] at hx
    rcases hx with hx | hx
    · exact bitSegs_bitSegs b 8 0 x hx
    · exact ih x hx

set_option maxRecDepth 100000 in
theorem assemble_byte : ∀ b, b < 256 →
    shiftIn (shiftIn (shiftIn (shiftIn (shiftIn (shiftIn (shiftIn (shiftIn 0
      ((b >>> 0) &&& 1)) ((b >>> 1) &&& 1)) ((b >>> 2) &&& 1)) ((b >>> 3) &&& 1))
      ((b >>> 4) &&& 1)) ((b >>> 5) &&& 1)) ((b >>> 6) &&& 1)) ((b >>> 7) &&& 1) = b := by
  decide

theorem foldl_byte (b bi : Nat) (bytes : List Nat) (hb : b < 256) :
    (segBits (bitSegs b 8 0)).foldl stepBit (0, bi, 0, bytes) = (0, bi + 1, 0, bytes ++ [b]) := by
  simp only [segBits, bitSegs, List.map_cons, List.map_nil, bitSeg_bit, List.foldl_cons,
    List.foldl_nil, stepBit]
  simp only [Nat.reduceAdd, Nat.reduceLeDiff, if_false, if_true, le_refl]
  rw [assemble_byte b hb]

theorem segBits_append (a b : List (Nat × Int)) : segBits (a ++ b) = segBits a ++ segBits b := by
  simp [segBits]

theorem foldl_bytes (P : List Nat) : ∀ (bi : Nat) (bytes : List Nat), (∀ b ∈ P, b < 256) →
    (segBits (byteSegs P)).foldl stepBit (0, bi, 0, bytes) = (0, bi + P.length, 0, bytes ++ P) := by
  induction P with
  | nil => intro bi bytes _; simp [byteSegs, segBits]
  | cons b P ih =>
    intro bi bytes hP
    simp only [byteSegs, segBits_append, List.foldl_append]
    rw [foldl_byte b bi bytes (hP b (List.mem_cons_self _ _)),
      ih _ _ (fun c hc => hP c (List.mem_cons_of_mem _ hc))]
    simp
    omega

theorem crcLoop_spec (bytes : List Nat) (n : Nat) : ∀ (i crc : Nat), crc < 256 →
    crcLoop bytes n i crc = (crc + ((bytes.drop i).take n).sum) % 256 := by
  induction n with
  | zero => intro i crc h; simp [crcLoop]; omega
  | succ n ih =>
    intro i crc h
    simp only [crcLoop]
    rw [ih _ _ (Nat.mod_lt _ (by decide))]
    by_cases hi : i < bytes.length
    · rw [List.drop_eq_getElem_cons hi, List.take_succ_cons, List.sum_cons,
        List.getD_eq_getElem _ _ hi]
      omega
    · have h1 : bytes.drop i = [] := List.drop_eq_nil_of_le (by omega)
      have h2 : bytes.drop (i + 1) = [] := List.drop_eq_nil_of_le (by omega)
      have h3 : bytes.getD i 0 = 0 := by
        rw [List.getD_eq_getElem?_getD, List.getElem?_eq_none (by omega)]; rfl
      rw [h1, h2, h3]
      simp

theorem isEqualLoop_self (P : List Nat) (n : Nat) : ∀ i, isEqualLoop P P n i = 1 := by
  induction n with
  | zero => intro i; rfl
  | succ n ih => intro i; simp [isEqualLoop, ih]

theorem isEqual_self (P : List Nat) (n : Nat) : isEqual P n P n = 1 := by
  simp [isEqual, isEqualLoop_self]

theorem segs_merge (a b : List (Nat × Int)) (n : Nat) (g g' : Int) (t : Int) :
    segsT t (a ++ (n, g) :: (0, g') :: b) = segsT t (a ++ (n, g + g') :: b) ∧
    segsS (a ++ (n, g) :: (0, g') :: b) = segsS (a ++ (n, g + g') :: b) ∧
    segsEnd t (a ++ (n, g) :: (0, g') :: b) = segsEnd t (a ++ (n, g + g') :: b) := by
  have e : ∀ u : Int, u + n * 26 + g + ((0 : Nat) : Int) * 26 + g' = u + n * 26 + (g + g') := by
    intro u; push_cast; ring
  refine ⟨?_, ?_, ?_⟩
  · simp only [segsT_append, segsT, cyc, List.nil_append, e]
  · simp only [segsS_append, segsS, alt, List.nil_append]
  · simp only [segsEnd_append, segsEnd, e]

theorem frame_norm (P : List Nat) (b : List (Nat × Int)) (t : Int) :
    segsT t (frameSegs P ++ b) = segsT t (frameN P ++ b) ∧
    segsS (frameSegs P ++ b) = segsS (frameN P ++ b) ∧
    segsEnd t (frameSegs P ++ b) = segsEnd t (frameN P ++ b) := by
  have h := segs_merge ((128, 1688) :: byteSegs P) b 16 0 11354 t
  simpa [frameSegs, frameN, initPulseLLength, repeatePause] using h

theorem frame2_norm (P : List Nat) (t : Int) :
    segsT t (frameSegs P ++ frameSegs P) = segsT t (frameN P ++ frameN P) ∧
    segsS (frameSegs P ++ frameSegs P) = segsS (frameN P ++ frameN P) ∧
    segsEnd t (frameSegs P ++ frameSegs P) = segsEnd t (frameN P ++ frameN P) := by
  have h1 := frame_norm P (frameSegs P) t
  have h2 := frame_norm P [] (segsEnd t (frameN P))
  have h3 := frame_norm P [] t
  simp only [List.append_nil] at h2 h3
  refine ⟨?_, ?_, ?_⟩
  · rw [h1.1, segsT_append, segsT_append, h2.1]
  · rw [h1.2.1, segsS_append, segsS_append, h3.2.1]
  · rw [h1.2.2, segsEnd_append, segsEnd_append, h2.2.2]

theorem frameN_good (P : List Nat) : GoodSegs (frameN P) := by
  intro x hx
  simp only [frameN, List.mem_cons, List.mem_append, List.mem_singleton, List.mem_nil_iff,
    or_false] at hx
  rcases hx with rfl | hx | rfl
  · decide
  · exact (bitSegs_good (byteSegs_bitSegs P)) x hx
  · decide

theorem frameN_length (P : List Nat) : (frameN P).length = 8 * P.length + 2 := by
  simp [frameN, byteSegs_length]

theorem envT_append (t : Int) (a b : List (Nat × Int)) :
    envT t (a ++ b) = envT t a ++ envT (segsEnd t a) b := by
  induction a generalizing t with
  | nil => rfl
  | cons x a ih =>
    obtain ⟨n, g⟩ := x
    cases n with
    | zero => simp [envT, segsEnd, ih]
    | succ m => simp [envT, segsEnd, ih]

theorem envS_append (a b : List (Nat × Int)) : envS (a ++ b) = envS a ++ envS b := by
  induction a with
  | nil => rfl
  | cons x a ih =>
    obtain ⟨n, g⟩ := x
    cases n with
    | zero => simp [envS, ih]
    | succ m => simp [envS, ih]

theorem flatS_length (segs : List (Nat × Int)) : (flatS segs).length = (segsS segs).length := by
  induction segs with
  | nil => rfl
  | cons x r ih =>
    obtain ⟨n, g⟩ := x
    cases n with
    | zero => simp [flatS, segsS, alt, ih]
    | succ m => simp [flatS, segsS, alt_length, ih]; omega

theorem segsS_length_ge (segs : List (Nat × Int)) (hg : GoodSegs segs) :
    (envS segs).length ≤ (segsS segs).length := by
  induction segs with
  | nil => simp [envS]
  | cons x r ih =>
    obtain ⟨n, g⟩ := x
    obtain ⟨m, rfl⟩ : ∃ m, n = m + 1 := ⟨n - 1, by have := (goodSegs_head hg).1; omega⟩
    have := ih (goodSegs_tail hg)
    simp [envS, segsS, alt_length]
    omega

/-- The two loops in front of the bit loop turn the encoder's trace of a list of bursts
into its envelope, followed by cells that are not read again. -/
theorem compact_raw (segs : List (Nat × Int)) (hg : GoodSegs segs) (t e : Int) :
    ∃ st2 s2 X Y,
      compactLoop (1 + (segsS segs).length - 1) 0 0 (0 :: (segsT t segs ++ [e]))
          (flattenLoop (0 :: (segsT t segs ++ [e])) (1 + (segsS segs).length - 2) 0
            (0 :: segsS segs)) = (2 * segs.length, st2, s2) ∧
      st2 = (0 :: envT t segs) ++ X ∧ s2 = (0 :: envS segs) ++ Y := by
  have hfl : flattenLoop (0 :: (segsT t segs ++ [e])) (1 + (segsS segs).length - 2) 0
      (0 :: segsS segs) = 0 :: flatS segs := by
    rw [flattenLoop_skip _ _ _ _ (by simp), List.tail_cons,
      flatten_segs segs t [e] _ hg (by omega)]
  rw [hfl]
  obtain ⟨st', s', h1, h2, h3, -, -⟩ := compactLoop_spec (1 + (segsS segs).length - 1) 0 0
    (0 :: (segsT t segs ++ [e])) (0 :: flatS segs) (le_refl _)
    (by simp [flatS_length]) (by simp [segsT_length]; omega)
  have ea : 1 + (segsS segs).length - 1 = (flatS segs).length := by
    rw [flatS_length]; omega
  have eb : 1 + (segsS segs).length - 1 = (segsT t segs).length := by
    rw [segsT_length]; omega
  have hs : List.take (1 + (segsS segs).length - 1) (List.drop (0 + 1) (0 :: flatS segs)) =
      flatS segs := by
    rw [ea]; simp
  have ht : List.take (1 + (segsS segs).length - 1)
      (List.drop (0 + 1) (0 :: (segsT t segs ++ [e]))) = segsT t segs := by
    rw [eb]; simp
  rw [hs] at h1 h2 h3
  rw [ht] at h3
  have hk := keepT_flat segs t [] hg
  rw [List.append_nil] at hk
  simp only [List.getD_cons_zero, keepS_flat segs hg, hk, envS_length segs hg, Nat.zero_add,
    List.take_succ_cons, List.take_zero, List.singleton_append, List.nil_append] at h1 h2 h3
  refine ⟨st', s', st'.drop (1 + 2 * segs.length), s'.drop (1 + 2 * segs.length), h1, ?_, ?_⟩
  · have h := List.take_append_drop (1 + 2 * segs.length) st'
    rw [h3] at h
    exact h.symm
  · have h := List.take_append_drop (1 + 2 * segs.length) s'
    rw [h2] at h
    exact h.symm

/-- On an envelope the two loops in front of the bit loop change nothing. -/
theorem compact_env (segs : List (Nat × Int)) (hg : GoodSegs segs) (t x0 : Int)
    (X0 Y0 : List Int) :
    ∃ st2 s2 X Y,
      compactLoop (1 + 2 * segs.length - 1) 0 0 ((x0 :: envT t segs) ++ X0)
          (flattenLoop ((x0 :: envT t segs) ++ X0) (1 + 2 * segs.length - 2) 0
            ((0 :: envS segs) ++ Y0)) = (2 * segs.length, st2, s2) ∧
      st2 = (x0 :: envT t segs) ++ X ∧ s2 = (0 :: envS segs) ++ Y := by
  have hfl : flattenLoop ((x0 :: envT t segs) ++ X0) (1 + 2 * segs.length - 2) 0
      ((0 :: envS segs) ++ Y0) = (0 :: envS segs) ++ Y0 := by
    rw [List.cons_append, List.cons_append, flattenLoop_skip _ _ _ _ (by simp), List.tail_cons,
      flatten_env segs t _ X0 Y0 hg (by rw [envS_length segs hg]; omega)]
  rw [hfl]
  obtain ⟨st', s', h1, h2, h3, -, -⟩ := compactLoop_spec (1 + 2 * segs.length - 1) 0 0
    ((x0 :: envT t segs) ++ X0) ((0 :: envS segs) ++ Y0) (le_refl _)
    (by simp [envS_length segs hg]; omega) (by simp [envT_length, envS_length segs hg]; omega)
  have ea : 1 + 2 * segs.length - 1 = (envS segs).length := by
    rw [envS_length segs hg]; omega
  have eb : 1 + 2 * segs.length - 1 = (envT t segs).length := by
    rw [envT_length, envS_length segs hg]; omega
  have hs : List.take (1 + 2 * segs.length - 1) (List.drop (0 + 1) ((0 :: envS segs) ++ Y0)) =
      envS segs := by
    rw [ea]; simp
  have ht : List.take (1 + 2 * segs.length - 1)
      (List.drop (0 + 1) ((x0 :: envT t segs) ++ X0)) = envT t segs := by
    rw [eb]; simp
  rw [hs] at h1 h2 h3
  rw [ht] at h3
  have hk := keepT_env segs t [] hg
  rw [List.append_nil] at hk
  simp only [List.cons_append, List.getD_cons_zero, keepS_env segs hg, hk, envS_length segs hg,
    Nat.zero_add, List.take_succ_cons, List.take_zero, List.singleton_append] at h1 h2 h3
  refine ⟨st', s', st'.drop (1 + 2 * segs.length), s'.drop (1 + 2 * segs.length), h1, ?_, ?_⟩
  · have h := List.take_append_drop (1 + 2 * segs.length) st'
    rw [h3] at h
    exact h.symm
  · have h := List.take_append_drop (1 + 2 * segs.length) s'
    rw [h2] at h
    exact h.symm

theorem decodeRawDataAux_succ (fuel : Nat) (st s : List Int) (c j : Nat) (st2 s2 : List Int)
    (P : List Nat) (li : Int)
    (h2 : compactLoop (c - 1) 0 0 st (flattenLoop st (c - 2) 0 s) = (j, st2, s2))
    (h3 : bitLoop st2 (j - 1 - 3) 3 0 0 0 [] = (P, P.length, li)) :
    decodeRawDataAux (fuel + 1) st s c =
      if 2 * (j : Int) < 5 * li ∧ 5 * li < 3 * (j : Int) then
        match decodeRawDataAux fuel (st2.drop li.toNat) (s2.drop li.toNat) (j - li.toNat + 1) with
        | none => none
        | some r =>
          some ⟨P, P.length, decide (foundOf P = some (crcOf P)), some (r.bytes, r.byteCount),
            crcLog P ++ r.log ++
              (if P.length ≠ r.byteCount then [Msg.byteCountDiffer P.length r.byteCount]
               else if isEqual P P.length r.bytes r.byteCount = 0 then [Msg.notIdentical]
               else [])⟩
      else some ⟨P, P.length, decide (foundOf P = some (crcOf P)), none, crcLog P⟩ := by
  simp only [decodeRawDataAux, h2, h3, foundOf, crcOf, crcLog]

theorem frame_env (P : List Nat) (more : List (Nat × Int)) (t : Int) :
    envT t (frameN P ++ more) =
      t :: (t + 3317) :: (envT (t + 5016) (byteSegs P) ++
        segsEnd (t + 5016) (byteSegs P) :: (segsEnd (t + 5016) (byteSegs P) + 405) ::
          envT (segsEnd (t + 5016) (byteSegs P) + 11770) more) := by
  have e : frameN P ++ more = (128, 1688) :: (byteSegs P ++ ((16, 11354) :: more)) := by
    simp [frameN]
  rw [e]
  simp only [envT, envT_append]
  have e1 : t + ((127 : Nat) : Int) * 26 + 15 = t + 3317 := by norm_num; ring
  have e2 : t + (((127 : Nat) : Int) + 1) * 26 + 1688 = t + 5016 := by norm_num; ring
  have e3 : ∀ u : Int, u + ((15 : Nat) : Int) * 26 + 15 = u + 405 := by intro u; norm_num; ring
  have e4 : ∀ u : Int, u + (((15 : Nat) : Int) + 1) * 26 + 11354 = u + 11770 := by
    intro u; norm_num; ring
  rw [e1, e2, e3, e4]

theorem frame_envS (P : List Nat) (more : List (Nat × Int)) :
    envS (frameN P ++ more) = 1 :: 0 :: (envS (byteSegs P) ++ 1 :: 0 :: envS more) := by
  have e : frameN P ++ more = (128, 1688) :: (byteSegs P ++ ((16, 11354) :: more)) := by
    simp [frameN]
  rw [e]
  simp only [envS, envS_append]

theorem bitLoop_frame (P : List Nat) (hP : ∀ b ∈ P, b < 256) (more : List (Nat × Int))
    (hm : GoodSegs more) (t x0 : Int) (X : List Int) :
    bitLoop ((x0 :: envT t (frameN P ++ more)) ++ X) (2 * (frameN P ++ more).length - 1 - 3) 3
        0 0 0 [] =
      (P, P.length, if more = [] then -1 else ((4 + 16 * P.length : Nat) : Int)) := by
  have hbs := byteSegs_bitSegs P
  have hlen := byteSegs_length P
  set T := (x0 :: envT t (frameN P ++ more)) ++ X with hT
  set tS := segsEnd (t + 5016) (byteSegs P) with htS
  have hd3 : T.drop 3 = envT (t + 5016) (byteSegs P) ++
      segsEnd (t + 5016) (byteSegs P) :: ((tS + 405) :: (envT (tS + 11770) more ++ X)) := by
    rw [hT, frame_env]
    simp
  have hn : 2 * (frameN P ++ more).length - 1 - 3 = 2 * more.length + 2 * (byteSegs P).length := by
    simp [frameN_length, hlen]; omega
  have hstart : bitLoop T (2 * (frameN P ++ more).length - 1 - 3) 3 0 0 0 [] =
      bitLoopAt T (2 * more.length + 2 * (byteSegs P).length) 3 (0, 0, 0, []) := by
    rw [hn]; rfl
  rw [hstart, bitLoop_bits T _ (byteSegs P) (t + 5016) 3 _ _ hbs (by decide) hd3,
    foldl_bytes P 0 [] hP]
  simp only [Nat.zero_add, List.nil_append]
  cases more with
  | nil => simp [bitLoopAt_zero]
  | cons x r =>
    have hdi : T.drop (3 + 2 * (byteSegs P).length) =
        tS :: (tS + 405) :: (envT (tS + 11770) (x :: r) ++ X) := by
      rw [← List.drop_drop, hd3, List.drop_left' (by rw [envT_length, envS_length _ (bitSegs_good hbs)])]
    have g1 := getD_of_drop T _ _ 1 hdi
    have g2 := getD_of_drop T _ _ 2 hdi
    simp only [List.getD_cons_succ, List.getD_cons_zero] at g1 g2
    rw [envT_getD_zero _ _ X hm (by simp)] at g2
    have hdt : T.getD (3 + 2 * (byteSegs P).length + 1 + 1) 0 -
        T.getD (3 + 2 * (byteSegs P).length + 1) 0 = 11365 := by
      rw [show 3 + 2 * (byteSegs P).length + 1 + 1 = 3 + 2 * (byteSegs P).length + 2 from rfl,
        g1, g2]
      ring
    rw [show 2 * (x :: r).length = 2 * r.length + 1 + 1 by simp; ring,
      bitLoopAt_odd _ _ _ _ (by omega), bitLoopAt_break _ _ _ _ (by omega) (by rw [hdt]; decide)]
    simp [stepBit, hlen]
    omega

theorem decode_env_frame (P : List Nat) (hP : ∀ b ∈ P, b < 256) (t x0 : Int)
    (X0 Y0 : List Int) (fuel : Nat) :
    decodeRawDataAux (fuel + 1) ((x0 :: envT t (frameN P)) ++ X0) ((0 :: envS (frameN P)) ++ Y0)
        (1 + 2 * (frameN P).length) =
      some ⟨P, P.length, decide (foundOf P = some (crcOf P)), none, crcLog P⟩ := by
  obtain ⟨st2, s2, X, Y, hc, rfl, rfl⟩ := compact_env (frameN P) (frameN_good P) t x0 X0 Y0
  have hb := bitLoop_frame P hP [] (fun _ h => absurd h (List.not_mem_nil _)) t x0 X
  simp only [List.append_nil, if_true] at hb
  rw [decodeRawDataAux_succ fuel _ _ _ _ _ _ P (-1) hc hb]
  rw [if_neg]
  intro ⟨h, _⟩
  omega

theorem drop_frame2 (P : List Nat) (t x0 : Int) (X : List Int) :
    ((x0 :: envT t (frameN P ++ frameN P)) ++ X).drop (4 + 16 * P.length) =
      ((segsEnd (t + 5016) (byteSegs P) + 405) ::
        envT (segsEnd (t + 5016) (byteSegs P) + 11770) (frameN P)) ++ X := by
  have hl : (envT (t + 5016) (byteSegs P)).length = 16 * P.length := by
    rw [envT_length, envS_length _ (bitSegs_good (byteSegs_bitSegs P)), byteSegs_length]; omega
  rw [frame_env, show 4 + 16 * P.length = 3 + (16 * P.length + 1) by omega, ← List.drop_drop,
    ← List.drop_drop]
  simp only [List.cons_append, List.drop_succ_cons, List.drop_zero, List.append_assoc]
  rw [List.drop_left' hl]
  rfl

theorem drop_frame2S (P : List Nat) (Y : List Int) :
    ((0 :: envS (frameN P ++ frameN P)) ++ Y).drop (4 + 16 * P.length) =
      (0 :: envS (frameN P)) ++ Y := by
  have hl : (envS (byteSegs P)).length = 16 * P.length := by
    rw [envS_length _ (bitSegs_good (byteSegs_bitSegs P)), byteSegs_length]; omega
  rw [frame_envS, show 4 + 16 * P.length = 3 + (16 * P.length + 1) by omega, ← List.drop_drop,
    ← List.drop_drop]
  simp only [List.cons_append, List.drop_succ_cons, List.drop_zero, List.append_assoc]
  rw [List.drop_left' hl]
  rfl

theorem decode_raw_frame (P : List Nat) (hP : ∀ b ∈ P, b < 256) (e : Int) (fuel : Nat) :
    decodeRawDataAux (fuel + 2) (0 :: (segsT 700 (frameN P ++ frameN P) ++ [e]))
        (0 :: segsS (frameN P ++ frameN P)) (1 + (segsS (frameN P ++ frameN P)).length) =
      some (decodedTwice P) := by
  have hg : GoodSegs (frameN P ++ frameN P) := goodSegs_append (frameN_good P) (frameN_good P)
  obtain ⟨st2, s2, X, Y, hc, rfl, rfl⟩ := compact_raw (frameN P ++ frameN P) hg 700 e
  have hb := bitLoop_frame P hP (frameN P) (frameN_good P) 700 0 X
  rw [if_neg (by simp [frameN])] at hb
  rw [decodeRawDataAux_succ (fuel + 1) _ _ _ _ _ _ P _ hc hb]
  have hlen : (frameN P ++ frameN P).length = 16 * P.length + 4 := by
    simp [frameN_length]; omega
  rw [if_pos (by rw [hlen]; push_cast; constructor <;> omega)]
  have hcount : 2 * (frameN P ++ frameN P).length - (4 + 16 * P.length) + 1 =
      1 + 2 * (frameN P).length := by
    rw [hlen, frameN_length]; omega
  simp only [Int.toNat_ofNat]
  rw [drop_frame2, drop_frame2S, hcount, decode_env_frame P hP]
  simp [decodedTwice, isEqual_self]

theorem decode_generate (P : List Nat) (hP : ∀ b ∈ P, b < 256) :
    ∃ tr, generateRawBytes P = some tr ∧
      decodeRawData tr.sampleTime tr.sample tr.sampleCount = some (decodedTwice P) := by
  refine ⟨_, generateRawBytes_spec P, ?_⟩
  obtain ⟨h1, h2, h3⟩ := frame2_norm P 700
  simp only [decodeRawData]
  rw [h1, h2, h3]
  have := decode_raw_frame P hP (segsEnd 700 (frameN P ++ frameN P))
    (1 + (segsS (frameN P ++ frameN P)).length + 1 - 2)
  rw [show 1 + (segsS (frameN P ++ frameN P)).length + 1 - 2 + 2 =
    1 + (segsS (frameN P ++ frameN P)).length + 1 by omega] at this
  exact this

theorem hexVal_upper : ∀ d, d < 16 → hexVal (hexDigitUpper d) = some d := by decide

theorem hexVal_lower : ∀ d, d < 16 → hexVal (hexDigitUpper d).toLower = some d := by decide

theorem getHex_length (B : List Nat) : (getHex B).length = 2 * B.length := by
  induction B with
  | nil => rfl
  | cons b B ih => simp [getHex, ih]; omega

theorem getHex_digits (B : List Nat) : ∀ c ∈ getHex B, (hexVal c).isSome = true := by
  induction B with
  | nil => intro c hc; simp [getHex] at hc
  | cons b B ih =>
    intro c hc
    simp only [getHex, List.mem_cons] at hc
    rcases hc with rfl | rfl | hc
    · rw [hexVal_upper _ (Nat.mod_lt _ (by decide))]; rfl
    · rw [hexVal_upper _ (Nat.mod_lt _ (by decide))]; rfl
    · exact ih c hc

theorem getByteFromHexLoop_getHex (B : List Nat) (hB : ∀ b ∈ B, b < 256) :
    getByteFromHexLoop B.length (getHex B) = some B := by
  induction B with
  | nil => rfl
  | cons b B ih =>
    have hb := hB b (List.mem_cons_self _ _)
    simp only [getHex, List.length_cons, getByteFromHexLoop,
      hexVal_upper _ (Nat.mod_lt _ (by decide : 0 < 16)),
      ih (fun c hc => hB c (List.mem_cons_of_mem _ hc))]
    congr 2
    omega

theorem getByteFromHexLoop_lower (B : List Nat) (hB : ∀ b ∈ B, b < 256) :
    getByteFromHexLoop B.length ((getHex B).map Char.toLower) = some B := by
  induction B with
  | nil => rfl
  | cons b B ih =>
    have hb := hB b (List.mem_cons_self _ _)
    simp only [getHex, List.length_cons, getByteFromHexLoop, List.map_cons,
      hexVal_lower _ (Nat.mod_lt _ (by decide : 0 < 16)),
      ih (fun c hc => hB c (List.mem_cons_of_mem _ hc))]
    congr 2
    omega

theorem getByteFromHex_getHex (B : List Nat) (hB : ∀ b ∈ B, b < 256) :
    getByteFromHex (getHex B) = some B := by
  unfold getByteFromHex
  rw [getHex_length, Nat.mul_div_cancel_left _ (by decide : 0 < 2)]
  exact getByteFromHexLoop_getHex B hB

theorem generateRaw_getHex (B : List Nat) (hB : ∀ b ∈ B, b < 256) :
    generateRaw (getHex B) = generateRawBytes B := by
  simp only [generateRaw, getByteFromHex_getHex B hB]

theorem crcOf_eq (P : List Nat) : crcOf P = P.dropLast.sum % 256 := by
  rw [crcOf, crcLoop_spec _ _ _ _ (by decide), List.dropLast_eq_take]
  simp

theorem foundOf_eq (P : List Nat) : foundOf P = P.getLast? := by
  unfold foundOf
  cases P with
  | nil => rfl
  | cons a P => simp [List.getLast?_eq_getElem?]

theorem canonical_bytes : getByteFromHex canonicalHex = some canonicalBytes := by
  decide

theorem canonical_decoded : decodedTwice canonicalBytes =
    ⟨canonicalBytes, 19, false, some (canonicalBytes, 19),
      [Msg.checksumError 156 (some 185), Msg.checksumError 156 (some 185)]⟩ := by
  decide

theorem canonical_decode :
    ∃ tr, generateRaw canonicalHex = some tr ∧
      decodeRawData tr.sampleTime tr.sample tr.sampleCount =
        some ⟨canonicalBytes, 19, false, some (canonicalBytes, 19),
          [Msg.checksumError 156 (some 185), Msg.checksumError 156 (some 185)]⟩ := by
  obtain ⟨tr, h1, h2⟩ := decode_generate canonicalBytes (by decide)
  refine ⟨tr, ?_, ?_⟩
  · simp only [generateRaw, canonical_bytes, h1]
  · rw [h2, canonical_decoded]

/-- C2, as stated, fails: for the hex input `23CB2664000010FEFF000076614000000000B9` the
decoder returns the 19 bytes but its checksum check does not pass, the sum modulo 256 of
the first 18 decoded bytes being 156 and the 19th byte 185. -/
theorem canonical_checksum_fails :
    ∃ tr d, generateRaw canonicalHex = some tr ∧
      decodeRawData tr.sampleTime tr.sample tr.sampleCount = some d ∧
      d.bytes = canonicalBytes ∧ d.crcOK = false ∧
      (d.bytes.take 18).sum % 256 = 156 ∧ d.bytes.getD 18 0 = 185 := by
  obtain ⟨tr, h1, h2⟩ := canonical_decode
  exact ⟨tr, _, h1, h2, rfl, rfl, by decide, by decide⟩

/-- C2 (amended): for the hex input `23CB2664000010FEFF000076614000000000B9` the trace of
`generateRaw`, passed through `decodeRawData`, yields exactly the original 19 bytes; the
recursive decode of the second half-frame returns the same 19 bytes and `isEqual` accepts
them, so nothing is printed about the second transmit; the checksum check fails (156
calculated, 185 found) and is reported once for each half-frame. -/
theorem canonical_selfdecode :
    ∃ tr d, generateRaw canonicalHex = some tr ∧
      decodeRawData tr.sampleTime tr.sample tr.sampleCount = some d ∧
      d.bytes = canonicalBytes ∧ d.byteCount = 19 ∧ d.crcOK = false ∧
      d.second = some (canonicalBytes, 19) ∧
      isEqual d.bytes d.byteCount canonicalBytes 19 = 1 ∧
      d.log = [Msg.checksumError 156 (some 185), Msg.checksumError 156 (some 185)] := by
  obtain ⟨tr, h1, h2⟩ := canonical_decode
  exact ⟨tr, _, h1, h2, rfl, rfl, rfl, rfl, by decide, rfl⟩

set_option maxRecDepth 100000 in
theorem flip_lt : ∀ b, b < 256 → ∀ k, k < 8 → b ^^^ 2 ^ k < 256 ∧ b ^^^ 2 ^ k ≠ b := by
  decide

theorem sum_set (l : List Nat) : ∀ (i : Nat) (x : Nat), i < l.length →
    (l.set i x).sum + l.getD i 0 = l.sum + x := by
  induction l with
  | nil => intro i x h; simp at h
  | cons a l ih =>
    intro i x h
    cases i with
    | zero => simp; omega
    | succ i =>
      have := ih i x (by simpa using h)
      simp only [List.set_cons_succ, List.sum_cons, List.getD_cons_succ]
      omega

theorem dropLast_set (l : List Nat) : ∀ (i : Nat) (x : Nat), i + 1 < l.length →
    (l.set i x).dropLast = l.dropLast.set i x ∧ (l.set i x).getLast? = l.getLast? ∧
      l.dropLast.getD i 0 = l.getD i 0 := by
  induction l with
  | nil => intro i x h; simp at h
  | cons a l ih =>
    intro i x h
    cases l with
    | nil => simp at h
    | cons b l =>
      cases i with
      | zero => simp [List.dropLast, List.getLast?_cons_cons]
      | succ i =>
        have := ih i x (by simpa using h)
        rw [List.set_cons_succ]
        obtain ⟨c, l', hl'⟩ : ∃ c l', (b :: l).set i x = c :: l' := by
          cases i <;> simp
        rw [hl'] at this ⊢
        simp only [List.dropLast_cons₂, List.getLast?_cons_cons, List.set_cons_succ,
          List.getD_cons_succ]
        exact ⟨by rw [this.1], this.2.1, this.2.2⟩

theorem mem_set_lt (P : List Nat) (i x : Nat) (hP : ∀ b ∈ P, b < 256) (hx : x < 256) :
    ∀ b ∈ P.set i x, b < 256 := by
  intro b hb
  rcases List.mem_or_eq_of_mem_set hb with h | h
  · exact hP b h
  · exact h ▸ hx

theorem getD_lt (P : List Nat) (i : Nat) (hP : ∀ b ∈ P, b < 256) : P.getD i 0 < 256 := by
  by_cases h : i < P.length
  · rw [List.getD_eq_getElem _ _ h]; exact hP _ (List.getElem_mem _)
  · rw [List.getD_eq_getElem?_getD, List.getElem?_eq_none (by omega)]; decide

/-- C9 (hex round-trip): for every sequence `B` of bytes, `getHex B` consists of exactly
`2·|B|` hexadecimal digits, and `getByteFromHex` returns exactly `B` both for that
(uppercase) text and for the same text in lowercase; the number of bytes read is half the
length of the text. -/
theorem hex_roundtrip (B : List Nat) (hB : ∀ b ∈ B, b < 256) :
    (getHex B).length = 2 * B.length ∧
    (∀ c ∈ getHex B, (hexVal c).isSome = true) ∧
    getByteFromHex (getHex B) = some B ∧
    getByteFromHex ((getHex B).map Char.toLower) = some B ∧
    B.length = (getHex B).length / 2 := by
  refine ⟨getHex_length B, getHex_digits B, getByteFromHex_getHex B hB, ?_, ?_⟩
  · unfold getByteFromHex
    rw [List.length_map, getHex_length, Nat.mul_div_cancel_left _ (by decide : 0 < 2)]
    exact getByteFromHexLoop_lower B hB
  · rw [getHex_length, Nat.mul_div_cancel_left _ (by decide : 0 < 2)]

theorem hex_roundtrip_witness :
    (∀ b ∈ ([0, 171, 255] : List Nat), b < 256) ∧
    (getHex [0, 171, 255]).length = 2 * ([0, 171, 255] : List Nat).length ∧
    (∀ c ∈ getHex [0, 171, 255], (hexVal c).isSome = true) ∧
    getByteFromHex (getHex [0, 171, 255]) = some [0, 171, 255] ∧
    getByteFromHex ((getHex [0, 171, 255]).map Char.toLower) = some [0, 171, 255] ∧
    ([0, 171, 255] : List Nat).length = (getHex [0, 171, 255]).length / 2 :=
  ⟨by decide, hex_roundtrip [0, 171, 255] (by decide)⟩

theorem getByteFromHexLoop_lt (n : Nat) : ∀ (s : List Char) (B : List Nat),
    getByteFromHexLoop n s = some B → ∀ b ∈ B, b < 256 := by
  induction n with
  | zero =>
    intro s B h b hb
    simp only [getByteFromHexLoop, Option.some.injEq] at h
    subst h
    simp at hb
  | succ n ih =>
    intro s B h b hb
    match s, h with
    | c1 :: c2 :: pos, h =>
      simp only [getByteFromHexLoop] at h
      split at h
      · rename_i hi lo rest _ _ hr
        simp only [Option.some.injEq] at h
        subst h
        rcases List.mem_cons.1 hb with rfl | hb
        · exact Nat.mod_lt _ (by decide)
        · exact ih pos rest hr b hb
      · simp at h
    | [], h => simp [getByteFromHexLoop] at h
    | [_], h => simp [getByteFromHexLoop] at h

theorem cyc_chain (n : Nat) : ∀ (a t : Int) (R : List Int), a < t →
    (∀ a', a' < t + n * 26 → List.Chain (· < ·) a' R) →
    List.Chain (· < ·) a (cyc 15 11 t n ++ R) := by
  induction n with
  | zero => intro a t R h hR; exact hR a (by simpa using h)
  | succ n ih =>
    intro a t R h hR
    simp only [cyc, List.cons_append]
    refine List.Chain.cons h (List.Chain.cons (by omega) ?_)
    apply ih (t + 15) (t + (15 + 11)) R (by omega)
    intro a' ha'
    apply hR
    push_cast
    omega

theorem segsT_chain (segs : List (Nat × Int)) : ∀ (a t : Int), NonNegSegs segs → a < t →
    List.Chain (· < ·) a (segsT t segs ++ [segsEnd t segs]) := by
  induction segs with
  | nil => intro a t _ h; simpa [segsT, segsEnd] using h
  | cons x r ih =>
    intro a t hn h
    obtain ⟨n, g⟩ := x
    have hg : 0 ≤ g := hn (n, g) (List.mem_cons_self _ _)
    simp only [segsT, segsEnd, List.append_assoc]
    apply cyc_chain n a t _ h
    intro a' ha'
    exact ih a' _ (fun y hy => hn y (List.mem_cons_of_mem _ hy)) (by omega)

theorem bitSegs_nonneg (b n k : Nat) : NonNegSegs (bitSegs b n k) :=
  fun x hx => by have := (bitSegs_bitSegs b n k x hx).2.1; omega

theorem frameSegs_nonneg (P : List Nat) : NonNegSegs (frameSegs P) := by
  intro x hx
  simp only [frameSegs, List.mem_cons, List.mem_append, List.mem_singleton, List.mem_nil_iff,
    or_false] at hx
  rcases hx with rfl | hx | rfl | rfl
  · decide
  · have := (byteSegs_bitSegs P x hx).2.1; omega
  · decide
  · decide

theorem sampleTime_sorted (P : List Nat) :
    List.Pairwise (· < ·) (0 :: (segsT 700 (frameSegs P ++ frameSegs P) ++
      [segsEnd 700 (frameSegs P ++ frameSegs P)])) := by
  have hn : NonNegSegs (frameSegs P ++ frameSegs P) := by
    intro x hx
    rcases List.mem_append.1 hx with h | h <;> exact frameSegs_nonneg P x h
  have := segsT_chain _ 0 700 hn (by decide)
  exact List.chain_iff_pairwise.1 this

theorem segsT_frame_head (P : List Nat) (X : List (Nat × Int)) (t : Int) :
    ∃ rest, segsT t (frameSegs P ++ X) = t :: rest := by
  have h : cyc 15 11 t 128 = t :: (t + 15) :: cyc 15 11 (t + (15 + 11)) 127 := rfl
  simp only [frameSegs, List.cons_append, segsT, h]
  exact ⟨_, rfl⟩

/-- Cells written for the bytes `bytes`: the first sample is `(0, 0)`, the second sample is
`(700, 1)`, and the times are strictly increasing over all `sampleCount` samples. -/
theorem times_increase_cells (bytes : List Nat) :
    ∃ tr, generateRawBytes bytes = some tr ∧
      tr.sampleTime.getD 0 0 = 0 ∧ tr.sample.getD 0 0 = 0 ∧
      tr.sampleTime.getD 1 0 = 700 ∧ tr.sample.getD 1 0 = 1 ∧
      List.Pairwise (· < ·) (tr.sampleTime.take tr.sampleCount) ∧
      (∀ i, i + 1 < tr.sampleCount → tr.sampleTime.getD i 0 < tr.sampleTime.getD (i + 1) 0) := by
  have hgen := generateRawBytes_spec bytes
  refine ⟨_, hgen, ?_⟩
  refine ⟨rfl, rfl, ?_, ?_, ?_, ?_⟩
  · obtain ⟨rest, hr⟩ := segsT_frame_head bytes (frameSegs bytes) 700
    simp [hr]
  · obtain ⟨rest, hr⟩ := segsS_frame_head bytes (frameSegs bytes)
    simp [hr]
  · exact (sampleTime_sorted bytes).sublist (List.take_sublist _ _)
  · intro i hi
    have hs := sampleTime_sorted bytes
    have hlen : i + 1 < (0 :: (segsT 700 (frameSegs bytes ++ frameSegs bytes) ++
        [segsEnd 700 (frameSegs bytes ++ frameSegs bytes)])).length := by
      simp only [List.length_cons, List.length_append, segsT_length, List.length_nil] at hi ⊢
      omega
    simp only []
    rw [List.getD_eq_getElem _ _ hlen, List.getD_eq_getElem _ _ (by omega)]
    exact List.pairwise_iff_getElem.1 hs i (i + 1) (by omega) hlen (by omega)

theorem writeSamplesLoop_eq (st s : List Int) (n : Nat) : ∀ (i : Nat) (last : Int),
    i + n ≤ st.length → i + n ≤ s.length →
    writeSamplesLoop st s n i last = keepP last (((st.zip s).drop i).take n) := by
  induction n with
  | zero => intro i last _ _; simp [writeSamplesLoop, keepP]
  | succ n ih =>
    intro i last h1 h2
    have hz : i < (st.zip s).length := by simp; omega
    rw [List.drop_eq_getElem_cons hz, List.take_succ_cons]
    simp only [writeSamplesLoop, keepP, List.getElem_zip]
    rw [List.getD_eq_getElem _ _ (by omega : i < s.length),
      List.getD_eq_getElem _ _ (by omega : i < st.length)]
    split
    · rw [ih _ _ (by omega) (by omega)]
    · rw [ih _ _ (by omega) (by omega)]

theorem zip_map_fst_snd (T : List (Int × Int)) : (T.map Prod.fst).zip (T.map Prod.snd) = T := by
  induction T with
  | nil => rfl
  | cons p T ih => simp [ih]

theorem compact_eq (T : List (Int × Int)) : compact T = keepP (-1) T := by
  unfold compact
  rw [writeSamplesLoop_eq _ _ _ _ _ (by simp) (by simp), zip_map_fst_snd]
  simp

theorem keepP_snd (L : List (Int × Int)) : ∀ last, (keepP last L).map Prod.snd =
    keepS last (L.map Prod.snd) := by
  induction L with
  | nil => intro last; rfl
  | cons p L ih =>
    intro last
    simp only [keepP, keepS, List.map_cons]
    split
    · simp [ih]
    · exact ih last

theorem alt_add (a b : Nat) : alt (a + b) = alt a ++ alt b := by
  induction a with
  | zero => simp [alt]
  | succ a ih => rw [Nat.add_right_comm]; simp [alt, ih]

theorem segsS_alt (segs : List (Nat × Int)) : segsS segs = alt (cycles segs) := by
  induction segs with
  | nil => rfl
  | cons x r ih => obtain ⟨n, g⟩ := x; simp [segsS, cycles, alt_add, ih]

theorem cycles_append (a b : List (Nat × Int)) : cycles (a ++ b) = cycles a + cycles b := by
  induction a with
  | nil => simp [cycles]
  | cons x r ih => obtain ⟨n, g⟩ := x; simp [cycles, ih]; omega

theorem cycles_bitSegs (b n k : Nat) : cycles (bitSegs b n k) = 16 * n := by
  induction n generalizing k with
  | zero => rfl
  | succ n ih => simp [bitSegs, bitSeg, cycles, ih]; omega

theorem cycles_byteSegs (P : List Nat) : cycles (byteSegs P) = 128 * P.length := by
  induction P with
  | nil => rfl
  | cons b P ih => simp [byteSegs, cycles_append, cycles_bitSegs, ih]; omega

theorem cycles_frameSegs (P : List Nat) : cycles (frameSegs P) = 144 + 128 * P.length := by
  simp [frameSegs, cycles, cycles_append, cycles_byteSegs]; omega

theorem keepS_alt (m : Nat) : keepS 0 (alt m) = alt m := by
  induction m with
  | zero => rfl
  | succ m ih => simp [alt, keepS, ih]

theorem alt_chain (m : Nat) : List.Chain (· ≠ ·) 0 (alt m) := by
  induction m with
  | zero => exact List.Chain.nil
  | succ m ih => exact List.Chain.cons (by decide) (List.Chain.cons (by decide) ih)

theorem alt_getD_ne (m : Nat) : ∀ i, i + 1 < (0 :: alt m).length →
    (0 :: alt m).getD i 0 ≠ (0 :: alt m).getD (i + 1) 0 := by
  intro i hi
  have h := List.chain'_iff_get.1 (show List.Chain' (· ≠ ·) (0 :: alt m) from alt_chain m) i
    (by simp at hi ⊢; omega)
  rw [List.getD_eq_getElem _ _ (by omega), List.getD_eq_getElem _ _ hi]
  simpa using h

theorem keepP_chain (L : List (Int × Int)) : ∀ (x last : Int),
    List.Chain (fun a b => a.2 ≠ b.2) (x, last) (keepP last L) := by
  induction L with
  | nil => intro x last; exact List.Chain.nil
  | cons p r ih =>
    intro x last
    simp only [keepP]
    split
    · rename_i h
      exact List.Chain.cons h (ih p.1 p.2)
    · exact ih x last

theorem keepP_id (L : List (Int × Int)) : ∀ (x last : Int),
    List.Chain (fun a b => a.2 ≠ b.2) (x, last) L → keepP last L = L := by
  induction L with
  | nil => intro x last _; rfl
  | cons p r ih =>
    intro x last h
    cases h with
    | cons h hr =>
      simp only [keepP]
      rw [if_pos h, ih p.1 p.2 hr]

theorem writeSamples_compact (T : List (Int × Int)) :
    writeSamples (T.map Prod.fst) (T.map Prod.snd) T.length =
      (header ++ ((compact T).map sampleLine).flatten, (compact T).length) := rfl

/-- C6 (compaction idempotence): the compaction of `writeSamples` keeps a sample iff its
level differs from the last emitted level (`-1` before the first sample); for every trace
with levels in `{0, 1}` the first sample is always kept, compacting a second time changes
nothing, and no two adjacent samples of the compacted trace share a level.  The file
written consists of the header and one line per sample of the compacted trace, whose
length is the returned count. -/
theorem compaction_idempotent (T : List (Int × Int)) (hT : ∀ p ∈ T, p.2 = 0 ∨ p.2 = 1) :
    compact T = keepP (-1) T ∧
    (compact T).head? = T.head? ∧
    compact (compact T) = compact T ∧
    List.Chain' (fun p q => p.2 ≠ q.2) (compact T) ∧
    writeSamples (T.map Prod.fst) (T.map Prod.snd) T.length =
      (header ++ ((compact T).map sampleLine).flatten, (compact T).length) := by
  refine ⟨compact_eq T, ?_, ?_, ?_, writeSamples_compact T⟩
  · rw [compact_eq]
    cases T with
    | nil => rfl
    | cons p r =>
      have : (-1 : Int) ≠ p.2 := by
        rcases hT p (List.mem_cons_self _ _) with h | h <;> rw [h] <;> decide
      simp [keepP, this]
  · rw [compact_eq, compact_eq, keepP_id _ 0 (-1) (keepP_chain T 0 (-1))]
  · rw [compact_eq]
    exact (show List.Chain' (fun p q : Int × Int => p.2 ≠ q.2) ((0, -1) :: keepP (-1) T) from
      keepP_chain T 0 (-1)).tail

theorem compaction_idempotent_witness :
    (∀ p ∈ ([(0, 0), (5, 0), (9, 1), (12, 1), (20, 0)] : List (Int × Int)), p.2 = 0 ∨ p.2 = 1) ∧
    compact [(0, 0), (5, 0), (9, 1), (12, 1), (20, 0)] =
      keepP (-1) [(0, 0), (5, 0), (9, 1), (12, 1), (20, 0)] ∧
    (compact [(0, 0), (5, 0), (9, 1), (12, 1), (20, 0)]).head? =
      ([(0, 0), (5, 0), (9, 1), (12, 1), (20, 0)] : List (Int × Int)).head? ∧
    compact (compact [(0, 0), (5, 0), (9, 1), (12, 1), (20, 0)]) =
      compact [(0, 0), (5, 0), (9, 1), (12, 1), (20, 0)] ∧
    List.Chain' (fun p q => p.2 ≠ q.2) (compact [(0, 0), (5, 0), (9, 1), (12, 1), (20, 0)]) ∧
    writeSamples (([(0, 0), (5, 0), (9, 1), (12, 1), (20, 0)] : List (Int × Int)).map Prod.fst)
        (([(0, 0), (5, 0), (9, 1), (12, 1), (20, 0)] : List (Int × Int)).map Prod.snd)
        ([(0, 0), (5, 0), (9, 1), (12, 1), (20, 0)] : List (Int × Int)).length =
      (header ++ ((compact [(0, 0), (5, 0), (9, 1), (12, 1), (20, 0)]).map sampleLine).flatten,
        (compact [(0, 0), (5, 0), (9, 1), (12, 1), (20, 0)]).length) :=
  ⟨by decide, compaction_idempotent [(0, 0), (5, 0), (9, 1), (12, 1), (20, 0)] (by decide)⟩

/-- Cells written for `L` bytes: `sampleCount = 1 + 2·(288 + 256·L)`, every adjacent pair of
samples differs in level, and the number of level changes is
`2·(256 + L·8·32 + 32 + 0)`, the summands being the numbers `addSample` returns over the
integers for the header burst, a bit burst, the stop burst and the repeat pause. -/
theorem edge_count_cells (bytes : List Nat) :
    ∃ tr, generateRawBytes bytes = some tr ∧
      tr.sampleCount = 1 + 2 * (288 + 256 * bytes.length) ∧
      (∀ i, i + 1 < tr.sampleCount → tr.sample.getD i 0 ≠ tr.sample.getD (i + 1) 0) ∧
      ((List.range (tr.sampleCount - 1)).filter
          (fun i => decide (tr.sample.getD i 0 ≠ tr.sample.getD (i + 1) 0))).length =
        2 * (256 + bytes.length * 8 * 32 + 32 + 0) ∧
      (writeSamples tr.sampleTime tr.sample tr.sampleCount).2 = tr.sampleCount ∧
      (∀ (A S : List Int) (t : Int), S.length = A.length →
        (addSample (A ++ [t]) S A.length hTime lTime initPulseHLength initPulseLLength).map
            (fun r => r.1) = some 256 ∧
        (addSample (A ++ [t]) S A.length hTime lTime bitHLength oneBitLLength).map
            (fun r => r.1) = some 32 ∧
        (addSample (A ++ [t]) S A.length hTime lTime bitHLength zeroBitLLength).map
            (fun r => r.1) = some 32 ∧
        (addSample (A ++ [t]) S A.length hTime lTime bitHLength 0).map (fun r => r.1) = some 32 ∧
        (addSample (A ++ [t]) S A.length hTime lTime 0 repeatePause).map (fun r => r.1) =
          some 0) := by
  have hgen := generateRawBytes_spec bytes
  have hcyc : cycles (frameSegs bytes ++ frameSegs bytes) = 288 + 256 * bytes.length := by
    rw [cycles_append, cycles_frameSegs]; omega
  have hall : ∀ i, i + 1 < 1 + (segsS (frameSegs bytes ++ frameSegs bytes)).length →
      (0 :: segsS (frameSegs bytes ++ frameSegs bytes)).getD i 0 ≠
        (0 :: segsS (frameSegs bytes ++ frameSegs bytes)).getD (i + 1) 0 := by
    intro i hi
    rw [segsS_alt] at hi ⊢
    exact alt_getD_ne _ i (by simp at hi ⊢; omega)
  refine ⟨_, hgen, ?_, hall, ?_, ?_, ?_⟩
  · simp only [segsS_alt, alt_length, hcyc]
  · rw [List.filter_eq_self.2]
    · simp only [List.length_range, segsS_alt, alt_length, hcyc]
      omega
    · intro i hi
      have h2 := List.mem_range.1 hi
      dsimp only at h2
      have := hall i (by omega)
      simpa using this
  · simp only [writeSamples]
    rw [writeSamplesLoop_eq _ _ _ _ _ (by simp [segsT_length]; omega) (by simp; omega)]
    rw [← List.length_map _ Prod.snd, keepP_snd, List.drop_zero, List.map_take,
      List.map_snd_zip _ _ (by simp [segsT_length])]
    rw [List.take_of_length_le (by simp; omega), segsS_alt]
    simp [keepS, keepS_alt, alt_length]
    omega
  · intro A S t hS
    rw [addSample_spec hTime lTime _ _ (by decide) (by decide) A S t _ rfl hS,
      addSample_spec hTime lTime _ _ (by decide) (by decide) A S t _ rfl hS,
      addSample_spec hTime lTime _ _ (by decide) (by decide) A S t _ rfl hS,
      addSample_spec hTime lTime _ _ (by decide) (by decide) A S t _ rfl hS,
      addSample_spec hTime lTime _ _ (by decide) (by decide) A S t _ rfl hS]
    simp only [Option.map_some']
    refine ⟨?_, ?_, ?_, ?_, ?_⟩ <;> decide

theorem digitChar_facts : ∀ d, d < 10 →
    (Char.ofNat (48 + d)).toNat = 48 + d ∧ isspace (Char.ofNat (48 + d)) = false ∧
    Char.ofNat (48 + d) ≠ '\t' ∧ Char.ofNat (48 + d) ≠ '\n' ∧ Char.ofNat (48 + d) ≠ '-' ∧
    Char.ofNat (48 + d) ≠ '+' := by
  decide

theorem fmtNat_eq (n : Nat) : fmtNat n = (decDigits n).map (fun d => Char.ofNat (48 + d)) := by
  unfold fmtNat decDigits
  split <;> rfl

theorem decDigits_lt (n : Nat) : ∀ d ∈ decDigits n, d < 10 := by
  intro d hd
  unfold decDigits at hd
  split at hd
  · simp at hd; omega
  · exact Nat.digits_lt_base (by decide) (List.mem_reverse.1 hd)

theorem decDigits_ne_nil (n : Nat) : decDigits n ≠ [] := by
  unfold decDigits
  split
  · simp
  · rename_i h
    simpa using Nat.digits_ne_nil_iff_ne_zero.2 h

theorem foldl_digits (L : List Nat) :
    L.reverse.foldl (fun a d => a * 10 + d) 0 = Nat.ofDigits 10 L := by
  induction L with
  | nil => rfl
  | cons d L ih =>
    rw [List.reverse_cons, List.foldl_append, ih, Nat.ofDigits_cons]
    simp only [List.foldl_cons, List.foldl_nil]
    omega

theorem decDigits_value (n : Nat) : (decDigits n).foldl (fun a d => a * 10 + d) 0 = n := by
  unfold decDigits
  split
  · rename_i h; simp [h]
  · rw [foldl_digits, Nat.ofDigits_digits]

theorem atoiDigits_digits (ds : List Nat) : ∀ (acc : Nat) (rest : List Char),
    (∀ d ∈ ds, d < 10) →
    (∀ c, rest.head? = some c → ¬ (48 ≤ c.toNat ∧ c.toNat ≤ 57)) →
    atoiDigits acc (ds.map (fun d => Char.ofNat (48 + d)) ++ rest) =
      ds.foldl (fun a d => a * 10 + d) acc := by
  induction ds with
  | nil =>
    intro acc rest _ hr
    cases rest with
    | nil => rfl
    | cons c rest => simp [atoiDigits, hr c rfl]
  | cons d ds ih =>
    intro acc rest hd hr
    have h := (digitChar_facts d (hd d (List.mem_cons_self _ _))).1
    have hdl := hd d (List.mem_cons_self _ _)
    simp only [List.map_cons, List.cons_append, atoiDigits, h, List.foldl_cons]
    rw [if_pos ⟨by omega, by omega⟩, List.append_eq,
      ih _ _ (fun x hx => hd x (List.mem_cons_of_mem _ hx)) hr]
    congr 1
    omega

theorem atoi_fmtInt (n : Int) (rest : List Char)
    (hr : ∀ c, rest.head? = some c → ¬ (48 ≤ c.toNat ∧ c.toNat ≤ 57)) :
    atoi (fmtInt n ++ rest) = n := by
  obtain ⟨d, ds, hds⟩ : ∃ d ds, decDigits n.natAbs = d :: ds := by
    cases h : decDigits n.natAbs with
    | nil => exact absurd h (decDigits_ne_nil _)
    | cons d ds => exact ⟨d, ds, rfl⟩
  have hlt := decDigits_lt n.natAbs
  have hval := decDigits_value n.natAbs
  have hf := (digitChar_facts d (hlt d (by rw [hds]; exact List.mem_cons_self _ _)))
  have hdig := atoiDigits_digits (decDigits n.natAbs) 0 rest hlt hr
  by_cases hneg : n < 0
  · have h1 : List.dropWhile isspace (fmtInt n ++ rest) = '-' :: (fmtNat n.natAbs ++ rest) := by
      simp only [fmtInt, hneg, if_true, List.cons_append]
      rw [List.dropWhile_cons_of_neg (by decide)]
    unfold atoi
    rw [h1]
    simp only [if_true]
    rw [fmtNat_eq, hdig, hval]
    omega
  · have h1 : List.dropWhile isspace (fmtInt n ++ rest) =
        Char.ofNat (48 + d) :: (ds.map (fun d => Char.ofNat (48 + d)) ++ rest) := by
      simp only [fmtInt, hneg, if_false]
      rw [fmtNat_eq, hds, List.map_cons, List.cons_append,
        List.dropWhile_cons_of_neg (by simp [hf.2.1])]
    have h2 : Char.ofNat (48 + d) :: (ds.map (fun d => Char.ofNat (48 + d)) ++ rest) =
        (decDigits n.natAbs).map (fun d => Char.ofNat (48 + d)) ++ rest := by
      rw [hds]; rfl
    unfold atoi
    rw [h1]
    simp only [if_neg hf.2.2.2.2.1, if_neg hf.2.2.2.2.2]
    rw [h2, hdig, hval]
    omega

theorem fmtInt_chars (n : Int) : ∀ c ∈ fmtInt n, c ≠ '\t' ∧ c ≠ '\n' := by
  have hd : ∀ c ∈ fmtNat n.natAbs, c ≠ '\t' ∧ c ≠ '\n' := by
    intro c hc
    rw [fmtNat_eq] at hc
    obtain ⟨d, hd, rfl⟩ := List.mem_map.1 hc
    have := digitChar_facts d (decDigits_lt _ d hd)
    exact ⟨this.2.2.1, this.2.2.2.1⟩
  intro c hc
  unfold fmtInt at hc
  split at hc
  · rcases List.mem_cons.1 hc with rfl | h
    · decide
    · exact hd c h
  · exact hd c hc

theorem fmtInt_ne_nil (n : Int) : fmtInt n ≠ [] := by
  unfold fmtInt
  split
  · simp
  · rw [fmtNat_eq]
    simpa using decDigits_ne_nil _

theorem takeWhile_tab (l rest : List Char) (hl : ∀ c ∈ l, c ≠ '\t') :
    (l ++ '\t' :: rest).takeWhile (· ≠ '\t') = l ∧
    (l ++ '\t' :: rest).dropWhile (· ≠ '\t') = '\t' :: rest := by
  induction l with
  | nil => simp
  | cons c l ih =>
    have hc := hl c (List.mem_cons_self _ _)
    have := ih (fun x hx => hl x (List.mem_cons_of_mem _ hx))
    rw [List.cons_append, List.takeWhile_cons_of_pos (by simpa using hc),
      List.dropWhile_cons_of_pos (by simpa using hc), this.1, this.2]
    exact ⟨rfl, rfl⟩

theorem takeWhile_all (l : List Char) (hl : ∀ c ∈ l, c ≠ '\t') :
    l.takeWhile (· ≠ '\t') = l ∧ l.dropWhile (· ≠ '\t') = [] := by
  induction l with
  | nil => simp
  | cons c l ih =>
    have hc := hl c (List.mem_cons_self _ _)
    have := ih (fun x hx => hl x (List.mem_cons_of_mem _ hx))
    rw [List.takeWhile_cons_of_pos (by simpa using hc),
      List.dropWhile_cons_of_pos (by simpa using hc), this.1, this.2]
    exact ⟨rfl, rfl⟩

theorem strtok_first (l rest : List Char) (hne : l ≠ []) (hl : ∀ c ∈ l, c ≠ '\t') :
    strtok (l ++ '\t' :: rest) = some (l, rest) := by
  cases l with
  | nil => exact absurd rfl hne
  | cons c l =>
    have hc := hl c (List.mem_cons_self _ _)
    have h := takeWhile_tab (c :: l) rest hl
    simp only [List.cons_append] at h ⊢
    simp only [strtok, if_neg hc, h.1, h.2]
    rfl

theorem strtok_last (l : List Char) (hne : l ≠ []) (hl : ∀ c ∈ l, c ≠ '\t') :
    strtok l = some (l, []) := by
  cases l with
  | nil => exact absurd rfl hne
  | cons c l =>
    have hc := hl c (List.mem_cons_self _ _)
    have h := takeWhile_all (c :: l) hl
    simp only [strtok, if_neg hc, h.1, h.2]
    rfl

theorem getlines_line (l rest : List Char) (hl : ∀ c ∈ l, c ≠ '\n') :
    getlines (l ++ '\n' :: rest) = (l ++ ['\n']) :: getlines rest := by
  induction l with
  | nil => simp [getlines]
  | cons c l ih =>
    have hc := hl c (List.mem_cons_self _ _)
    simp only [List.cons_append, getlines, if_neg hc, List.append_eq,
      ih (fun x hx => hl x (List.mem_cons_of_mem _ hx))]

theorem lineCount_line (l rest : List Char) (hl : ∀ c ∈ l, c ≠ '\n') :
    getFileLineCount (l ++ '\n' :: rest) = getFileLineCount rest + 1 := by
  induction l with
  | nil => simp [getFileLineCount]
  | cons c l ih =>
    have hc := hl c (List.mem_cons_self _ _)
    simp only [List.cons_append, getFileLineCount, if_neg hc, List.append_eq,
      ih (fun x hx => hl x (List.mem_cons_of_mem _ hx))]

theorem sampleLine_eq (p : Int × Int) :
    sampleLine p = (fmtInt p.1 ++ '\t' :: fmtInt p.2) ++ ['\n'] := by
  simp [sampleLine]

theorem sampleLine_body (p : Int × Int) : ∀ c ∈ fmtInt p.1 ++ '\t' :: fmtInt p.2, c ≠ '\n' := by
  intro c hc
  rcases List.mem_append.1 hc with h | h
  · exact (fmtInt_chars _ c h).2
  · rcases List.mem_cons.1 h with rfl | h
    · decide
    · exact (fmtInt_chars _ c h).2

theorem getlines_samples (T : List (Int × Int)) :
    getlines (T.map sampleLine).flatten = T.map sampleLine ∧
    getFileLineCount (T.map sampleLine).flatten = T.length := by
  induction T with
  | nil => exact ⟨rfl, rfl⟩
  | cons p T ih =>
    simp only [List.map_cons, List.flatten_cons, List.length_cons]
    rw [sampleLine_eq, List.append_assoc, List.singleton_append,
      getlines_line _ _ (sampleLine_body p), lineCount_line _ _ (sampleLine_body p), ih.1, ih.2]
    exact ⟨rfl, rfl⟩

theorem readLoop_samples (T : List (Int × Int)) : ∀ (i : Nat) (st s : List Int),
    readLoop (T.map sampleLine) i st s = Except.ok (st ++ T.map Prod.fst, s ++ T.map Prod.snd) := by
  induction T with
  | nil => intro i st s; simp [readLoop]
  | cons p T ih =>
    intro i st s
    have h1 : strtok (sampleLine p) = some (fmtInt p.1, fmtInt p.2 ++ ['\n']) := by
      unfold sampleLine
      exact strtok_first _ _ (fmtInt_ne_nil _) (fun c hc => (fmtInt_chars _ c hc).1)
    have h2 : strtok (fmtInt p.2 ++ ['\n']) = some (fmtInt p.2 ++ ['\n'], []) := by
      apply strtok_last _ (by simp)
      intro c hc
      rcases List.mem_append.1 hc with h | h
      · exact (fmtInt_chars _ c h).1
      · rw [List.mem_singleton.1 h]; decide
    have a1 : atoi (fmtInt p.1) = p.1 := by
      have := atoi_fmtInt p.1 [] (by simp)
      simpa using this
    have a2 : atoi (fmtInt p.2 ++ ['\n']) = p.2 := by
      apply atoi_fmtInt
      intro c hc
      simp only [List.head?_cons, Option.some.injEq] at hc
      subst hc
      decide
    simp only [List.map_cons, readLoop, h1, h2, a1, a2, ih]
    simp

/-- C4 (trace round-trip): for every compact trace `T` with levels in `{0, 1}` (no two
adjacent samples share a level; the times are arbitrary integers, non-negative ones
included), the text `writeSamples` emits for `T` is the header line followed by one line
`<t><TAB><level>` per sample, and reading that text the way `readSampleFile` does (line
count minus one as sample count, header skipped, each line split at the tab, `atoi` on both
fields) yields exactly `T`: the same sample count, times and levels in the same order. -/
theorem trace_roundtrip (T : List (Int × Int)) (hlev : ∀ p ∈ T, p.2 = 0 ∨ p.2 = 1)
    (hcompact : List.Chain' (fun p q => p.2 ≠ q.2) T) :
    writeSamples (T.map Prod.fst) (T.map Prod.snd) T.length =
      (header ++ (T.map sampleLine).flatten, T.length) ∧
    readSampleFile (writeSamples (T.map Prod.fst) (T.map Prod.snd) T.length).1 =
      ReadResult.ok (T.map Prod.fst) (T.map Prod.snd) T.length := by
  have hc : compact T = T := by
    rw [compact_eq]
    cases T with
    | nil => rfl
    | cons p r =>
      apply keepP_id _ 0 (-1)
      refine List.Chain.cons ?_ hcompact
      rcases hlev p (List.mem_cons_self _ _) with h | h <;> rw [h] <;> decide
  have hw : writeSamples (T.map Prod.fst) (T.map Prod.snd) T.length =
      (header ++ (T.map sampleLine).flatten, T.length) := by
    have := writeSamples_compact T
    rw [hc] at this
    exact this
  refine ⟨hw, ?_⟩
  rw [hw]
  have hh : header = ['[', 'µ', 's', ']', '\t', 'S', 'a', 'm', 'p', 'l', 'e'] ++ ['\n'] := rfl
  have hb : ∀ c ∈ ['[', 'µ', 's', ']', '\t', 'S', 'a', 'm', 'p', 'l', 'e'], c ≠ '\n' := by decide
  simp only [readSampleFile]
  rw [hh, List.append_assoc, List.singleton_append, getlines_line _ _ hb,
    lineCount_line _ _ hb, (getlines_samples T).1, (getlines_samples T).2]
  simp [readLoop_samples]

theorem trace_roundtrip_witness :
    (∀ p ∈ ([(0, 0), (700, 1), (715, 0), (12345, 1)] : List (Int × Int)), p.2 = 0 ∨ p.2 = 1) ∧
    List.Chain' (fun p q => p.2 ≠ q.2)
      ([(0, 0), (700, 1), (715, 0), (12345, 1)] : List (Int × Int)) ∧
    writeSamples (([(0, 0), (700, 1), (715, 0), (12345, 1)] : List (Int × Int)).map Prod.fst)
        (([(0, 0), (700, 1), (715, 0), (12345, 1)] : List (Int × Int)).map Prod.snd)
        ([(0, 0), (700, 1), (715, 0), (12345, 1)] : List (Int × Int)).length =
      (header ++ (([(0, 0), (700, 1), (715, 0), (12345, 1)] : List (Int × Int)).map
        sampleLine).flatten, ([(0, 0), (700, 1), (715, 0), (12345, 1)] : List (Int × Int)).length) ∧
    readSampleFile (writeSamples
        (([(0, 0), (700, 1), (715, 0), (12345, 1)] : List (Int × Int)).map Prod.fst)
        (([(0, 0), (700, 1), (715, 0), (12345, 1)] : List (Int × Int)).map Prod.snd)
        ([(0, 0), (700, 1), (715, 0), (12345, 1)] : List (Int × Int)).length).1 =
      ReadResult.ok (([(0, 0), (700, 1), (715, 0), (12345, 1)] : List (Int × Int)).map Prod.fst)
        (([(0, 0), (700, 1), (715, 0), (12345, 1)] : List (Int × Int)).map Prod.snd)
        ([(0, 0), (700, 1), (715, 0), (12345, 1)] : List (Int × Int)).length :=
  ⟨by decide, by simp,
    trace_roundtrip [(0, 0), (700, 1), (715, 0), (12345, 1)] (by decide) (by simp)⟩

theorem store_getD (a : List Int) (i j : Nat) (v : Int) :
    (store a i v).getD j 0 = if j = i then v else a.getD j 0 := by
  unfold store
  by_cases hi : i < a.length
  · rw [if_pos hi]
    simp only [List.getD_eq_getElem?_getD, List.getElem?_set]
    by_cases hji : j = i
    · subst hji; simp [hi]
    · simp [hji, Ne.symm hji]
  · rw [if_neg hi]
    simp only [List.getD_eq_getElem?_getD]
    by_cases hji : j = i
    · subst hji
      rw [if_pos rfl, List.getElem?_append_right (by simp; omega)]
      have e : j - (a ++ List.replicate (j - a.length) 0).length = 0 := by simp; omega
      rw [e]
      rfl
    · rw [if_neg hji]
      by_cases hj : j < a.length
      · rw [List.append_assoc, List.getElem?_append_left hj]
      · rw [List.getElem?_eq_none (Nat.le_of_not_lt hj)]
        by_cases hj2 : j < i
        · rw [List.getElem?_append_left (by simp; omega),
            List.getElem?_append_right (by omega), List.getElem?_replicate]
          split <;> rfl
        · rw [List.getElem?_eq_none (by simp; omega)]

theorem addSampleLoop_cycles (h l limit : Int) (base : Nat) (hpos : 0 < h + l) (k : Nat) :
    ∀ (fuel : Nat) (t : Int) (pos : Nat) (st s : List Int),
      k ≤ fuel → t + k * (h + l) ≤ limit → limit < t + (k + 1) * (h + l) →
      ∃ st' s', addSampleLoop h l limit base fuel t pos st s =
          some (t + k * (h + l), pos + 2 * k, st', s') ∧
        (∀ m, m < k →
          s'.getD (base + pos + 2 * m) 0 = 1 ∧ s'.getD (base + pos + 2 * m + 1) 0 = 0 ∧
          st'.getD (base + pos + 2 * m + 1) 0 = t + m * (h + l) + h ∧
          st'.getD (base + pos + 2 * m + 2) 0 = t + (m + 1) * (h + l)) ∧
        (∀ q, q ≤ base + pos → st'.getD q 0 = st.getD q 0) ∧
        (∀ q, q < base + pos → s'.getD q 0 = s.getD q 0) := by
  induction k with
  | zero =>
    intro fuel t pos st s _ h1 h2
    have hc : ¬ (t + h + l ≤ limit) := by
      simp at h2; omega
    refine ⟨st, s, ?_, ?_, fun _ _ => rfl, fun _ _ => rfl⟩
    · cases fuel <;> simp [addSampleLoop, hc]
    · intro m hm; omega
  | succ k ih =>
    intro fuel t pos st s hf h1 h2
    obtain ⟨fuel, rfl⟩ : ∃ f, fuel = f + 1 := ⟨fuel - 1, by omega⟩
    have hk : (0:Int) ≤ k * (h + l) := by positivity
    have hc : t + h + l ≤ limit := by
      push_cast at h1; linarith
    obtain ⟨st', s', e, hm, hst, hs⟩ := ih fuel (t + (h + l)) (pos + 2)
      (store (store st (base + (pos + 1)) (t + h)) (base + (pos + 2)) (t + h + l))
      (store (store s (base + pos) 1) (base + (pos + 1)) 0) (by omega)
      (by push_cast at h1; linarith) (by push_cast at h2 ⊢; linarith)
    refine ⟨st', s', ?_, ?_, ?_, ?_⟩
    · simp only [addSampleLoop, hc, if_true]
      rw [e]
      simp only [Option.some.injEq, Prod.mk.injEq, and_true]
      refine ⟨by push_cast; ring, by omega⟩
    · intro m hm'
      cases m with
      | zero =>
        refine ⟨?_, ?_, ?_, ?_⟩
        · rw [Nat.mul_zero, Nat.add_zero, hs _ (by omega), store_getD, if_neg (by omega),
            store_getD, if_pos rfl]
        · rw [Nat.mul_zero, Nat.add_zero, hs _ (by omega), store_getD, if_pos (by omega)]
        · rw [Nat.mul_zero, Nat.add_zero, hst _ (by omega), store_getD, if_neg (by omega),
            store_getD, if_pos (by omega)]
          simp
        · rw [Nat.mul_zero, Nat.add_zero, hst _ (by omega), store_getD, if_pos (by omega)]
          push_cast; ring
      | succ m =>
        obtain ⟨b1, b2, b3, b4⟩ := hm m (by omega)
        refine ⟨?_, ?_, ?_, ?_⟩
        · rw [← b1]; congr 1; omega
        · rw [← b2]; congr 1; omega
        · rw [show base + pos + 2 * (m + 1) + 1 = base + (pos + 2) + 2 * m + 1 by omega, b3]
          push_cast; ring
        · rw [show base + pos + 2 * (m + 1) + 2 = base + (pos + 2) + 2 * m + 2 by omega, b4]
          push_cast; ring
    · intro q hq
      rw [hst q (by omega), store_getD, if_neg (by omega), store_getD, if_neg (by omega)]
    · intro q hq
      rw [hs q (by omega), store_getD, if_neg (by omega), store_getD, if_neg (by omega)]

theorem isEqualLoop_iff (A B : List Nat) (n : Nat) : ∀ i,
    (isEqualLoop A B n i = 1 ↔ ∀ k, k < n → A.getD (i + k) 0 = B.getD (i + k) 0) ∧
    (isEqualLoop A B n i = 0 ∨ isEqualLoop A B n i = 1) := by
  induction n with
  | zero => intro i; simp [isEqualLoop]
  | succ n ih =>
    intro i
    simp only [isEqualLoop]
    by_cases h : A.getD i 0 = B.getD i 0
    · rw [if_neg (by simpa using h)]
      refine ⟨?_, (ih (i + 1)).2⟩
      rw [(ih (i + 1)).1]
      constructor
      · intro hk k hk'
        cases k with
        | zero => exact h
        | succ k =>
          have := hk k (by omega)
          rw [show i + (k + 1) = i + 1 + k by omega]
          exact this
      · intro hk k hk'
        have := hk (k + 1) (by omega)
        rw [show i + 1 + k = i + (k + 1) by omega]
        exact this
    · rw [if_pos (by simpa using h)]
      refine ⟨?_, Or.inl rfl⟩
      constructor
      · intro h0; exact absurd h0 (by decide)
      · intro hk; exact absurd (hk 0 (by omega)) h

theorem isEqualLoop_congr (A B A' B' : List Nat) (n : Nat) : ∀ i,
    (∀ k, k < n → A'.getD (i + k) 0 = A.getD (i + k) 0 ∧ B'.getD (i + k) 0 = B.getD (i + k) 0) →
    isEqualLoop A' B' n i = isEqualLoop A B n i := by
  induction n with
  | zero => intro i _; rfl
  | succ n ih =>
    intro i h
    have h0 := h 0 (by omega)
    simp only [Nat.add_zero] at h0
    simp only [isEqualLoop, h0.1, h0.2]
    rw [ih (i + 1) (fun k hk => by
      have := h (k + 1) (by omega)
      rw [show i + 1 + k = i + (k + 1) by omega]
      exact this)]

theorem getD_set_ne (A : List Nat) (i j x : Nat) (h : j ≠ i) :
    (A.set i x).getD j 0 = A.getD j 0 := by
  simp only [List.getD_eq_getElem?_getD, List.getElem?_set]
  rw [if_neg (Ne.symm h)]

theorem lastByte_decode :
    decodeRawData lastByteTimes lastByteLevels 73 =
      some ⟨[1, 2], 2, false, some ([1, 3], 2),
        [Msg.checksumError 1 (some 2), Msg.checksumError 1 (some 3)]⟩ := by
  set_option maxRecDepth 1000000 in decide

/-- C17 (`isEqual` skips the last byte): `isEqual` returns 1 exactly when the two byte
counts are equal and `bytesA[i] = bytesB[i]` for every `i` in `[0, byteCountA − 1)`, and 0
otherwise; the byte at `byteCountA − 1` is never compared, so overwriting it in either array
does not change the result.  In `decodeRawData` a trace whose two half-frames carry `01 02`
and `01 03` is decoded without a complaint about the second transmit. -/
theorem isEqual_skips_last (bytesA bytesB : List Nat) (byteCountA byteCountB : Nat) :
    (isEqual bytesA byteCountA bytesB byteCountB = 1 ↔
      byteCountA = byteCountB ∧ ∀ i, i < byteCountA - 1 → bytesA.getD i 0 = bytesB.getD i 0) ∧
    (isEqual bytesA byteCountA bytesB byteCountB = 0 ∨
      isEqual bytesA byteCountA bytesB byteCountB = 1) ∧
    (∀ x y : Nat, isEqual (bytesA.set (byteCountA - 1) x) byteCountA
        (bytesB.set (byteCountA - 1) y) byteCountA = isEqual bytesA byteCountA bytesB byteCountA) ∧
    isEqual [1, 2] 2 [1, 3] 2 = 1 ∧
    decodeRawData lastByteTimes lastByteLevels 73 =
      some ⟨[1, 2], 2, false, some ([1, 3], 2),
        [Msg.checksumError 1 (some 2), Msg.checksumError 1 (some 3)]⟩ := by
  refine ⟨?_, ?_, ?_, by decide, lastByte_decode⟩
  · unfold isEqual
    by_cases h : byteCountA = byteCountB
    · rw [if_neg (by simpa using h), (isEqualLoop_iff bytesA bytesB (byteCountA - 1) 0).1]
      simp [h]
    · rw [if_pos h]
      simp [h]
  · unfold isEqual
    split
    · exact Or.inl rfl
    · exact (isEqualLoop_iff bytesA bytesB (byteCountA - 1) 0).2
  · intro x y
    unfold isEqual
    rw [if_neg (by simp), if_neg (by simp)]
    apply isEqualLoop_congr
    intro k hk
    exact ⟨getD_set_ne _ _ _ _ (by omega), getD_set_ne _ _ _ _ (by omega)⟩

theorem compactLoop_fst_le (n : Nat) : ∀ (i j : Nat) (st s : List Int),
    (compactLoop n i j st s).1 ≤ j + n := by
  induction n with
  | zero => intro i j st s; simp [compactLoop]
  | succ n ih =>
    intro i j st s
    simp only [compactLoop]
    split
    · have := ih (i + 1) (j + 1) (st.set (j + 1) (st.getD (i + 1) 0))
        (s.set (j + 1) (s.getD (i + 1) 0))
      omega
    · have := ih (i + 1) j st s
      omega

theorem bitLoop_lastIndex (T : List Int) (n : Nat) : ∀ (i bc bi byte : Nat) (bytes : List Nat),
    (bitLoop T n i bc bi byte bytes).2.2 = -1 ∨
      ((i : Int) ≤ (bitLoop T n i bc bi byte bytes).2.2 ∧
        (bitLoop T n i bc bi byte bytes).2.2 < (i : Int) + n ∧
        (bitLoop T n i bc bi byte bytes).2.2 % 2 = 0) := by
  induction n with
  | zero => intro i bc bi byte bytes; exact Or.inl rfl
  | succ n ih =>
    intro i bc bi byte bytes
    have step : ∀ bc' bi' byte' bytes',
        (bitLoop T n (i + 1) bc' bi' byte' bytes').2.2 = -1 ∨
          ((i : Int) ≤ (bitLoop T n (i + 1) bc' bi' byte' bytes').2.2 ∧
            (bitLoop T n (i + 1) bc' bi' byte' bytes').2.2 < (i : Int) + (n + 1 : Nat) ∧
            (bitLoop T n (i + 1) bc' bi' byte' bytes').2.2 % 2 = 0) := by
      intro bc' bi' byte' bytes'
      rcases ih (i + 1) bc' bi' byte' bytes' with h | ⟨h1, h2, h3⟩
      · exact Or.inl h
      · exact Or.inr ⟨by push_cast at h1; omega, by push_cast at h1 h2 ⊢; omega, h3⟩
    have brk : (i : Int) ≤ (i : Int) ∧ (i : Int) < (i : Int) + (n + 1 : Nat) ∧
        i % 2 = 0 → ((i : Int) ≤ i ∧ (i : Int) < (i : Int) + (n + 1 : Nat) ∧ (i : Int) % 2 = 0) := by
      intro ⟨a, b, c⟩
      exact ⟨a, b, by omega⟩
    simp only [bitLoop]
    by_cases hi : i % 2 = 0
    · simp only [hi, if_true]
      split
      · split
        · exact Or.inr (brk ⟨le_refl _, by push_cast; omega, hi⟩)
        · exact step _ _ _ _
      · split
        · exact Or.inr (brk ⟨le_refl _, by push_cast; omega, hi⟩)
        · exact step _ _ _ _
    · simp only [hi, if_false]
      exact step _ _ _ _

theorem decodeRawDataAux_unfold (fuel : Nat) (st s : List Int) (c j : Nat) (st2 s2 : List Int)
    (bytes : List Nat) (bi : Nat) (li : Int)
    (h2 : compactLoop (c - 1) 0 0 st (flattenLoop st (c - 2) 0 s) = (j, st2, s2))
    (h3 : bitLoop st2 (j - 1 - 3) 3 0 0 0 [] = (bytes, bi, li)) :
    decodeRawDataAux (fuel + 1) st s c =
      if 2 * (j : Int) < 5 * li ∧ 5 * li < 3 * (j : Int) then
        match decodeRawDataAux fuel (st2.drop li.toNat) (s2.drop li.toNat) (j - li.toNat + 1) with
        | none => none
        | some r =>
          some ⟨bytes, bi,
            decide ((if bi = 0 then none else bytes.get? (bi - 1)) =
              some (crcLoop bytes (bi - 1) 0 0)),
            some (r.bytes, r.byteCount),
            (if decide ((if bi = 0 then none else bytes.get? (bi - 1)) =
                some (crcLoop bytes (bi - 1) 0 0)) then []
              else [Msg.checksumError (crcLoop bytes (bi - 1) 0 0)
                (if bi = 0 then none else bytes.get? (bi - 1))]) ++ r.log ++
              (if bi ≠ r.byteCount then [Msg.byteCountDiffer bi r.byteCount]
               else if isEqual bytes bi r.bytes r.byteCount = 0 then [Msg.notIdentical]
               else [])⟩
      else some ⟨bytes, bi,
        decide ((if bi = 0 then none else bytes.get? (bi - 1)) =
          some (crcLoop bytes (bi - 1) 0 0)), none,
        if decide ((if bi = 0 then none else bytes.get? (bi - 1)) =
            some (crcLoop bytes (bi - 1) 0 0)) then []
          else [Msg.checksumError (crcLoop bytes (bi - 1) 0 0)
            (if bi = 0 then none else bytes.get? (bi - 1))]⟩ := by
  simp only [decodeRawDataAux, h2, h3]

theorem recursion_shrinks (st s : List Int) (c j : Nat) (st2 s2 : List Int)
    (bytes : List Nat) (bi : Nat) (li : Int)
    (h2 : compactLoop (c - 1) 0 0 st (flattenLoop st (c - 2) 0 s) = (j, st2, s2))
    (h3 : bitLoop st2 (j - 1 - 3) 3 0 0 0 [] = (bytes, bi, li))
    (hc : 2 * (j : Int) < 5 * li ∧ 5 * li < 3 * (j : Int)) :
    4 ≤ li ∧ 0 < j - li.toNat + 1 ∧ j - li.toNat + 1 < c ∧
      ((j - li.toNat + 1 : Nat) : Int) = (j : Int) - li + 1 := by
  have hj := compactLoop_fst_le (c - 1) 0 0 st (flattenLoop st (c - 2) 0 s)
  rw [h2] at hj
  have hl := bitLoop_lastIndex st2 (j - 1 - 3) 3 0 0 0 []
  rw [h3] at hl
  simp only at hj hl
  omega

theorem decodeRawDataAux_total (fuel : Nat) : ∀ (c : Nat) (st s : List Int), c < fuel →
    ∃ d, decodeRawDataAux fuel st s c = some d := by
  induction fuel with
  | zero => intro c st s h; omega
  | succ fuel ih =>
    intro c st s h
    rcases h2 : compactLoop (c - 1) 0 0 st (flattenLoop st (c - 2) 0 s) with ⟨j, st2, s2⟩
    rcases h3 : bitLoop st2 (j - 1 - 3) 3 0 0 0 [] with ⟨bytes, bi, li⟩
    rw [decodeRawDataAux_unfold fuel st s c j st2 s2 bytes bi li h2 h3]
    split
    · rename_i hc
      have hr := recursion_shrinks st s c j st2 s2 bytes bi li h2 h3 hc
      obtain ⟨d, hd⟩ := ih (j - li.toNat + 1) (st2.drop li.toNat) (s2.drop li.toNat) (by omega)
      rw [hd]
      exact ⟨_, rfl⟩
    · exact ⟨_, rfl⟩

theorem decodeRawDataAux_fuel (f1 : Nat) : ∀ (f2 c : Nat) (st s : List Int), c < f1 → c < f2 →
    decodeRawDataAux f1 st s c = decodeRawDataAux f2 st s c := by
  induction f1 with
  | zero => intro f2 c st s h; omega
  | succ f1 ih =>
    intro f2 c st s h1 hf2
    obtain ⟨f2, rfl⟩ : ∃ f, f2 = f + 1 := ⟨f2 - 1, by omega⟩
    rcases h2 : compactLoop (c - 1) 0 0 st (flattenLoop st (c - 2) 0 s) with ⟨j, st2, s2⟩
    rcases h3 : bitLoop st2 (j - 1 - 3) 3 0 0 0 [] with ⟨bytes, bi, li⟩
    rw [decodeRawDataAux_unfold f1 st s c j st2 s2 bytes bi li h2 h3,
      decodeRawDataAux_unfold f2 st s c j st2 s2 bytes bi li h2 h3]
    split
    · rename_i hc
      have hr := recursion_shrinks st s c j st2 s2 bytes bi li h2 h3 hc
      rw [ih f2 (j - li.toNat + 1) (st2.drop li.toNat) (s2.drop li.toNat) (by omega) (by omega)]
    · rfl

/-- C20 (termination of `decodeRawData`): on every input the decoder returns; whenever the
second-half recursion is taken, `lastIndex ≥ 4` and the sample count of the recursive call,
`sampleCount − lastIndex + 1` with the compacted `sampleCount`, is positive and strictly
smaller than the sample count of the caller, so a recursion depth of the input length plus
one always suffices and any larger bound gives the same result. -/
theorem decodeRawData_terminates (sampleTime sample : List Int) (sampleCount : Nat) :
    (∃ d, decodeRawData sampleTime sample sampleCount = some d) ∧
    (∀ fuel, sampleCount < fuel →
      decodeRawDataAux fuel sampleTime sample sampleCount =
        decodeRawData sampleTime sample sampleCount) ∧
    (∀ (j : Nat) (st2 s2 : List Int) (bytes : List Nat) (byteIndex : Nat) (lastIndex : Int),
      compactLoop (sampleCount - 1) 0 0 sampleTime
          (flattenLoop sampleTime (sampleCount - 2) 0 sample) = (j, st2, s2) →
      bitLoop st2 (j - 1 - 3) 3 0 0 0 [] = (bytes, byteIndex, lastIndex) →
      2 * (j : Int) < 5 * lastIndex ∧ 5 * lastIndex < 3 * (j : Int) →
      4 ≤ lastIndex ∧ 0 < j - lastIndex.toNat + 1 ∧ j - lastIndex.toNat + 1 < sampleCount ∧
        ((j - lastIndex.toNat + 1 : Nat) : Int) = (j : Int) - lastIndex + 1) := by
  refine ⟨decodeRawDataAux_total _ _ _ _ (Nat.lt_succ_self _), ?_, ?_⟩
  · intro fuel hf
    exact decodeRawDataAux_fuel fuel (sampleCount + 1) sampleCount _ _ hf (Nat.lt_succ_self _)
  · intro j st2 s2 bytes byteIndex lastIndex h2 h3 hc
    exact recursion_shrinks _ _ _ _ _ _ _ _ _ h2 h3 hc

theorem keepP_zip (ss : List Int) : ∀ (ts : List Int) (last : Int), ts.length = ss.length →
    keepP last (ts.zip ss) = (keepT last ts ss).zip (keepS last ss) := by
  induction ss with
  | nil => intro ts last h; cases ts <;> simp [keepP, keepS, keepT]
  | cons s ss ih =>
    intro ts last h
    cases ts with
    | nil => simp at h
    | cons t ts =>
      show keepP last ((t, s) :: ts.zip ss) = _
      simp only [keepP, keepT, keepS]
      split
      · rw [ih ts s (by simpa using h)]
        rfl
      · exact ih ts last (by simpa using h)

theorem keepS_chain (l : List Int) : ∀ prev : Int, List.Chain (· ≠ ·) prev (keepS prev l) := by
  induction l with
  | nil => intro prev; exact List.Chain.nil
  | cons s l ih =>
    intro prev
    simp only [keepS]
    split
    · rename_i h
      exact List.Chain.cons h (ih s)
    · exact ih prev

theorem keepS_length_changes (s : List Int) (n : Nat) : ∀ i, i + n < s.length →
    (keepS (s.getD i 0) ((s.drop (i + 1)).take n)).length =
      ((List.range n).filter
        (fun k => decide (s.getD (i + k) 0 ≠ s.getD (i + k + 1) 0))).length := by
  induction n with
  | zero => intro i _; simp [keepS]
  | succ n ih =>
    intro i h
    have e : ((fun k => decide (s.getD (i + k) 0 ≠ s.getD (i + k + 1) 0)) ∘ Nat.succ) =
        (fun k => decide (s.getD (i + 1 + k) 0 ≠ s.getD (i + 1 + k + 1) 0)) := by
      funext k
      simp only [Function.comp, Nat.succ_eq_add_one]
      rw [show i + (k + 1) = i + 1 + k by omega]
    have ih' := ih (i + 1) (by omega)
    rw [take_succ_drop s (i + 1) n (by omega), List.range_succ_eq_map]
    by_cases hne : s.getD i 0 = s.getD (i + 1) 0
    · rw [List.filter_cons_of_neg (by simpa using hne), List.filter_map, List.length_map, e,
        ← ih', keepS, if_neg (by simpa using hne), hne]
    · rw [List.filter_cons_of_pos (by simpa using hne), List.length_cons, List.filter_map,
        List.length_map, e, ← ih', keepS, if_pos hne, List.length_cons]

theorem bitLoop_local (T T' : List Int) (n : Nat) : ∀ (i bc bi byte : Nat) (bytes : List Nat),
    (∀ q, i ≤ q → q ≤ i + n → 0 < n → T'.getD q 0 = T.getD q 0) →
    bitLoop T' n i bc bi byte bytes = bitLoop T n i bc bi byte bytes := by
  induction n with
  | zero => intro i bc bi byte bytes _; rfl
  | succ n ih =>
    intro i bc bi byte bytes h
    have h0 := h i (le_refl _) (by omega) (by omega)
    have h1 := h (i + 1) (by omega) (by omega) (by omega)
    have hr : ∀ q, i + 1 ≤ q → q ≤ i + 1 + n → 0 < n → T'.getD q 0 = T.getD q 0 :=
      fun q a b _ => h q (by omega) (by omega) (by omega)
    simp only [bitLoop, h0, h1, ih _ _ _ _ _ hr]

/-- C19, as stated, fails in its last part: in the compact trace `edgeTimes` of 22 edges the
re-compaction sets `sampleCount` to `j = 21`; the last retained edge, at index 21, follows
the edge at the even index 20 by 5000 µs, yet the bit loop, which runs over `i < j − 1`,
never takes index 21 as an `i+1` neighbour: it ends without a frame end, whereas a loop
that ran up to `i = j − 1` would have ended the frame at index 20. -/
theorem last_edge_not_read :
    compactLoop (22 - 1) 0 0 edgeTimes (flattenLoop edgeTimes (22 - 2) 0 edgeLevels) =
      (21, edgeTimes, edgeLevels) ∧
    edgeTimes.getD 21 0 - edgeTimes.getD 20 0 = 5000 ∧
    bitLoop edgeTimes (21 - 1 - 3) 3 0 0 0 [] = ([170], 1, -1) ∧
    bitLoop edgeTimes (21 - 3) 3 0 0 0 [] = ([170], 1, 20) ∧
    ¬ ∃ i, 3 ≤ i ∧ i < 21 - 1 ∧ i + 1 = 21 := by
  refine ⟨by decide, by decide, by decide, by decide, ?_⟩
  rintro ⟨i, _, h2, h3⟩
  omega

/-- C19 (amended): for every trace of `n ≥ 1` samples the in-place re-compaction of
`decodeRawData` leaves in positions `0..j` exactly sample 0 followed by every later sample
whose level differs from that of its predecessor (for levels in `{0, 1}` the same sequence
as the compaction of `writeSamples`), no two adjacent retained entries share a level, and
the working `sampleCount` becomes `j`, the number of level changes, one less than the
number of retained entries.  The bit loop reads the retained times below index `j` only:
the last retained edge is never read by it, not even as an `i+1` neighbour, and is
reachable only through the `+1` of the count of the recursive call. -/
theorem recompaction_refines (sampleTime sample : List Int) (sampleCount : Nat)
    (hn : 1 ≤ sampleCount) (hs : sampleCount ≤ sample.length)
    (ht : sampleCount ≤ sampleTime.length) :
    ∃ j st' s', compactLoop (sampleCount - 1) 0 0 sampleTime sample = (j, st', s') ∧
      s'.take (j + 1) =
        sample.getD 0 0 :: keepS (sample.getD 0 0) ((sample.drop 1).take (sampleCount - 1)) ∧
      st'.take (j + 1) =
        sampleTime.getD 0 0 :: keepT (sample.getD 0 0)
          ((sampleTime.drop 1).take (sampleCount - 1)) ((sample.drop 1).take (sampleCount - 1)) ∧
      (s'.take (j + 1)).length = j + 1 ∧ (st'.take (j + 1)).length = j + 1 ∧
      List.Chain' (· ≠ ·) (s'.take (j + 1)) ∧
      j = ((List.range (sampleCount - 1)).filter
        (fun i => decide (sample.getD i 0 ≠ sample.getD (i + 1) 0))).length ∧
      ((∀ i, i < sampleCount → sample.getD i 0 = 0 ∨ sample.getD i 0 = 1) →
        (st'.take (j + 1)).zip (s'.take (j + 1)) =
          writeSamplesLoop sampleTime sample sampleCount 0 (-1)) ∧
      (∀ T' : List Int, (∀ q, q < j → T'.getD q 0 = st'.getD q 0) →
        bitLoop T' (j - 1 - 3) 3 0 0 0 [] = bitLoop st' (j - 1 - 3) 3 0 0 0 []) ∧
      (∀ lastIndex : Nat, lastIndex ≤ j → lastIndex + (j - lastIndex + 1) = j + 1) := by
  obtain ⟨st', s', h1, h2, h3, h4, h5⟩ := compactLoop_spec (sampleCount - 1) 0 0 sampleTime sample
    (le_refl _) (by omega) (by omega)
  have hs0 : sample.take 1 = [sample.getD 0 0] := by
    rw [List.take_succ, List.take_zero, List.nil_append, List.getD_eq_getElem?_getD,
      List.getElem?_eq_getElem (by omega)]
    rfl
  have ht0 : sampleTime.take 1 = [sampleTime.getD 0 0] := by
    rw [List.take_succ, List.take_zero, List.nil_append, List.getD_eq_getElem?_getD,
      List.getElem?_eq_getElem (by omega)]
    rfl
  simp only [Nat.zero_add, hs0, ht0, List.singleton_append] at h1 h2 h3
  have hlenT : ((sampleTime.drop 1).take (sampleCount - 1)).length =
      ((sample.drop 1).take (sampleCount - 1)).length := by
    simp only [List.length_take, List.length_drop]; omega
  have hkl := keepT_length (sample.getD 0 0) _ _ hlenT
  rw [Nat.add_comm] at h2 h3
  refine ⟨_, st', s', h1, h2, h3, ?_, ?_, ?_, ?_, ?_, ?_, ?_⟩
  · rw [h2, List.length_cons]
  · rw [h3, List.length_cons, hkl]
  · rw [h2]
    exact keepS_chain _ _
  · have := keepS_length_changes sample (sampleCount - 1) 0 (by omega)
    simpa using this
  · intro hlev
    rw [h2, h3, writeSamplesLoop_eq _ _ _ _ _ (by omega) (by omega), List.drop_zero]
    have hz : (sampleTime.zip sample).take sampleCount =
        (sampleTime.getD 0 0, sample.getD 0 0) ::
          ((sampleTime.drop 1).take (sampleCount - 1)).zip
            ((sample.drop 1).take (sampleCount - 1)) := by
      obtain ⟨n, rfl⟩ : ∃ n, sampleCount = n + 1 := ⟨sampleCount - 1, by omega⟩
      cases sampleTime with
      | nil => simp at ht
      | cons t ts =>
        cases sample with
        | nil => simp at hs
        | cons a as => simp [List.zip, List.take_zipWith]
    have hne : (-1 : Int) ≠ sample.getD 0 0 := by
      rcases hlev 0 (by omega) with h | h <;> rw [h] <;> decide
    rw [hz, keepP, if_pos hne, keepP_zip _ _ _ hlenT]
    rfl
  · intro T' hT'
    apply bitLoop_local
    intro q _ hq hpos
    exact hT' q (by omega)
  · intro lastIndex hl
    omega

theorem recompaction_refines_witness :
    (1 ≤ 4 ∧ 4 ≤ ([0, 1, 1, 0] : List Int).length ∧ 4 ≤ ([0, 10, 20, 30] : List Int).length) ∧
    ∃ j st' s', compactLoop (4 - 1) 0 0 [0, 10, 20, 30] [0, 1, 1, 0] = (j, st', s') ∧
      s'.take (j + 1) =
        ([0, 1, 1, 0] : List Int).getD 0 0 ::
          keepS (([0, 1, 1, 0] : List Int).getD 0 0) ((([0, 1, 1, 0] : List Int).drop 1).take (4 - 1)) ∧
      st'.take (j + 1) =
        ([0, 10, 20, 30] : List Int).getD 0 0 :: keepT (([0, 1, 1, 0] : List Int).getD 0 0)
          ((([0, 10, 20, 30] : List Int).drop 1).take (4 - 1))
          ((([0, 1, 1, 0] : List Int).drop 1).take (4 - 1)) ∧
      (s'.take (j + 1)).length = j + 1 ∧ (st'.take (j + 1)).length = j + 1 ∧
      List.Chain' (· ≠ ·) (s'.take (j + 1)) ∧
      j = ((List.range (4 - 1)).filter
        (fun i => decide (([0, 1, 1, 0] : List Int).getD i 0 ≠
          ([0, 1, 1, 0] : List Int).getD (i + 1) 0))).length ∧
      ((∀ i, i < 4 → ([0, 1, 1, 0] : List Int).getD i 0 = 0 ∨
          ([0, 1, 1, 0] : List Int).getD i 0 = 1) →
        (st'.take (j + 1)).zip (s'.take (j + 1)) =
          writeSamplesLoop [0, 10, 20, 30] [0, 1, 1, 0] 4 0 (-1)) ∧
      (∀ T' : List Int, (∀ q, q < j → T'.getD q 0 = st'.getD q 0) →
        bitLoop T' (j - 1 - 3) 3 0 0 0 [] = bitLoop st' (j - 1 - 3) 3 0 0 0 []) ∧
      (∀ lastIndex : Nat, lastIndex ≤ j → lastIndex + (j - lastIndex + 1) = j + 1) :=
  ⟨⟨by decide, by decide, by decide⟩,
    recompaction_refines [0, 10, 20, 30] [0, 1, 1, 0] 4 (by decide) (by decide) (by decide)⟩

theorem bitLoop_first_long (T : List Int) (n : Nat) :
    ∀ (i bc bi byte : Nat) (bytes : List Nat) (q : Nat),
    (bitLoop T n i bc bi byte bytes).2.2 = (q : Int) →
    2000 < T.getD (q + 1) 0 - T.getD q 0 ∧
      ∀ p, i ≤ p → p < q → p % 2 = 0 → T.getD (p + 1) 0 - T.getD p 0 ≤ 2000 := by
  induction n with
  | zero =>
    intro i bc bi byte bytes q h
    simp only [bitLoop] at h
    omega
  | succ n ih =>
    intro i bc bi byte bytes q h
    simp only [bitLoop] at h
    by_cases hi : i % 2 = 0
    · simp only [hi, if_true] at h
      by_cases hd : 2000 < T.getD (i + 1) 0 - T.getD i 0
      · have hq : q = i := by
          split at h <;> simp only [hd, if_true] at h <;> omega
        subst hq
        exact ⟨hd, fun p h1 h2 _ => by omega⟩
      · have hrec : ∃ bc' bi' byte' bytes',
            (bitLoop T n (i + 1) bc' bi' byte' bytes').2.2 = (q : Int) := by
          split at h <;> exact ⟨_, _, _, _, h⟩
        obtain ⟨bc', bi', byte', bytes', h'⟩ := hrec
        obtain ⟨a, b⟩ := ih _ _ _ _ _ q h'
        refine ⟨a, fun p h1 h2 h3 => ?_⟩
        by_cases hp : p = i
        · subst hp
          omega
        · exact b p (by omega) h2 h3
    · simp only [hi, if_false] at h
      obtain ⟨a, b⟩ := ih _ _ _ _ _ q h
      refine ⟨a, fun p h1 h2 h3 => ?_⟩
      by_cases hp : p = i
      · subst hp
        omega
      · exact b p (by omega) h2 h3

/-- Second half-frame of the cells written for a payload `P` of `L` bytes: when
`decodeRawData` processes them, the compacted sample count is
`8 + 32·L`; the bit loop returns the bytes of `P` and leaves through `break` with
`lastIndex = 4 + 16·L`, the first measured space (even index from 3 on) longer than
2000 µs; `lastIndex` lies strictly between 40% and 60% of the count; the recursive decode of
the tail at `lastIndex` with `8 + 32·L − lastIndex + 1` samples returns the `L` bytes of `P`
and makes no further recursive call (`second = none`); and the whole decode reports the
second transmit `(P, L)`. -/
theorem second_half_cells (P : List Nat) (hP : ∀ b ∈ P, b < 256) :
    ∃ tr j st2 s2, generateRawBytes P = some tr ∧
      compactLoop (tr.sampleCount - 1) 0 0 tr.sampleTime
        (flattenLoop tr.sampleTime (tr.sampleCount - 2) 0 tr.sample) = (j, st2, s2) ∧
      j = 8 + 32 * P.length ∧
      bitLoop st2 (j - 1 - 3) 3 0 0 0 [] = (P, P.length, ((4 + 16 * P.length : Nat) : Int)) ∧
      2000 < st2.getD (4 + 16 * P.length + 1) 0 - st2.getD (4 + 16 * P.length) 0 ∧
      (∀ p, 3 ≤ p → p < 4 + 16 * P.length → p % 2 = 0 →
        st2.getD (p + 1) 0 - st2.getD p 0 ≤ 2000) ∧
      (2 * (j : Int) < 5 * ((4 + 16 * P.length : Nat) : Int) ∧
        5 * ((4 + 16 * P.length : Nat) : Int) < 3 * (j : Int)) ∧
      (∀ fuel, decodeRawDataAux (fuel + 1) (st2.drop (4 + 16 * P.length))
          (s2.drop (4 + 16 * P.length)) (j - (4 + 16 * P.length) + 1) =
        some ⟨P, P.length, decide (foundOf P = some (crcOf P)), none, crcLog P⟩) ∧
      decodeRawData tr.sampleTime tr.sample tr.sampleCount =
        some ⟨P, P.length, decide (foundOf P = some (crcOf P)), some (P, P.length),
          crcLog P ++ crcLog P ++ []⟩ := by
  obtain ⟨tr, hgen, hdec⟩ := decode_generate P hP
  have hspec := generateRawBytes_spec P
  rw [hgen] at hspec
  obtain ⟨h1, h2, h3⟩ := frame2_norm P 700
  have hg : GoodSegs (frameN P ++ frameN P) := goodSegs_append (frameN_good P) (frameN_good P)
  obtain ⟨st2, s2, X, Y, hc, hst, hs⟩ := compact_raw (frameN P ++ frameN P) hg 700
    (segsEnd 700 (frameN P ++ frameN P))
  have hb := bitLoop_frame P hP (frameN P) (frameN_good P) 700 0 X
  rw [if_neg (by simp [frameN])] at hb
  have hlen : (frameN P ++ frameN P).length = 16 * P.length + 4 := by
    simp [frameN_length]; omega
  have htr : tr = ⟨0 :: (segsT 700 (frameN P ++ frameN P) ++
      [segsEnd 700 (frameN P ++ frameN P)]), 0 :: segsS (frameN P ++ frameN P),
      1 + (segsS (frameN P ++ frameN P)).length⟩ := by
    have := Option.some.inj hspec
    rw [this, h1, h2, h3]
  have hj : 2 * (frameN P ++ frameN P).length = 8 + 32 * P.length := by rw [hlen]; omega
  rw [← hst, hj] at hb
  rw [hj] at hc
  have hfl := bitLoop_first_long st2 (8 + 32 * P.length - 1 - 3) 3 0 0 0 [] (4 + 16 * P.length)
    (by rw [hb])
  refine ⟨tr, 8 + 32 * P.length, st2, s2, hgen, ?_, rfl, hb,
    hfl.1, hfl.2, ?_, ?_, ?_⟩
  · rw [htr]
    exact hc
  · push_cast
    constructor <;> omega
  · intro fuel
    have hcount : 8 + 32 * P.length - (4 + 16 * P.length) + 1 = 1 + 2 * (frameN P).length := by
      rw [frameN_length]; omega
    rw [hst, hs, drop_frame2, drop_frame2S, hcount, decode_env_frame P hP]
  · rw [hdec]
    rfl

theorem generateRawBytes_size (bytes : List Nat) :
    ∃ tr, generateRawBytes bytes = some tr ∧
      tr.sampleCount = 577 + 512 * bytes.length ∧
      tr.sampleTime.length = tr.sampleCount + 1 ∧ tr.sample.length = tr.sampleCount := by
  refine ⟨_, generateRawBytes_spec bytes, ?_, ?_, ?_⟩
  · simp only [segsS_alt, alt_length, cycles_append, cycles_frameSegs]
    omega
  · simp only [List.length_cons, List.length_append, List.length_nil, segsT_length,
      segsS_alt, alt_length, cycles_append, cycles_frameSegs]
    omega
  · simp only [List.length_cons, segsS_alt, alt_length, cycles_append, cycles_frameSegs]
    omega

theorem sampleGuessCount_enough (L : Nat) :
    ((577 + 512 * L : Nat) : Int) + 1 ≤ sampleGuessCount L ↔ 10 ≤ L := by
  simp only [sampleGuessCount, bitHLength, oneBitLLength, hTime, lTime]
  push_cast
  omega

/-- C18 (allocation estimate), how the code departs from it: for the hex text
`DEADBEEF1234` of the usage message (6 bytes) `generateRaw` returns `sampleCount = 3649`
and has written the 3650 cells `sampleTime[0..3649]`, while the allocation estimate
`sampleGuessCount 6` is 3444; in general the trace of `L` bytes has
`sampleCount = 577 + 512·L`, `sampleCount + 1` cells of `sampleTime` and `sampleCount`
cells of `sample` are written, and the estimate covers them exactly when `L ≥ 10`. -/
theorem estimate_too_small :
    (∃ tr, generateRaw "DEADBEEF1234".toList = some tr ∧ tr.sampleCount = 3649 ∧
        tr.sampleTime.length = 3650 ∧ tr.sample.length = 3649 ∧ sampleGuessCount 6 = 3444 ∧
        ¬ ((tr.sampleCount : Int) + 1 ≤ sampleGuessCount 6)) ∧
    (∀ bytes : List Nat, ∃ tr, generateRawBytes bytes = some tr ∧
        tr.sampleCount = 577 + 512 * bytes.length ∧
        tr.sampleTime.length = tr.sampleCount + 1 ∧ tr.sample.length = tr.sampleCount ∧
        ((tr.sampleCount : Int) + 1 ≤ sampleGuessCount bytes.length ↔ 10 ≤ bytes.length)) := by
  constructor
  · obtain ⟨tr, h1, h2, h3, h4⟩ := generateRawBytes_size [222, 173, 190, 239, 18, 52]
    have hb : getByteFromHex "DEADBEEF1234".toList = some [222, 173, 190, 239, 18, 52] := by
      decide
    refine ⟨tr, by rw [generateRaw, hb]; exact h1, h2, by rw [h3, h2]; rfl, by rw [h4, h2]; rfl,
      by decide, ?_⟩
    rw [h2]
    decide
  · intro bytes
    obtain ⟨tr, h1, h2, h3, h4⟩ := generateRawBytes_size bytes
    refine ⟨tr, h1, h2, h3, h4, ?_⟩
    rw [h2]
    exact sampleGuessCount_enough bytes.length

theorem cyc_shift (h l d : Int) (n : Nat) : ∀ t : Int,
    cyc h l (t + d) n = (cyc h l t n).map (· + d) := by
  induction n with
  | zero => intro t; rfl
  | succ n ih =>
    intro t
    simp only [cyc, List.map_cons]
    rw [show t + d + (h + l) = t + (h + l) + d by ring, ih]
    rw [show t + d + h = t + h + d by ring]

theorem segsT_shift (d : Int) (segs : List (Nat × Int)) : ∀ t : Int,
    segsT (t + d) segs = (segsT t segs).map (· + d) := by
  induction segs with
  | nil => intro t; rfl
  | cons x r ih =>
    intro t
    obtain ⟨n, g⟩ := x
    simp only [segsT, List.map_append]
    rw [cyc_shift, show t + d + (n : Int) * 26 + g = t + (n : Int) * 26 + g + d by ring, ih]

theorem segsEnd_shift (d : Int) (segs : List (Nat × Int)) : ∀ t : Int,
    segsEnd (t + d) segs = segsEnd t segs + d := by
  induction segs with
  | nil => intro t; rfl
  | cons x r ih =>
    intro t
    obtain ⟨n, g⟩ := x
    simp only [segsEnd]
    rw [show t + d + (n : Int) * 26 + g = t + (n : Int) * 26 + g + d by ring, ih]

theorem bitSeg_eq (b k : Nat) : bitSeg b k = (16, bitDuration b k - 416) := by
  have e : (b >>> k) &&& 1 = b / 2 ^ k % 2 := by
    rw [Nat.shiftRight_eq_div_pow, Nat.and_one_is_mod]
  simp only [bitSeg, bitDuration, e, oneBitLLength, zeroBitLLength]
  have h2 : b / 2 ^ k % 2 < 2 := Nat.mod_lt _ (by decide)
  by_cases h : b / 2 ^ k % 2 = 1
  · rw [if_pos (by omega), if_pos h]
    rfl
  · rw [if_neg (by omega), if_neg h]
    rfl

theorem segsEnd_bitSegs (b : Nat) (t : Int) :
    segsEnd t (bitSegs b 8 0) = t + ((List.range 8).map (bitDuration b)).sum := by
  have e : List.range 8 = [0, 1, 2, 3, 4, 5, 6, 7] := by decide
  have e2 : bitSegs b 8 0 = [bitSeg b 0, bitSeg b 1, bitSeg b 2, bitSeg b 3, bitSeg b 4,
      bitSeg b 5, bitSeg b 6, bitSeg b 7] := rfl
  rw [e2]
  simp only [bitSeg_eq]
  simp only [segsEnd, e, List.map_cons, List.map_nil, List.sum_cons, List.sum_nil]
  push_cast
  ring

theorem segsEnd_byteSegs (P : List Nat) : ∀ t : Int,
    segsEnd t (byteSegs P) = t + bitsDuration P := by
  induction P with
  | nil => intro t; simp [byteSegs, segsEnd, bitsDuration]
  | cons b rest ih =>
    intro t
    rw [byteSegs, segsEnd_append, segsEnd_bitSegs, ih]
    simp only [bitsDuration, List.map_cons, List.sum_cons]
    ring

theorem segsEnd_frameSegs (P : List Nat) (t : Int) :
    segsEnd t (frameSegs P) = t + (3328 + 1688 + bitsDuration P + 416 + 11354) := by
  have e : frameSegs P = [(128, initPulseLLength)] ++ (byteSegs P ++ [(16, 0), (0, repeatePause)]) :=
    rfl
  rw [e, segsEnd_append, segsEnd_append, segsEnd_byteSegs]
  simp only [segsEnd, initPulseLLength, repeatePause]
  push_cast
  ring

theorem segsS_frameSegs_length (P : List Nat) :
    (segsS (frameSegs P)).length = 288 + 256 * P.length := by
  rw [segsS_alt, alt_length, cycles_frameSegs]
  omega

/-- Two identical half-frames in the cells written for `L` bytes: the trace has
`1 + 2·S` samples with `S = 288 + 256·L` (the arrays hold `1 + 2·S` levels
and `2 + 2·S` times), and for every index `i` with `1 ≤ i ≤ S` the level at `i + S` is the level
at `i` and the time at `i + S` is the time at `i` plus the constant
`D = 3328 + 1688 + (sum over the payload bits of 416 + 1268 for a 1 and 416 + 430 for a 0)
+ 416 + 11354`. -/
theorem half_frames_cells (bytes : List Nat) :
    ∃ tr, generateRawBytes bytes = some tr ∧
      tr.sampleCount = 1 + 2 * (288 + 256 * bytes.length) ∧
      tr.sample.length = 1 + 2 * (288 + 256 * bytes.length) ∧
      tr.sampleTime.length = 2 + 2 * (288 + 256 * bytes.length) ∧
      ∀ i, 1 ≤ i → i ≤ 288 + 256 * bytes.length →
        tr.sample.getD (i + (288 + 256 * bytes.length)) 0 = tr.sample.getD i 0 ∧
        tr.sampleTime.getD (i + (288 + 256 * bytes.length)) 0 - tr.sampleTime.getD i 0 =
          3328 + 1688 + bitsDuration bytes + 416 + 11354 := by
  have hS := segsS_frameSegs_length bytes
  have hT : (segsT 700 (frameSegs bytes)).length = 288 + 256 * bytes.length := by
    rw [segsT_length, hS]
  refine ⟨_, generateRawBytes_spec bytes, ?_, ?_, ?_, ?_⟩
  · simp only [segsS_append, List.length_append, hS]
    omega
  · simp only [List.length_cons, segsS_append, List.length_append, hS]
    omega
  · simp only [List.length_cons, List.length_append, List.length_nil, segsT_length,
      segsS_append, hS]
    omega
  · intro i h1 h2
    obtain ⟨k, rfl⟩ : ∃ k, i = k + 1 := ⟨i - 1, by omega⟩
    have hk : k < 288 + 256 * bytes.length := by omega
    simp only [segsS_append, segsT_append, List.append_assoc]
    rw [show k + 1 + (288 + 256 * bytes.length) = (k + (288 + 256 * bytes.length)) + 1 by omega]
    simp only [List.getD_cons_succ]
    constructor
    · rw [List.getD_append_right _ _ _ _ (by rw [hS]; omega), hS, Nat.add_sub_cancel,
        List.getD_append _ _ _ _ (by rw [hS]; exact hk)]
    · rw [List.getD_append_right _ _ _ _ (by rw [hT]; omega), hT, Nat.add_sub_cancel,
        List.getD_append _ _ _ _ (by rw [segsT_length, hS]; exact hk),
        List.getD_append _ _ _ _ (by rw [hT]; exact hk)]
      have e : segsEnd 700 (frameSegs bytes) =
          700 + (3328 + 1688 + bitsDuration bytes + 416 + 11354) := segsEnd_frameSegs bytes 700
      rw [e, segsT_shift]
      rw [List.getD_eq_getElem _ _ (by rw [List.length_map, hT]; exact hk),
        List.getD_eq_getElem _ _ (by rw [hT]; exact hk), List.getElem_map]
      ring

theorem segsT_drop (segs : List (Nat × Int)) (n : Nat) (t : Int) (X : List Int) :
    (segsT t segs ++ X).drop (2 * cycles (segs.take n)) =
      segsT (segsEnd t (segs.take n)) (segs.drop n) ++ X := by
  have hl : (segsT t (segs.take n)).length = 2 * cycles (segs.take n) := by
    rw [segsT_length, segsS_alt, alt_length]
  have e : segsT t segs ++ X =
      segsT t (segs.take n) ++ (segsT (segsEnd t (segs.take n)) (segs.drop n) ++ X) := by
    rw [← List.append_assoc, ← segsT_append, List.take_append_drop]
  rw [e, ← hl, List.drop_left]

theorem cycles_take_16 (l : List (Nat × Int)) : ∀ n, (∀ x ∈ l, x.1 = 16) → n ≤ l.length →
    cycles (l.take n) = 16 * n := by
  induction l with
  | nil =>
    intro n _ hn
    have : n = 0 := by simpa using hn
    subst this
    rfl
  | cons x r ih =>
    intro n h hn
    cases n with
    | zero => rfl
    | succ n =>
      obtain ⟨c, g⟩ := x
      have hc : c = 16 := h (c, g) (List.mem_cons_self _ _)
      rw [List.take_succ_cons, cycles, ih n (fun y hy => h y (List.mem_cons_of_mem _ hy))
        (by simpa using hn), hc]
      omega

theorem bitSegs_fst (b : Nat) : ∀ n k, ∀ x ∈ bitSegs b n k, x.1 = 16 := by
  intro n
  induction n with
  | zero => intro k x hx; simp [bitSegs] at hx
  | succ n ih =>
    intro k x hx
    rw [bitSegs, List.mem_cons] at hx
    rcases hx with rfl | hx
    · rfl
    · exact ih _ x hx

theorem byteSegs_fst (P : List Nat) : ∀ x ∈ byteSegs P, x.1 = 16 := by
  induction P with
  | nil => intro x hx; simp [byteSegs] at hx
  | cons b rest ih =>
    intro x hx
    rw [byteSegs, List.mem_append] at hx
    rcases hx with hx | hx
    · exact bitSegs_fst b 8 0 x hx
    · exact ih x hx

theorem byteSegs_get (P : List Nat) : ∀ n, n < 8 * P.length →
    (byteSegs P)[n]? = some (bitSeg (P.getD (n / 8) 0) (n % 8)) := by
  induction P with
  | nil => intro n hn; simp at hn
  | cons b rest ih =>
    intro n hn
    have e2 : bitSegs b 8 0 = [bitSeg b 0, bitSeg b 1, bitSeg b 2, bitSeg b 3, bitSeg b 4,
        bitSeg b 5, bitSeg b 6, bitSeg b 7] := rfl
    rw [byteSegs, e2]
    by_cases h8 : n < 8
    · interval_cases n <;> simp
    · have hlen : ([bitSeg b 0, bitSeg b 1, bitSeg b 2, bitSeg b 3, bitSeg b 4,
          bitSeg b 5, bitSeg b 6, bitSeg b 7] : List (Nat × Int)).length = 8 := rfl
      rw [List.getElem?_append_right (by rw [hlen]; omega), hlen,
        ih (n - 8) (by simp only [List.length_cons] at hn; omega)]
      have d1 : n / 8 = (n - 8) / 8 + 1 := by omega
      have d2 : n % 8 = (n - 8) % 8 := by omega
      rw [d1, d2, List.getD_cons_succ]

theorem segsEnd_take_succ (segs : List (Nat × Int)) (n c : Nat) (g : Int)
    (h : segs[n]? = some (c, g)) (t : Int) :
    segsEnd t (segs.take (n + 1)) = segsEnd t (segs.take n) + c * 26 + g := by
  rw [List.take_succ, h, segsEnd_append]
  rfl

theorem cyc_getD (h l : Int) (c : Nat) : ∀ (t : Int) (X : List Int) (m : Nat), m < c →
    (cyc h l t c ++ X).getD (2 * m) 0 = t + m * (h + l) ∧
    (cyc h l t c ++ X).getD (2 * m + 1) 0 = t + m * (h + l) + h := by
  induction c with
  | zero => intro t X m hm; omega
  | succ c ih =>
    intro t X m hm
    cases m with
    | zero =>
      simp only [cyc, List.cons_append]
      constructor
      · show t = t + ((0 : Nat) : Int) * (h + l)
        simp
      · show t + h = t + ((0 : Nat) : Int) * (h + l) + h
        simp
    | succ m =>
      obtain ⟨a, b⟩ := ih (t + (h + l)) X m (by omega)
      simp only [cyc, List.cons_append]
      rw [show 2 * (m + 1) = 2 * m + 1 + 1 by omega, List.getD_cons_succ, List.getD_cons_succ,
        List.getD_cons_succ, List.getD_cons_succ, a, b]
      push_cast
      constructor <;> ring

theorem alt_getD (k : Nat) : ∀ m, m < k →
    (alt k).getD (2 * m) 0 = 1 ∧ (alt k).getD (2 * m + 1) 0 = 0 := by
  induction k with
  | zero => intro m hm; omega
  | succ k ih =>
    intro m hm
    cases m with
    | zero => exact ⟨rfl, rfl⟩
    | succ m =>
      obtain ⟨a, b⟩ := ih m (by omega)
      simp only [alt]
      rw [show 2 * (m + 1) = 2 * m + 1 + 1 by omega, List.getD_cons_succ, List.getD_cons_succ,
        List.getD_cons_succ, List.getD_cons_succ]
      exact ⟨a, b⟩

theorem drop_of_get {α : Type} (l : List α) (n : Nat) (x : α) (h : l[n]? = some x) :
    l.drop n = x :: l.drop (n + 1) := by
  have hn : n < l.length := by
    by_contra hc
    rw [List.getElem?_eq_none (by omega)] at h
    exact Option.noConfusion h
  rw [List.getElem?_eq_getElem hn] at h
  rw [List.drop_eq_getElem_cons hn, Option.some.inj h]

theorem getD_cons_drop (T L : List Int) (x : Int) (i k : Nat) (h : T.drop i = L) :
    (x :: T).getD (i + k + 1) 0 = L.getD k 0 := by
  rw [List.getD_cons_succ]
  exact getD_of_drop T L i k h

theorem segsT_cons (t : Int) (n : Nat) (g : Int) (r : List (Nat × Int)) :
    segsT t ((n, g) :: r) = cyc 15 11 t n ++ segsT (t + n * 26 + g) r := rfl

theorem burst_drop (bytes : List Nat) (n : Nat) (hn : n < 8 * bytes.length) (X : List Int) :
    ∃ Z, (segsT 700 ((128, initPulseLLength) :: (byteSegs bytes ++ [(16, 0)])) ++ X).drop
        (2 * (128 + 16 * n)) =
      cyc 15 11 (segsEnd 700 ((128, initPulseLLength) ::
          (byteSegs bytes ++ [(16, 0)]).take n)) 16 ++
        (cyc 15 11 (segsEnd 700 ((128, initPulseLLength) ::
            (byteSegs bytes ++ [(16, 0)]).take n) +
          bitDuration (bytes.getD (n / 8) 0) (n % 8)) 16 ++ Z) := by
  have h16 : ∀ x ∈ byteSegs bytes ++ [(16, (0 : Int))], x.1 = 16 := by
    intro x hx
    rw [List.mem_append] at hx
    rcases hx with hx | hx
    · exact byteSegs_fst bytes x hx
    · rw [List.mem_singleton] at hx
      rw [hx]
  have hlen : (byteSegs bytes ++ [(16, (0 : Int))]).length = 8 * bytes.length + 1 := by
    rw [List.length_append, byteSegs_length]
    rfl
  have hget : (byteSegs bytes ++ [(16, (0 : Int))])[n]? =
      some (16, bitDuration (bytes.getD (n / 8) 0) (n % 8) - 416) := by
    rw [List.getElem?_append_left (by rw [byteSegs_length]; exact hn), byteSegs_get bytes n hn,
      bitSeg_eq]
  obtain ⟨x, hx⟩ : ∃ x, (byteSegs bytes ++ [(16, (0 : Int))])[n + 1]? = some x :=
    ⟨_, List.getElem?_eq_getElem (by rw [hlen]; omega)⟩
  have hx16 : x.1 = 16 := h16 x (List.mem_iff_getElem?.2 ⟨_, hx⟩)
  obtain ⟨c, g⟩ := x
  simp only at hx16
  subst hx16
  have hdrop := segsT_drop ((128, initPulseLLength) :: (byteSegs bytes ++ [(16, 0)])) (n + 1)
    700 X
  rw [List.take_succ_cons, List.drop_succ_cons, cycles,
    cycles_take_16 _ n h16 (by rw [hlen]; omega), drop_of_get _ n _ hget,
    drop_of_get _ (n + 1) _ hx, segsT_cons _ 16, segsT_cons _ 16, List.append_assoc,
    List.append_assoc] at hdrop
  have e : ∀ T0 d : Int, T0 + ((16 : Nat) : Int) * 26 + (d - 416) = T0 + d := by
    intro T0 d
    push_cast
    ring
  rw [e] at hdrop
  exact ⟨_, hdrop⟩

/-- Bit bursts in the cells written for the bytes `bytes`: for every bit number
`n < 8·L` the samples `257 + 32·n .. 257 + 32·n + 31` are the
16 cycles of one burst (levels 1, 0, times 26 µs per cycle with the fall 15 µs after the
rise), preceded by a level-0 sample; the first burst starts at time `700 + 3328 + 1688`;
and the next burst starts at index `257 + 32·(n + 1)`, `416 + 1268` µs after the start of
burst `n` when bit `n mod 8` (counted from the least significant bit) of byte `n div 8` is 1
and `416 + 430` µs after it when that bit is 0. -/
theorem bit_burst_cells (bytes : List Nat) (n : Nat) (hn : n < 8 * bytes.length) :
    ∃ tr, generateRawBytes bytes = some tr ∧
      257 + 32 * (n + 1) < tr.sampleCount ∧
      tr.sample.getD (256 + 32 * n) 0 = 0 ∧
      (∀ m, m < 16 →
        tr.sample.getD (257 + 32 * n + 2 * m) 0 = 1 ∧
        tr.sample.getD (257 + 32 * n + 2 * m + 1) 0 = 0 ∧
        tr.sampleTime.getD (257 + 32 * n + 2 * m) 0 =
          tr.sampleTime.getD (257 + 32 * n) 0 + 26 * m ∧
        tr.sampleTime.getD (257 + 32 * n + 2 * m + 1) 0 =
          tr.sampleTime.getD (257 + 32 * n) 0 + 26 * m + 15) ∧
      (n = 0 → tr.sampleTime.getD 257 0 = 700 + 3328 + 1688) ∧
      tr.sampleTime.getD (257 + 32 * (n + 1)) 0 - tr.sampleTime.getD (257 + 32 * n) 0 =
        (if bytes.getD (n / 8) 0 / 2 ^ (n % 8) % 2 = 1 then 416 + 1268 else 416 + 430) := by
  have hFF : frameSegs bytes ++ frameSegs bytes =
      ((128, initPulseLLength) :: (byteSegs bytes ++ [(16, 0)])) ++
        ((0, repeatePause) :: frameSegs bytes) := by
    simp [frameSegs]
  have hcy : cycles (frameSegs bytes ++ frameSegs bytes) = 288 + 256 * bytes.length := by
    rw [cycles_append, cycles_frameSegs]
    omega
  have hTl : ∀ e : Int, segsT 700 (frameSegs bytes ++ frameSegs bytes) ++ [e] =
      segsT 700 ((128, initPulseLLength) :: (byteSegs bytes ++ [(16, 0)])) ++
        (segsT (segsEnd 700 ((128, initPulseLLength) :: (byteSegs bytes ++ [(16, 0)])))
          ((0, repeatePause) :: frameSegs bytes) ++ [e]) := by
    intro e
    rw [hFF, segsT_append, List.append_assoc]
  obtain ⟨T0, hT0⟩ : ∃ T0, T0 = segsEnd 700 ((128, initPulseLLength) ::
      (byteSegs bytes ++ [(16, 0)]).take n) := ⟨_, rfl⟩
  obtain ⟨Z, hdrop⟩ := burst_drop bytes n hn
    (segsT (segsEnd 700 ((128, initPulseLLength) :: (byteSegs bytes ++ [(16, 0)])))
      ((0, repeatePause) :: frameSegs bytes) ++
      [segsEnd 700 (frameSegs bytes ++ frameSegs bytes)])
  rw [← hT0] at hdrop
  have hst : ∀ k, (0 :: (segsT 700 (frameSegs bytes ++ frameSegs bytes) ++
      [segsEnd 700 (frameSegs bytes ++ frameSegs bytes)])).getD (257 + 32 * n + k) 0 =
      (cyc 15 11 T0 16 ++ (cyc 15 11 (T0 + bitDuration (bytes.getD (n / 8) 0) (n % 8)) 16 ++
        Z)).getD k 0 := by
    intro k
    have ek : 257 + 32 * n + k = (2 * (128 + 16 * n) + k) + 1 := by omega
    rw [ek]
    apply getD_cons_drop
    rw [hTl, hdrop]
  have hs : ∀ k, (0 :: segsS (frameSegs bytes ++ frameSegs bytes)).getD (k + 1) 0 =
      (alt (288 + 256 * bytes.length)).getD k 0 := by
    intro k
    rw [List.getD_cons_succ, segsS_alt, hcy]
  have h0 := hst 0
  rw [Nat.add_zero, show (0 : Nat) = 2 * 0 by rfl, (cyc_getD 15 11 16 _ _ 0 (by omega)).1] at h0
  refine ⟨_, generateRawBytes_spec bytes, ?_, ?_, ?_, ?_, ?_⟩
  · show 257 + 32 * (n + 1) < 1 + (segsS (frameSegs bytes ++ frameSegs bytes)).length
    rw [segsS_alt, alt_length, hcy]
    omega
  · show (0 :: segsS (frameSegs bytes ++ frameSegs bytes)).getD (256 + 32 * n) 0 = 0
    rw [show 256 + 32 * n = (2 * (127 + 16 * n) + 1) + 1 by omega, hs]
    exact (alt_getD _ _ (by omega)).2
  · intro m hm
    refine ⟨?_, ?_, ?_, ?_⟩
    · show (0 :: segsS (frameSegs bytes ++ frameSegs bytes)).getD (257 + 32 * n + 2 * m) 0 = 1
      rw [show 257 + 32 * n + 2 * m = 2 * (128 + 16 * n + m) + 1 by omega, hs]
      exact (alt_getD _ _ (by omega)).1
    · show (0 :: segsS (frameSegs bytes ++ frameSegs bytes)).getD
        (257 + 32 * n + 2 * m + 1) 0 = 0
      rw [show 257 + 32 * n + 2 * m + 1 = (2 * (128 + 16 * n + m) + 1) + 1 by omega, hs]
      exact (alt_getD _ _ (by omega)).2
    · show (0 :: (segsT 700 (frameSegs bytes ++ frameSegs bytes) ++
        [segsEnd 700 (frameSegs bytes ++ frameSegs bytes)])).getD (257 + 32 * n + 2 * m) 0 =
        (0 :: (segsT 700 (frameSegs bytes ++ frameSegs bytes) ++
          [segsEnd 700 (frameSegs bytes ++ frameSegs bytes)])).getD (257 + 32 * n) 0 + 26 * m
      rw [hst, h0, (cyc_getD 15 11 16 _ _ m hm).1]
      push_cast
      ring
    · show (0 :: (segsT 700 (frameSegs bytes ++ frameSegs bytes) ++
        [segsEnd 700 (frameSegs bytes ++ frameSegs bytes)])).getD
          (257 + 32 * n + (2 * m + 1)) 0 =
        (0 :: (segsT 700 (frameSegs bytes ++ frameSegs bytes) ++
          [segsEnd 700 (frameSegs bytes ++ frameSegs bytes)])).getD (257 + 32 * n) 0 + 26 * m
            + 15
      rw [hst, h0, (cyc_getD 15 11 16 _ _ m hm).2]
      push_cast
      ring
  · intro hn0
    subst hn0
    show (0 :: (segsT 700 (frameSegs bytes ++ frameSegs bytes) ++
        [segsEnd 700 (frameSegs bytes ++ frameSegs bytes)])).getD (257 + 32 * 0) 0 = _
    rw [h0, hT0]
    simp [segsEnd, initPulseLLength]
  · show (0 :: (segsT 700 (frameSegs bytes ++ frameSegs bytes) ++
        [segsEnd 700 (frameSegs bytes ++ frameSegs bytes)])).getD (257 + 32 * n + 32) 0 -
      (0 :: (segsT 700 (frameSegs bytes ++ frameSegs bytes) ++
        [segsEnd 700 (frameSegs bytes ++ frameSegs bytes)])).getD (257 + 32 * n) 0 = _
    rw [hst, h0, List.getD_append_right _ _ _ _ (by rw [cyc_length]), cyc_length,
      show 32 - 2 * 16 = 2 * 0 by rfl, (cyc_getD 15 11 16 _ _ 0 (by omega)).1]
    simp only [bitDuration]
    split <;> push_cast <;> ring

theorem getD_set_int (l : List Int) (i q : Nat) (v : Int) (h : i < l.length) :
    (l.set i v).getD q 0 = if q = i then v else l.getD q 0 := by
  simp only [List.getD_eq_getElem?_getD, List.getElem?_set]
  by_cases hq : q = i
  · subst hq
    simp [h]
  · rw [if_neg (fun e => hq e.symm), if_neg hq]

theorem trimLoop_spec (samples : List Int) (N : Nat) : ∀ l,
    trimLoop samples N l ≤ l ∧
    (∀ i, trimLoop samples N l ≤ i → i < l → samples.getD i 0 = samples.getD (N - 1) 0) ∧
    (trimLoop samples N l = 0 ∨
      samples.getD (trimLoop samples N l - 1) 0 ≠ samples.getD (N - 1) 0) := by
  intro l
  induction l with
  | zero => exact ⟨le_refl _, fun i _ h => by omega, Or.inl rfl⟩
  | succ l ih =>
    obtain ⟨a, b, c⟩ := ih
    simp only [trimLoop]
    by_cases h : samples.getD l 0 = samples.getD (N - 1) 0
    · rw [if_pos h]
      refine ⟨by omega, fun i h1 h2 => ?_, c⟩
      by_cases hi : i = l
      · rw [hi]
        exact h
      · exact b i h1 (by omega)
    · rw [if_neg h]
      exact ⟨le_refl _, fun i h1 h2 => by omega, Or.inr h⟩

theorem wrap32_eq (x : Int) (h1 : -2147483648 ≤ x) (h2 : x < 2147483648) : wrap32 x = x := by
  unfold wrap32
  omega

theorem machine_loop_eq (h l limit : Int) (base : Nat) (hh : 0 ≤ h) (hl : 0 ≤ l)
    (hhl : h + l < 2147483648) (hlim : limit + h + l < 2147483648) :
    ∀ (fuel : Nat) (t : Int) (pos : Nat) (A S : List Int),
      -2147483648 ≤ t → t ≤ limit →
      Machine.addSampleLoop h l limit base fuel t pos A S =
        addSampleLoop h l limit base fuel t pos A S := by
  intro fuel
  induction fuel with
  | zero =>
    intro t pos A S h1 h2
    have e1 : wrap32 (t + h) = t + h := wrap32_eq _ (by omega) (by omega)
    have e2 : wrap32 (t + h + l) = t + h + l := wrap32_eq _ (by omega) (by omega)
    simp only [Machine.addSampleLoop, addSampleLoop, e1, e2]
  | succ fuel ih =>
    intro t pos A S h1 h2
    have e1 : wrap32 (t + h) = t + h := wrap32_eq _ (by omega) (by omega)
    have e2 : wrap32 (t + h + l) = t + h + l := wrap32_eq _ (by omega) (by omega)
    have e3 : wrap32 (h + l) = h + l := wrap32_eq _ (by omega) (by omega)
    simp only [Machine.addSampleLoop, addSampleLoop, e1, e2, e3]
    by_cases hc : t + h + l ≤ limit
    · have e4 : wrap32 (t + (h + l)) = t + (h + l) := wrap32_eq _ (by omega) (by omega)
      rw [if_pos hc, if_pos hc, e4]
      exact ih _ _ _ _ (by omega) (by omega)
    · rw [if_neg hc, if_neg hc]

/-- On `int`s that do not overflow the 32-bit `addSample` does what `addSample` over the
integers does with as many iterations allowed. -/
theorem machine_addSample_spec (h l pH pL : Int) (hh : 0 ≤ h) (hl : 0 ≤ l) (hpos : 0 < h + l)
    (hhl : h + l < 2147483648) (hpH : 0 ≤ pH) (A S : List Int) (t : Int) (base : Nat) (hA : A.length = base)
    (hS : S.length = base) (ht : -2147483648 ≤ t) (hpL : -2147483648 ≤ t + pL)
    (hmax : t + pH + h + l < 2147483648) (hmaxL : t + pH + pL < 2147483648) :
    Machine.addSample (A ++ [t]) S base h l pH pL =
      some (2 * (pH / (h + l)).toNat, A ++ cyc h l t (pH / (h + l)).toNat ++
        [t + (pH / (h + l)).toNat * (h + l) + pL], S ++ alt (pH / (h + l)).toNat) := by
  have hq : 0 ≤ pH / (h + l) := Int.ediv_nonneg hpH hpos.le
  have hk : (((pH / (h + l)).toNat : Nat) : Int) = pH / (h + l) := Int.toNat_of_nonneg hq
  have h1 : pH / (h + l) * (h + l) ≤ pH := Int.ediv_mul_le _ hpos.ne'
  have h2 : pH < (pH / (h + l) + 1) * (h + l) := Int.lt_ediv_add_one_mul_self _ hpos
  have hst : (A ++ [t]).getD base 0 = t := by
    subst hA; simp
  have hfuel : (pH / (h + l)).toNat ≤ 4294967296 := by
    have : pH / (h + l) ≤ pH := Int.ediv_le_self _ hpH
    omega
  have elim : wrap32 (t + pH) = t + pH := wrap32_eq _ (by omega) (by omega)
  unfold Machine.addSample
  simp only [hst, elim]
  rw [machine_loop_eq h l (t + pH) base hh hl hhl (by omega) _ _ _ _ _ ht (by omega),
    addSampleLoop_spec h l (t + pH) base hpos (pH / (h + l)).toNat 4294967296 t 0 A S hfuel
    (by omega) (by omega) (by rw [hk]; linarith) (by rw [hk]; linarith)]
  simp only [Nat.zero_add]
  have efin : wrap32 (t + ((pH / (h + l)).toNat : Int) * (h + l) + pL) =
      t + ((pH / (h + l)).toNat : Int) * (h + l) + pL := by
    apply wrap32_eq
    · rw [hk]; nlinarith
    · rw [hk]; linarith
  rw [efin, store_last _ _ _ _ (by simp [cyc_length]; omega)]

theorem machine_add_spec (A S : List Int) (t pH pL : Int) (hpH : 0 ≤ pH) (hS : S.length = A.length)
    (ht : 0 ≤ t) (hpL : 0 ≤ pL) (h1 : t + pH + 26 < 2147483648)
    (h2 : t + pH + pL < 2147483648) :
    Machine.add (GS A S t) pH pL = some (genSegs [((pH / 26).toNat, pL)] A S t) := by
  unfold Machine.add GS
  simp only
  rw [machine_addSample_spec hTime lTime pH pL (by decide) (by decide) (by decide) (by decide)
    hpH A S t A.length rfl hS (by omega) (by omega)
    (by simp only [hTime, lTime]; omega) h2]
  simp [genSegs, GS, segsT, segsS, segsEnd, cyc_length, hTime, lTime]

theorem segsEnd_bitSeg (b k : Nat) (t : Int) :
    t + 846 ≤ segsEnd t [bitSeg b k] ∧ segsEnd t [bitSeg b k] ≤ t + 1684 := by
  simp only [segsEnd, bitSeg, oneBitLLength, zeroBitLLength]
  split <;> constructor <;> push_cast <;> omega

theorem segsEnd_bitSegs_bound (b : Nat) : ∀ (n k : Nat) (t : Int),
    t ≤ segsEnd t (bitSegs b n k) ∧ segsEnd t (bitSegs b n k) ≤ t + 1684 * n := by
  intro n
  induction n with
  | zero => intro k t; simp [bitSegs, segsEnd]
  | succ n ih =>
    intro k t
    have e : bitSegs b (n + 1) k = [bitSeg b k] ++ bitSegs b n (k + 1) := rfl
    obtain ⟨a1, a2⟩ := segsEnd_bitSeg b k t
    obtain ⟨b1, b2⟩ := ih (k + 1) (segsEnd t [bitSeg b k])
    rw [e, segsEnd_append]
    push_cast
    constructor <;> omega

theorem segsEnd_byteSegs_bound (P : List Nat) : ∀ t : Int,
    t ≤ segsEnd t (byteSegs P) ∧ segsEnd t (byteSegs P) ≤ t + 13472 * P.length := by
  induction P with
  | nil => intro t; simp [byteSegs, segsEnd]
  | cons b rest ih =>
    intro t
    obtain ⟨a1, a2⟩ := segsEnd_bitSegs_bound b 8 0 t
    obtain ⟨b1, b2⟩ := ih (segsEnd t (bitSegs b 8 0))
    rw [byteSegs, segsEnd_append]
    simp only [List.length_cons]
    push_cast at a2 ⊢
    constructor <;> omega

theorem machine_genBits_spec (b : Nat) (n : Nat) : ∀ (k : Nat) (A S : List Int) (t : Int),
    S.length = A.length → 0 ≤ t → t + 1696 * n < 2147483648 →
    Machine.genBits b n k (GS A S t) = some (genSegs (bitSegs b n k) A S t) := by
  induction n with
  | zero => intro k A S t _ _ _; simp [Machine.genBits, genSegs, bitSegs, segsT, segsS, segsEnd]
  | succ n ih =>
    intro k A S t hS ht hb
    have e : bitSegs b (n + 1) k = [bitSeg b k] ++ bitSegs b n (k + 1) := rfl
    obtain ⟨a1, a2⟩ := segsEnd_bitSeg b k t
    push_cast at hb
    rw [e, genSegs_append, ← ih _ _ _ _ (genSegs_length _ A S t hS) (by omega) (by omega)]
    simp only [Machine.genBits]
    rw [machine_add_spec A S t _ _ (by decide) hS ht
      (by split <;> decide) (by simp only [bitHLength]; omega)
      (by simp only [bitHLength, oneBitLLength, zeroBitLLength]; split <;> omega)]
    rfl

theorem machine_genBytes_spec (bytes : List Nat) : ∀ (A S : List Int) (t : Int),
    S.length = A.length → 0 ≤ t → t + 13568 * bytes.length < 2147483648 →
    Machine.genBytes bytes (GS A S t) = some (genSegs (byteSegs bytes) A S t) := by
  induction bytes with
  | nil => intro A S t _ _ _; simp [Machine.genBytes, genSegs, byteSegs, segsT, segsS, segsEnd]
  | cons b rest ih =>
    intro A S t hS ht hb
    obtain ⟨a1, a2⟩ := segsEnd_bitSegs_bound b 8 0 t
    simp only [List.length_cons] at hb
    push_cast at hb a2
    simp only [byteSegs]
    rw [genSegs_append, ← ih _ _ _ (genSegs_length _ A S t hS) (by omega) (by omega)]
    simp only [Machine.genBytes]
    rw [machine_genBits_spec b 8 0 A S t hS ht (by omega)]
    rfl

theorem machine_genFrame_spec (bytes : List Nat) (A S : List Int) (t : Int)
    (hS : S.length = A.length) (ht : 0 ≤ t)
    (hb : t + 13568 * bytes.length + 16812 < 2147483648) :
    Machine.genFrame bytes (GS A S t) = some (genSegs (frameSegs bytes) A S t) := by
  have e : frameSegs bytes =
      [(128, initPulseLLength)] ++ (byteSegs bytes ++ ([(16, 0)] ++ [(0, repeatePause)])) := rfl
  have l1 := genSegs_length [(128, initPulseLLength)] A S t hS
  have l2 := genSegs_length (byteSegs bytes) _ _ (segsEnd t [(128, initPulseLLength)]) l1
  have l3 := genSegs_length [(16, 0)] _ _
    (segsEnd (segsEnd t [(128, initPulseLLength)]) (byteSegs bytes)) l2
  have t1 : segsEnd t [(128, initPulseLLength)] = t + 5016 := by
    simp [segsEnd, initPulseLLength]; ring
  obtain ⟨b1, b2⟩ := segsEnd_byteSegs_bound bytes (t + 5016)
  have t3 : ∀ u : Int, segsEnd u [(16, 0)] = u + 416 := by
    intro u
    simp [segsEnd]
  rw [e, genSegs_append, genSegs_append, genSegs_append]
  unfold Machine.genFrame
  rw [machine_add_spec A S t _ _ (by decide) hS ht (by decide)
    (by simp only [initPulseHLength]; omega)
    (by simp only [initPulseHLength, initPulseLLength]; omega)]
  have e1 : (initPulseHLength / 26).toNat = 128 := by decide
  have e2 : (bitHLength / 26).toNat = 16 := by decide
  have e3 : ((0 : Int) / 26).toNat = 0 := by decide
  rw [e1]
  simp only []
  rw [genSegs, machine_genBytes_spec bytes _ _ _ l1 (by rw [t1]; omega) (by rw [t1]; omega)]
  simp only []
  rw [genSegs, machine_add_spec _ _ _ _ _ (by decide) l2 (by rw [t1]; omega) (by decide)
    (by rw [t1]; simp only [bitHLength]; omega) (by rw [t1]; simp only [bitHLength]; omega), e2]
  simp only []
  rw [genSegs, machine_add_spec _ _ _ _ _ (by decide) l3 (by rw [t3, t1]; omega) (by decide)
    (by rw [t3, t1]; omega) (by rw [t3, t1]; simp only [repeatePause]; omega), e3]

theorem machine_sampleGuessCount_eq (L : Nat) (hL : L ≤ 79000) :
    Machine.sampleGuessCount L = sampleGuessCount L := by
  unfold Machine.sampleGuessCount sampleGuessCount
  have e1 : wrap32 ((L : Int) * 8) = (L : Int) * 8 := wrap32_eq _ (by omega) (by omega)
  have e2 : wrap32 ((bitHLength + oneBitLLength) * ((L : Int) * 8)) =
      (bitHLength + oneBitLLength) * ((L : Int) * 8) := by
    apply wrap32_eq <;> simp only [bitHLength, oneBitLLength] <;> omega
  rw [e1, e2]

theorem segsEnd_frameSegs_bound (P : List Nat) (t : Int) :
    t ≤ segsEnd t (frameSegs P) ∧ segsEnd t (frameSegs P) ≤ t + 13472 * P.length + 16786 := by
  have e : frameSegs P =
      [(128, initPulseLLength)] ++ (byteSegs P ++ [(16, 0), (0, repeatePause)]) := rfl
  obtain ⟨b1, b2⟩ := segsEnd_byteSegs_bound P (segsEnd t [(128, initPulseLLength)])
  rw [e, segsEnd_append, segsEnd_append]
  simp only [segsEnd, initPulseLLength, repeatePause] at b1 b2 ⊢
  push_cast at b1 b2 ⊢
  constructor <;> omega

/-- For a hex text of at most 79000 bytes no `int` of `generateRaw` overflows, and the 32-bit
program with its `malloc`ed buffers returns the trace of the cells written exactly when the
payload has at least 10 bytes; for a shorter payload it writes behind its buffers. -/
theorem machine_generateRaw_eq (hex : List Char) (bytes : List Nat)
    (hB : getByteFromHex hex = some bytes) (hL : bytes.length ≤ 79000) :
    Machine.generateRaw hex = if 10 ≤ bytes.length then generateRawBytes bytes else none := by
  have e0 : (⟨1, store (store [] 0 0) 1 initOffsetTime, store [] 0 0⟩ : GenState) =
      GS [0] [0] 700 := by
    simp [store, GS, initOffsetTime]
  obtain ⟨c1, c2⟩ := segsEnd_frameSegs_bound bytes 700
  have m1 := machine_genFrame_spec bytes [0] [0] 700 rfl (by decide) (by omega)
  have i1 := genFrame_spec bytes [0] [0] 700 rfl
  have m2 := machine_genFrame_spec bytes ([0] ++ segsT 700 (frameSegs bytes))
    ([0] ++ segsS (frameSegs bytes)) (segsEnd 700 (frameSegs bytes))
    (genSegs_length _ _ _ _ rfl) (by omega) (by omega)
  have i2 := genFrame_spec bytes ([0] ++ segsT 700 (frameSegs bytes))
    ([0] ++ segsS (frameSegs bytes)) (segsEnd 700 (frameSegs bytes))
    (genSegs_length _ _ _ _ rfl)
  obtain ⟨tr, htr, hc, hlT, hlS⟩ := generateRawBytes_size bytes
  have hg : generateRawBytes bytes = some
      ⟨(genSegs (frameSegs bytes) ([0] ++ segsT 700 (frameSegs bytes))
          ([0] ++ segsS (frameSegs bytes)) (segsEnd 700 (frameSegs bytes))).sampleTime,
        store (store (genSegs (frameSegs bytes) ([0] ++ segsT 700 (frameSegs bytes))
          ([0] ++ segsS (frameSegs bytes)) (segsEnd 700 (frameSegs bytes))).sample 1 1) 0 0,
        (genSegs (frameSegs bytes) ([0] ++ segsT 700 (frameSegs bytes))
          ([0] ++ segsS (frameSegs bytes)) (segsEnd 700 (frameSegs bytes))).pos⟩ := by
    unfold generateRawBytes
    simp only [e0, i1]
    rw [genSegs, i2]
  rw [hg] at htr
  have htr' := Option.some.inj htr
  unfold Machine.generateRaw
  simp only [hB, e0, m1]
  rw [genSegs, m2]
  simp only []
  rw [hg, machine_sampleGuessCount_eq _ hL]
  have hT : ((genSegs (frameSegs bytes) ([0] ++ segsT 700 (frameSegs bytes))
      ([0] ++ segsS (frameSegs bytes)) (segsEnd 700 (frameSegs bytes))).sampleTime.length : Int) =
      ((577 + 512 * bytes.length : Nat) : Int) + 1 := by
    have := congrArg (fun x => x.sampleTime.length) htr'
    simp only at this
    rw [this, hlT, hc]
    push_cast
    ring
  have hSl : ((store (store (genSegs (frameSegs bytes) ([0] ++ segsT 700 (frameSegs bytes))
      ([0] ++ segsS (frameSegs bytes)) (segsEnd 700 (frameSegs bytes))).sample 1 1) 0 0).length
        : Int) = ((577 + 512 * bytes.length : Nat) : Int) := by
    have := congrArg (fun x => x.sample.length) htr'
    simp only at this
    rw [this, hlS, hc]
  rw [hT, hSl]
  have henough := sampleGuessCount_enough bytes.length
  by_cases h10 : 10 ≤ bytes.length
  · rw [if_pos ⟨henough.2 h10, by have := henough.2 h10; omega⟩, if_pos h10]
  · rw [if_neg (fun h => h10 (henough.1 h.1)), if_neg h10]

theorem machine_generateRaw_cells (hex : List Char) (bytes : List Nat)
    (hB : getByteFromHex hex = some bytes) (h10 : 10 ≤ bytes.length)
    (hmax : bytes.length ≤ 79000) : Machine.generateRaw hex = generateRawBytes bytes := by
  rw [machine_generateRaw_eq hex bytes hB hmax, if_pos h10]

theorem machine_generateRaw_short (hex : List Char) (bytes : List Nat)
    (hB : getByteFromHex hex = some bytes) (h : bytes.length < 10) :
    Machine.generateRaw hex = none := by
  rw [machine_generateRaw_eq hex bytes hB (by omega), if_neg (by omega)]

theorem machine_generateRaw_getHex (P : List Nat) (hP : ∀ b ∈ P, b < 256) (h10 : 10 ≤ P.length)
    (hmax : P.length ≤ 79000) : Machine.generateRaw (getHex P) = generateRawBytes P :=
  machine_generateRaw_cells _ _ (getByteFromHex_getHex P hP) h10 hmax

theorem cells_count (bytes : List Nat) (n : Nat) (hn : n = 578 + 512 * bytes.length) :
    ∃ tr, generateRawBytes bytes = some tr ∧ tr.sampleTime.length = n := by
  obtain ⟨tr, h1, h2, h3, -⟩ := generateRawBytes_size bytes
  exact ⟨tr, h1, by rw [h3, h2, hn]; omega⟩

/-- C1 (payload round-trip), with the payloads for which the program departs from it.  For
every payload `P` of 10 to 79000 bytes whose last byte is the sum modulo 256 of the bytes in
front of it, `generateRaw` (32-bit `int`s, `malloc`ed buffers) on the hex text of `P` returns
a trace, and `decodeRawData` on that trace returns exactly the bytes of `P` with byte count
`|P|`, with `crcOK` set and nothing printed; `wellFormedBytes` is such a payload.  For a
payload of fewer than 10 bytes the program writes behind its buffers: for the well-formed
`23CBEE` the buffers hold `sampleGuessCount 3 = 1721` `int`s while 2114 cells of
`sampleTime` are written, and there is no result. -/
theorem payload_roundtrip :
    (sampleGuessCount 3 = 1721 ∧
      (∃ tr, generateRawBytes [35, 203, 238] = some tr ∧ tr.sampleTime.length = 2114) ∧
      checksumLaw [35, 203, 238] ∧
      Machine.generateRaw (getHex [35, 203, 238]) = none) ∧
    (∀ P : List Nat, 10 ≤ P.length → P.length ≤ 79000 → (∀ b ∈ P, b < 256) →
      P.getLast? = some (P.dropLast.sum % 256) →
      ∃ tr, Machine.generateRaw (getHex P) = some tr ∧
        decodeRawData tr.sampleTime tr.sample tr.sampleCount =
          some ⟨P, P.length, true, some (P, P.length), []⟩) ∧
    (10 ≤ wellFormedBytes.length ∧ wellFormedBytes.length ≤ 79000 ∧
      (∀ b ∈ wellFormedBytes, b < 256) ∧
      wellFormedBytes.getLast? = some (wellFormedBytes.dropLast.sum % 256)) := by
  refine ⟨⟨by decide, cells_count _ _ (by decide), by decide, ?_⟩, ?_,
    by decide, by decide, by decide, by decide⟩
  · exact machine_generateRaw_short _ [35, 203, 238] (by decide) (by decide)
  · intro P h10 hmax hP hck
    obtain ⟨tr, h1, h2⟩ := decode_generate P hP
    refine ⟨tr, by rw [machine_generateRaw_getHex P hP h10 hmax, h1], ?_⟩
    rw [h2]
    simp [decodedTwice, crcLog, foundOf_eq, crcOf_eq, hck]

/-- C3 (checksum break), with the payloads for which the program departs from it.  Let `P`
be a payload of 10 to 79000 bytes whose last byte is the sum modulo 256 of the others, and
`P'` be `P` with bit `k` of the non-checksum byte `i` flipped.  Then `generateRaw` (32-bit
`int`s, `malloc`ed buffers) on the hex text of `P'` returns a trace, and `decodeRawData` on
it still returns exactly the bytes of `P'` (byte count `|P|`), with `crcOK` cleared and the
checksum error printed: the last returned byte differs from the sum modulo 256 of the other
returned bytes; `wellFormedBytes` with `i = 1`, `k = 3` is such a case.  For a payload of
fewer than 10 bytes the program writes behind its buffers: for `23C3EE` (`23CBEE` with bit
3 of byte 1 flipped) the buffers hold 1721 `int`s while 2114 cells of `sampleTime` are
written, and there is no result. -/
theorem checksum_break :
    (checksumLaw [35, 203, 238] ∧
      ([35, 203, 238] : List Nat).set 1 (([35, 203, 238] : List Nat).getD 1 0 ^^^ 2 ^ 3) =
        [35, 195, 238] ∧
      sampleGuessCount 3 = 1721 ∧
      (∃ tr, generateRawBytes [35, 195, 238] = some tr ∧ tr.sampleTime.length = 2114) ∧
      Machine.generateRaw (getHex [35, 195, 238]) = none) ∧
    (∀ (P : List Nat) (i k : Nat), 10 ≤ P.length → P.length ≤ 79000 → (∀ b ∈ P, b < 256) →
      P.getLast? = some (P.dropLast.sum % 256) → i + 1 < P.length → k < 8 →
      ∃ tr d, Machine.generateRaw (getHex (P.set i (P.getD i 0 ^^^ 2 ^ k))) = some tr ∧
        decodeRawData tr.sampleTime tr.sample tr.sampleCount = some d ∧
        d.bytes = P.set i (P.getD i 0 ^^^ 2 ^ k) ∧ d.byteCount = P.length ∧
        d.crcOK = false ∧
        d.bytes.getLast? ≠ some (d.bytes.dropLast.sum % 256) ∧
        Msg.checksumError (d.bytes.dropLast.sum % 256) d.bytes.getLast? ∈ d.log) ∧
    (10 ≤ wellFormedBytes.length ∧ wellFormedBytes.length ≤ 79000 ∧
      (∀ b ∈ wellFormedBytes, b < 256) ∧
      wellFormedBytes.getLast? = some (wellFormedBytes.dropLast.sum % 256) ∧
      1 + 1 < wellFormedBytes.length ∧ 3 < 8) := by
  refine ⟨⟨by decide, by decide, by decide, cells_count _ _ (by decide), ?_⟩, ?_,
    by decide, by decide, by decide, by decide, by decide, by decide⟩
  · exact machine_generateRaw_short _ [35, 195, 238] (by decide) (by decide)
  · intro P i k h10 hmax hP hck hi hk
    have hb := getD_lt P i hP
    obtain ⟨hx, hne⟩ := flip_lt _ hb k hk
    have hP' := mem_set_lt P i _ hP hx
    obtain ⟨tr, h1, h2⟩ := decode_generate _ hP'
    obtain ⟨e1, e2, e3⟩ := dropLast_set P i (P.getD i 0 ^^^ 2 ^ k) hi
    have hs := sum_set P.dropLast i (P.getD i 0 ^^^ 2 ^ k) (by simp; omega)
    rw [e3] at hs
    have hbad : (P.set i (P.getD i 0 ^^^ 2 ^ k)).getLast? ≠
        some ((P.set i (P.getD i 0 ^^^ 2 ^ k)).dropLast.sum % 256) := by
      rw [e1, e2, hck]
      intro h
      have h' := Option.some.inj h
      omega
    have hlen : (P.set i (P.getD i 0 ^^^ 2 ^ k)).length = P.length := List.length_set _ _ _
    have hg := machine_generateRaw_getHex _ hP' (by rw [hlen]; exact h10) (by rw [hlen]; exact hmax)
    generalize P.set i (P.getD i 0 ^^^ 2 ^ k) = Q at h1 h2 hbad hlen hg ⊢
    refine ⟨tr, _, by rw [hg, h1], h2, rfl, by simp [decodedTwice, hlen], ?_, hbad, ?_⟩
    · simp [decodedTwice, foundOf_eq, crcOf_eq, hbad]
    · simp [decodedTwice, crcLog, foundOf_eq, crcOf_eq, hbad]

theorem writeSamples_all_cells (bytes : List Nat) :
    ∃ tr, generateRawBytes bytes = some tr ∧
      writeSamplesLoop tr.sampleTime tr.sample tr.sampleCount 0 (-1) =
        (tr.sampleTime.zip tr.sample).take tr.sampleCount := by
  refine ⟨_, generateRawBytes_spec bytes, ?_⟩
  simp only []
  rw [writeSamplesLoop_eq _ _ _ _ _ (by simp [segsT_length]; omega) (by simp; omega),
    List.drop_zero]
  apply keepP_id _ 0
  rw [← List.chain_map Prod.snd, List.map_take, List.map_snd_zip _ _ (by simp [segsT_length]),
    List.take_of_length_le (by simp; omega), segsS_alt]
  exact List.Chain.cons (by decide) (alt_chain _)

theorem times_range_cells (bytes : List Nat) (hmax : bytes.length ≤ 79000) :
    ∃ tr, generateRawBytes bytes = some tr ∧
      ∀ t ∈ tr.sampleTime, 0 ≤ t ∧ t < 2147483648 := by
  refine ⟨_, generateRawBytes_spec bytes, ?_⟩
  simp only []
  have hs := sampleTime_sorted bytes
  obtain ⟨c1, c2⟩ := segsEnd_frameSegs_bound bytes 700
  obtain ⟨d1, d2⟩ := segsEnd_frameSegs_bound bytes (segsEnd 700 (frameSegs bytes))
  have he : segsEnd 700 (frameSegs bytes ++ frameSegs bytes) < 2147483648 := by
    rw [segsEnd_append]
    omega
  have hs2 : List.Pairwise (· < ·) ((0 :: segsT 700 (frameSegs bytes ++ frameSegs bytes)) ++
      [segsEnd 700 (frameSegs bytes ++ frameSegs bytes)]) := hs
  obtain ⟨p1, -⟩ := List.pairwise_cons.1 hs
  obtain ⟨-, -, p3⟩ := List.pairwise_append.1 hs2
  intro t ht
  rcases List.mem_cons.1 ht with rfl | ht1
  · exact ⟨le_refl _, by decide⟩
  · refine ⟨le_of_lt (p1 t ht1), ?_⟩
    rcases List.mem_append.1 ht1 with h | h
    · have := p3 t (List.mem_cons_of_mem _ h) _ (List.mem_singleton_self _)
      omega
    · rw [List.mem_singleton] at h
      rw [h]
      exact he

/-- C5 (start of the trace, monotone times), with the payloads for which the program
departs from it.  For every hex text that denotes 10 to 79000 bytes, `Machine.generateRaw`
returns a trace of `sampleCount = 1 + 2·(288 + 256·L)` samples (`sampleCount + 1` times and
`sampleCount` levels are written) whose first sample is `(0, 0)`, whose second sample is
`(700, 1)`, whose times are strictly increasing over all `sampleCount` samples and lie in
`[0, 2^31)`; `canonicalHex` is such a text.  For fewer than 10 bytes the program writes
behind its buffers: for `01fF` the buffers hold `sampleGuessCount 2 = 1147` `int`s while
1602 cells of `sampleTime` are written, and there is no result. -/
theorem generated_times_increase :
    (getByteFromHex ['0', '1', 'f', 'F'] = some [1, 255] ∧ sampleGuessCount 2 = 1147 ∧
      (∃ tr, generateRawBytes [1, 255] = some tr ∧ tr.sampleTime.length = 1602) ∧
      Machine.generateRaw ['0', '1', 'f', 'F'] = none) ∧
    (∀ (hex : List Char) (bytes : List Nat), getByteFromHex hex = some bytes →
      10 ≤ bytes.length → bytes.length ≤ 79000 →
      ∃ tr, Machine.generateRaw hex = some tr ∧
        tr.sampleCount = 1 + 2 * (288 + 256 * bytes.length) ∧
        tr.sampleTime.length = tr.sampleCount + 1 ∧ tr.sample.length = tr.sampleCount ∧
        tr.sampleTime.getD 0 0 = 0 ∧ tr.sample.getD 0 0 = 0 ∧
        tr.sampleTime.getD 1 0 = 700 ∧ tr.sample.getD 1 0 = 1 ∧
        List.Pairwise (· < ·) (tr.sampleTime.take tr.sampleCount) ∧
        (∀ i, i + 1 < tr.sampleCount →
          tr.sampleTime.getD i 0 < tr.sampleTime.getD (i + 1) 0) ∧
        (∀ t ∈ tr.sampleTime, 0 ≤ t ∧ t < 2147483648)) ∧
    (getByteFromHex canonicalHex = some canonicalBytes ∧ 10 ≤ canonicalBytes.length ∧
      canonicalBytes.length ≤ 79000) := by
  refine ⟨⟨by decide, by decide, cells_count _ _ (by decide), ?_⟩, ?_,
    by decide, by decide, by decide⟩
  · exact machine_generateRaw_short _ [1, 255] (by decide) (by decide)
  · intro hex bytes hB h10 hmax
    obtain ⟨tr, h, a1, a2, a3, a4, a5, a6⟩ := times_increase_cells bytes
    obtain ⟨tr2, h2, b1, b2, b3⟩ := generateRawBytes_size bytes
    obtain ⟨tr3, h3, c1⟩ := times_range_cells bytes hmax
    have e2 : tr2 = tr := Option.some.inj (h2.symm.trans h)
    have e3 : tr3 = tr := Option.some.inj (h3.symm.trans h)
    rw [e2] at b1 b2 b3
    rw [e3] at c1
    exact ⟨tr, by rw [machine_generateRaw_cells hex bytes hB h10 hmax, h], by rw [b1]; omega,
      b2, b3, a1, a2, a3, a4, a5, a6, c1⟩

/-- C10 (edge count of the encoder's trace), with the payloads for which the program departs
from it.  For every hex text that denotes `L` bytes, `10 ≤ L ≤ 79000`, `Machine.generateRaw`
returns `sampleCount = 1 + 2·(288 + 256·L)` samples in which every adjacent pair differs in
level, so the number of level changes is
`2·(header_edges + L·8·bit_edges + stop_edges + gap_edges)` with `header_edges = 256`,
`bit_edges = 32`, `stop_edges = 32`, `gap_edges = 0`, these being the numbers
`Machine.addSample` returns for the header burst, a bit burst, the stop burst and the repeat
pause; the trace is compact already: `writeSamples` prints every one of the `sampleCount`
samples, in order, after the header, and returns `sampleCount`; `canonicalHex` is such a
text.  For fewer than 10 bytes the program writes behind its buffers: for `DEADBEEF` the
buffers hold `sampleGuessCount 4 = 2295` `int`s while 2626 cells of `sampleTime` are
written, and there is no result. -/
theorem generated_edge_count :
    (getByteFromHex ['D', 'E', 'A', 'D', 'B', 'E', 'E', 'F'] = some [222, 173, 190, 239] ∧
      sampleGuessCount 4 = 2295 ∧
      (∃ tr, generateRawBytes [222, 173, 190, 239] = some tr ∧ tr.sampleTime.length = 2626) ∧
      Machine.generateRaw ['D', 'E', 'A', 'D', 'B', 'E', 'E', 'F'] = none) ∧
    (∀ (hex : List Char) (bytes : List Nat), getByteFromHex hex = some bytes →
      10 ≤ bytes.length → bytes.length ≤ 79000 →
      ∃ tr, Machine.generateRaw hex = some tr ∧
        tr.sampleCount = 1 + 2 * (288 + 256 * bytes.length) ∧
        tr.sampleTime.length = tr.sampleCount + 1 ∧ tr.sample.length = tr.sampleCount ∧
        (∀ i, i + 1 < tr.sampleCount → tr.sample.getD i 0 ≠ tr.sample.getD (i + 1) 0) ∧
        ((List.range (tr.sampleCount - 1)).filter
            (fun i => decide (tr.sample.getD i 0 ≠ tr.sample.getD (i + 1) 0))).length =
          2 * (256 + bytes.length * 8 * 32 + 32 + 0) ∧
        writeSamplesLoop tr.sampleTime tr.sample tr.sampleCount 0 (-1) =
          (tr.sampleTime.zip tr.sample).take tr.sampleCount ∧
        writeSamples tr.sampleTime tr.sample tr.sampleCount =
          (header ++ (((tr.sampleTime.zip tr.sample).take tr.sampleCount).map
            sampleLine).flatten, tr.sampleCount)) ∧
    (∀ (A S : List Int) (t : Int), S.length = A.length → 0 ≤ t → t + 11354 < 2147483648 →
      (Machine.addSample (A ++ [t]) S A.length hTime lTime initPulseHLength
          initPulseLLength).map (fun r => r.1) = some 256 ∧
      (Machine.addSample (A ++ [t]) S A.length hTime lTime bitHLength oneBitLLength).map
          (fun r => r.1) = some 32 ∧
      (Machine.addSample (A ++ [t]) S A.length hTime lTime bitHLength zeroBitLLength).map
          (fun r => r.1) = some 32 ∧
      (Machine.addSample (A ++ [t]) S A.length hTime lTime bitHLength 0).map
          (fun r => r.1) = some 32 ∧
      (Machine.addSample (A ++ [t]) S A.length hTime lTime 0 repeatePause).map
          (fun r => r.1) = some 0) ∧
    (getByteFromHex canonicalHex = some canonicalBytes ∧ 10 ≤ canonicalBytes.length ∧
      canonicalBytes.length ≤ 79000) := by
  refine ⟨⟨by decide, by decide, cells_count _ _ (by decide), ?_⟩, ?_, ?_,
    by decide, by decide, by decide⟩
  · exact machine_generateRaw_short _ [222, 173, 190, 239] (by decide) (by decide)
  · intro hex bytes hB h10 hmax
    obtain ⟨tr, h, a1, a2, a3, -⟩ := edge_count_cells bytes
    obtain ⟨tr2, h2, b1, b2, b3⟩ := generateRawBytes_size bytes
    obtain ⟨tr3, h3, c1⟩ := writeSamples_all_cells bytes
    have e2 : tr2 = tr := Option.some.inj (h2.symm.trans h)
    have e3 : tr3 = tr := Option.some.inj (h3.symm.trans h)
    rw [e2] at b1 b2 b3
    rw [e3] at c1
    refine ⟨tr, by rw [machine_generateRaw_cells hex bytes hB h10 hmax, h], a1, b2, b3, a2,
      a3, c1, ?_⟩
    simp only [writeSamples, c1, Prod.mk.injEq, true_and]
    rw [List.length_take, List.length_zip, b2, b3]
    omega
  · intro A S t hS h0 hb
    rw [machine_addSample_spec hTime lTime _ _ (by decide) (by decide) (by decide) (by decide)
        (by decide) A S t _ rfl hS (by omega)
        (by simp only [initPulseLLength]; omega)
        (by simp only [initPulseHLength, hTime, lTime]; omega)
        (by simp only [initPulseHLength, initPulseLLength]; omega),
      machine_addSample_spec hTime lTime _ _ (by decide) (by decide) (by decide) (by decide)
        (by decide) A S t _ rfl hS (by omega)
        (by simp only [oneBitLLength]; omega)
        (by simp only [bitHLength, hTime, lTime]; omega)
        (by simp only [bitHLength, oneBitLLength]; omega),
      machine_addSample_spec hTime lTime _ _ (by decide) (by decide) (by decide) (by decide)
        (by decide) A S t _ rfl hS (by omega)
        (by simp only [zeroBitLLength]; omega)
        (by simp only [bitHLength, hTime, lTime]; omega)
        (by simp only [bitHLength, zeroBitLLength]; omega),
      machine_addSample_spec hTime lTime _ _ (by decide) (by decide) (by decide) (by decide)
        (by decide) A S t _ rfl hS (by omega) (by omega)
        (by simp only [bitHLength, hTime, lTime]; omega)
        (by simp only [bitHLength]; omega),
      machine_addSample_spec hTime lTime _ _ (by decide) (by decide) (by decide) (by decide)
        (by decide) A S t _ rfl hS (by omega)
        (by simp only [repeatePause]; omega)
        (by simp only [hTime, lTime]; omega)
        (by simp only [repeatePause]; omega)]
    simp only [Option.map_some']
    refine ⟨?_, ?_, ?_, ?_, ?_⟩ <;> decide

/-- C12 (second half-frame), with the payloads for which the program departs from it.  For
every payload `P` of `L` bytes, `10 ≤ L ≤ 79000`, when `decodeRawData` processes the trace
`Machine.generateRaw` makes of `P`, the compacted sample count is `8 + 32·L`; the bit loop
returns the bytes of `P` and leaves through `break` with `lastIndex = 4 + 16·L`, the first
measured space (even index from 3 on) longer than 2000 µs; `lastIndex` lies strictly
between 40% and 60% of the count; the recursive decode of the tail at `lastIndex` with
`8 + 32·L − lastIndex + 1` samples returns the `L` bytes of `P` and makes no further
recursive call (`second = none`); and the whole decode reports the second transmit `(P, L)`;
`canonicalBytes` is such a payload.  For fewer than 10 bytes the program writes behind its
buffers: for `0102` the buffers hold `sampleGuessCount 2 = 1147` `int`s while 1602 cells of
`sampleTime` are written, and there is no trace to decode. -/
theorem second_half_decoded :
    (getHex [1, 2] = ['0', '1', '0', '2'] ∧ sampleGuessCount 2 = 1147 ∧
      (∃ tr, generateRawBytes [1, 2] = some tr ∧ tr.sampleTime.length = 1602) ∧
      Machine.generateRaw ['0', '1', '0', '2'] = none) ∧
    (∀ P : List Nat, 10 ≤ P.length → P.length ≤ 79000 → (∀ b ∈ P, b < 256) →
      ∃ tr j st2 s2, Machine.generateRaw (getHex P) = some tr ∧
        compactLoop (tr.sampleCount - 1) 0 0 tr.sampleTime
          (flattenLoop tr.sampleTime (tr.sampleCount - 2) 0 tr.sample) = (j, st2, s2) ∧
        j = 8 + 32 * P.length ∧
        bitLoop st2 (j - 1 - 3) 3 0 0 0 [] = (P, P.length, ((4 + 16 * P.length : Nat) : Int)) ∧
        2000 < st2.getD (4 + 16 * P.length + 1) 0 - st2.getD (4 + 16 * P.length) 0 ∧
        (∀ p, 3 ≤ p → p < 4 + 16 * P.length → p % 2 = 0 →
          st2.getD (p + 1) 0 - st2.getD p 0 ≤ 2000) ∧
        (2 * (j : Int) < 5 * ((4 + 16 * P.length : Nat) : Int) ∧
          5 * ((4 + 16 * P.length : Nat) : Int) < 3 * (j : Int)) ∧
        (∀ fuel, decodeRawDataAux (fuel + 1) (st2.drop (4 + 16 * P.length))
            (s2.drop (4 + 16 * P.length)) (j - (4 + 16 * P.length) + 1) =
          some ⟨P, P.length, decide (foundOf P = some (crcOf P)), none, crcLog P⟩) ∧
        decodeRawData tr.sampleTime tr.sample tr.sampleCount =
          some ⟨P, P.length, decide (foundOf P = some (crcOf P)), some (P, P.length),
            crcLog P ++ crcLog P ++ []⟩) ∧
    (10 ≤ canonicalBytes.length ∧ canonicalBytes.length ≤ 79000 ∧
      ∀ b ∈ canonicalBytes, b < 256) := by
  refine ⟨⟨by decide, by decide, cells_count _ _ (by decide), ?_⟩, ?_,
    by decide, by decide, by decide⟩
  · exact machine_generateRaw_short _ [1, 2] (by decide) (by decide)
  · intro P h10 hmax hP
    obtain ⟨tr, j, st2, s2, h, r⟩ := second_half_cells P hP
    exact ⟨tr, j, st2, s2, by rw [machine_generateRaw_getHex P hP h10 hmax, h], r⟩

/-- C13 (two identical half-frames), with the payloads for which the program departs from
it.  For every hex text that denotes `L` bytes, `10 ≤ L ≤ 79000`, `Machine.generateRaw`
returns a trace of `1 + 2·S` samples with `S = 288 + 256·L` (the arrays hold `1 + 2·S` levels
and `2 + 2·S` times), and for every index `i` with `1 ≤ i ≤ S` the level at `i + S` is the
level at `i` and the time at `i + S` is the time at `i` plus the constant
`D = 3328 + 1688 + (sum over the payload bits of 416 + 1268 for a 1 and 416 + 430 for a 0)
+ 416 + 11354`; `canonicalHex` is such a text.  For fewer than 10 bytes the program writes
behind its buffers: for `00` the buffers hold `sampleGuessCount 1 = 573` `int`s while 1090
cells of `sampleTime` are written, and there is no result. -/
theorem half_frames_identical :
    (getByteFromHex ['0', '0'] = some [0] ∧ sampleGuessCount 1 = 573 ∧
      (∃ tr, generateRawBytes [0] = some tr ∧ tr.sampleTime.length = 1090) ∧
      Machine.generateRaw ['0', '0'] = none) ∧
    (∀ (hex : List Char) (bytes : List Nat), getByteFromHex hex = some bytes →
      10 ≤ bytes.length → bytes.length ≤ 79000 →
      ∃ tr, Machine.generateRaw hex = some tr ∧
        tr.sampleCount = 1 + 2 * (288 + 256 * bytes.length) ∧
        tr.sample.length = 1 + 2 * (288 + 256 * bytes.length) ∧
        tr.sampleTime.length = 2 + 2 * (288 + 256 * bytes.length) ∧
        ∀ i, 1 ≤ i → i ≤ 288 + 256 * bytes.length →
          tr.sample.getD (i + (288 + 256 * bytes.length)) 0 = tr.sample.getD i 0 ∧
          tr.sampleTime.getD (i + (288 + 256 * bytes.length)) 0 - tr.sampleTime.getD i 0 =
            3328 + 1688 + bitsDuration bytes + 416 + 11354) ∧
    (getByteFromHex canonicalHex = some canonicalBytes ∧ 10 ≤ canonicalBytes.length ∧
      canonicalBytes.length ≤ 79000) := by
  refine ⟨⟨by decide, by decide, cells_count _ _ (by decide), ?_⟩, ?_,
    by decide, by decide, by decide⟩
  · exact machine_generateRaw_short _ [0] (by decide) (by decide)
  · intro hex bytes hB h10 hmax
    obtain ⟨tr, h, r⟩ := half_frames_cells bytes
    exact ⟨tr, by rw [machine_generateRaw_cells hex bytes hB h10 hmax, h], r⟩

/-- C14 (bit bursts), with the payloads for which the program departs from it.  For every hex
text that denotes the bytes `bytes`, `10 ≤ L ≤ 79000`, and every bit number `n < 8·L`, in
the trace of `Machine.generateRaw` the samples `257 + 32·n .. 257 + 32·n + 31` are the 16
cycles of one burst (levels 1, 0, times 26 µs per cycle with the fall 15 µs after the
rise), preceded by a level-0 sample; the first burst starts at time `700 + 3328 + 1688`;
and the next burst starts at index `257 + 32·(n + 1)`, `416 + 1268` µs after the start of
burst `n` when bit `n mod 8` (counted from the least significant bit) of byte `n div 8` is 1
and `416 + 430` µs after it when that bit is 0; `canonicalHex` with `n = 9` is such a case.
For fewer than 10 bytes the program writes behind its buffers: for `A5` the buffers hold
`sampleGuessCount 1 = 573` `int`s while 1090 cells of `sampleTime` are written, and there
is no result. -/
theorem bit_burst_layout :
    (getByteFromHex ['A', '5'] = some [165] ∧ sampleGuessCount 1 = 573 ∧
      (∃ tr, generateRawBytes [165] = some tr ∧ tr.sampleTime.length = 1090) ∧
      Machine.generateRaw ['A', '5'] = none) ∧
    (∀ (hex : List Char) (bytes : List Nat) (n : Nat), getByteFromHex hex = some bytes →
      10 ≤ bytes.length → bytes.length ≤ 79000 → n < 8 * bytes.length →
      ∃ tr, Machine.generateRaw hex = some tr ∧
        257 + 32 * (n + 1) < tr.sampleCount ∧
        tr.sample.getD (256 + 32 * n) 0 = 0 ∧
        (∀ m, m < 16 →
          tr.sample.getD (257 + 32 * n + 2 * m) 0 = 1 ∧
          tr.sample.getD (257 + 32 * n + 2 * m + 1) 0 = 0 ∧
          tr.sampleTime.getD (257 + 32 * n + 2 * m) 0 =
            tr.sampleTime.getD (257 + 32 * n) 0 + 26 * m ∧
          tr.sampleTime.getD (257 + 32 * n + 2 * m + 1) 0 =
            tr.sampleTime.getD (257 + 32 * n) 0 + 26 * m + 15) ∧
        (n = 0 → tr.sampleTime.getD 257 0 = 700 + 3328 + 1688) ∧
        tr.sampleTime.getD (257 + 32 * (n + 1)) 0 - tr.sampleTime.getD (257 + 32 * n) 0 =
          (if bytes.getD (n / 8) 0 / 2 ^ (n % 8) % 2 = 1 then 416 + 1268 else 416 + 430)) ∧
    (getByteFromHex canonicalHex = some canonicalBytes ∧ 10 ≤ canonicalBytes.length ∧
      canonicalBytes.length ≤ 79000 ∧ 9 < 8 * canonicalBytes.length) := by
  refine ⟨⟨by decide, by decide, cells_count _ _ (by decide), ?_⟩, ?_,
    by decide, by decide, by decide, by decide⟩
  · exact machine_generateRaw_short _ [165] (by decide) (by decide)
  · intro hex bytes n hB h10 hmax hn
    obtain ⟨tr, h, r⟩ := bit_burst_cells bytes n hn
    exact ⟨tr, by rw [machine_generateRaw_cells hex bytes hB h10 hmax, h], r⟩

/-- C7, as stated, fails: the even-length hex string `00000000000000000001` (10 bytes, for
which the buffers of `generateRaw` suffice) is accepted by the encoder path, the payload
that is encoded (and decoded again from the trace) is nine bytes 0 and a byte 1, and its
last byte 1 is not the sum modulo 256 of the bytes in front of it. -/
theorem encoder_checksum_counterexample :
    uncheckedHex.length % 2 = 0 ∧
    getByteFromHex uncheckedHex = some [0, 0, 0, 0, 0, 0, 0, 0, 0, 1] ∧
    ¬ checksumLaw [0, 0, 0, 0, 0, 0, 0, 0, 0, 1] ∧
    ∃ tr d, Machine.generateRaw uncheckedHex = some tr ∧
      (tr.sampleTime.length : Int) ≤ sampleGuessCount 10 ∧
      decodeRawData tr.sampleTime tr.sample tr.sampleCount = some d ∧
      d.bytes = [0, 0, 0, 0, 0, 0, 0, 0, 0, 1] ∧ d.crcOK = false := by
  obtain ⟨tr, h1, h2⟩ := decode_generate [0, 0, 0, 0, 0, 0, 0, 0, 0, 1] (by decide)
  obtain ⟨tr2, h3, b1, b2, -⟩ := generateRawBytes_size [0, 0, 0, 0, 0, 0, 0, 0, 0, 1]
  have e2 : tr2 = tr := Option.some.inj (h3.symm.trans h1)
  rw [e2] at b1 b2
  have hb : getByteFromHex uncheckedHex = some [0, 0, 0, 0, 0, 0, 0, 0, 0, 1] := by decide
  refine ⟨by decide, hb, by decide, tr, _, ?_, ?_, h2, rfl, by decide⟩
  · rw [machine_generateRaw_cells _ _ hb (by decide) (by decide), h1]
  · rw [b2, b1]
    decide

/-- C7 (amended): the encoder path passes the payload through unchanged.  For every hex
string `h` that `getByteFromHex` reads as the bytes `B`, `10 ≤ |B| ≤ 79000` (the lengths for
which the buffers of `generateRaw` suffice and no `int` overflows), `Machine.generateRaw h`
encodes exactly `B` (the trace is that of the bytes `B` and decodes to `B` again), and the
checksum law holds for the encoded payload exactly when it holds for the bytes written in
`h`: the decoder's `crcOK` is set iff the last byte of `B` is the sum modulo 256 of the
bytes in front of it. -/
theorem encoder_payload_unchanged (h : List Char) (B : List Nat)
    (hB : getByteFromHex h = some B) (h10 : 10 ≤ B.length) (hmax : B.length ≤ 79000) :
    ∃ tr d, Machine.generateRaw h = some tr ∧ generateRawBytes B = some tr ∧
      decodeRawData tr.sampleTime tr.sample tr.sampleCount = some d ∧ d.bytes = B ∧
      d.byteCount = B.length ∧ (d.crcOK = true ↔ checksumLaw B) := by
  have hlt := getByteFromHexLoop_lt _ _ _ hB
  obtain ⟨tr, h1, h2⟩ := decode_generate B hlt
  refine ⟨tr, _, ?_, h1, h2, rfl, rfl, ?_⟩
  · rw [machine_generateRaw_cells h B hB h10 hmax, h1]
  · simp [decodedTwice, foundOf_eq, crcOf_eq, checksumLaw]

theorem encoder_payload_unchanged_witness :
    (getByteFromHex canonicalHex = some canonicalBytes ∧ 10 ≤ canonicalBytes.length ∧
      canonicalBytes.length ≤ 79000) ∧
    ∃ tr d, Machine.generateRaw canonicalHex = some tr ∧
      generateRawBytes canonicalBytes = some tr ∧
      decodeRawData tr.sampleTime tr.sample tr.sampleCount = some d ∧
      d.bytes = canonicalBytes ∧ d.byteCount = canonicalBytes.length ∧
      (d.crcOK = true ↔ checksumLaw canonicalBytes) :=
  ⟨⟨by decide, by decide, by decide⟩,
    encoder_payload_unchanged canonicalHex canonicalBytes (by decide) (by decide) (by decide)⟩

theorem bitOf_lt (dt : Int) : bitOf dt < 2 := by
  unfold bitOf
  split <;> decide

theorem bitOf_if (dt : Int) : bitOf dt = if 800 < dt then 1 else 0 := by
  simp only [bitOf, show oneZeroLevel = 800 by decide]

theorem assemble_bits : ∀ b0, b0 < 2 → ∀ b1, b1 < 2 → ∀ b2, b2 < 2 → ∀ b3, b3 < 2 →
    ∀ b4, b4 < 2 → ∀ b5, b5 < 2 → ∀ b6, b6 < 2 → ∀ b7, b7 < 2 →
    shiftIn (shiftIn (shiftIn (shiftIn (shiftIn (shiftIn (shiftIn (shiftIn 0 b0) b1) b2) b3)
      b4) b5) b6) b7 =
      b0 + 2 * b1 + 4 * b2 + 8 * b3 + 16 * b4 + 32 * b5 + 64 * b6 + 128 * b7 := by
  intro b0 h0 b1 h1 b2 h2 b3 h3 b4 h4 b5 h5 b6 h6 b7 h7
  have s1 : shiftIn 0 b0 = 128 * b0 := by
    simp only [shiftIn]; omega
  have s2 : shiftIn (128 * b0) b1 = 64 * b0 + 128 * b1 := by
    simp only [shiftIn]; omega
  have s3 : shiftIn (64 * b0 + 128 * b1) b2 = 32 * b0 + 64 * b1 + 128 * b2 := by
    simp only [shiftIn]; omega
  have s4 : shiftIn (32 * b0 + 64 * b1 + 128 * b2) b3 =
      16 * b0 + 32 * b1 + 64 * b2 + 128 * b3 := by
    simp only [shiftIn]; omega
  have s5 : shiftIn (16 * b0 + 32 * b1 + 64 * b2 + 128 * b3) b4 =
      8 * b0 + 16 * b1 + 32 * b2 + 64 * b3 + 128 * b4 := by
    simp only [shiftIn]; omega
  have s6 : shiftIn (8 * b0 + 16 * b1 + 32 * b2 + 64 * b3 + 128 * b4) b5 =
      4 * b0 + 8 * b1 + 16 * b2 + 32 * b3 + 64 * b4 + 128 * b5 := by
    simp only [shiftIn]; omega
  have s7 : shiftIn (4 * b0 + 8 * b1 + 16 * b2 + 32 * b3 + 64 * b4 + 128 * b5) b6 =
      2 * b0 + 4 * b1 + 8 * b2 + 16 * b3 + 32 * b4 + 64 * b5 + 128 * b6 := by
    simp only [shiftIn]; omega
  have s8 : shiftIn (2 * b0 + 4 * b1 + 8 * b2 + 16 * b3 + 32 * b4 + 64 * b5 + 128 * b6) b7 =
      b0 + 2 * b1 + 4 * b2 + 8 * b3 + 16 * b4 + 32 * b5 + 64 * b6 + 128 * b7 := by
    simp only [shiftIn]; omega
  rw [s1, s2, s3, s4, s5, s6, s7, s8]

theorem bitLoop_eight (T : List Int)
    (h : ∀ k, k < 8 → T.getD (2 * k + 5) 0 - T.getD (2 * k + 4) 0 ≤ 2000) :
    bitLoop T 16 3 0 0 0 [] =
      ([bitOf (T.getD 5 0 - T.getD 4 0) + 2 * bitOf (T.getD 7 0 - T.getD 6 0) +
          4 * bitOf (T.getD 9 0 - T.getD 8 0) + 8 * bitOf (T.getD 11 0 - T.getD 10 0) +
          16 * bitOf (T.getD 13 0 - T.getD 12 0) + 32 * bitOf (T.getD 15 0 - T.getD 14 0) +
          64 * bitOf (T.getD 17 0 - T.getD 16 0) + 128 * bitOf (T.getD 19 0 - T.getD 18 0)],
        1, -1) := by
  have e : bitLoop T 16 3 0 0 0 [] = bitLoopAt T 16 3 (0, 0, 0, []) := rfl
  rw [e, bitLoopAt_odd _ _ _ _ (by decide), bitLoopAt_even _ _ _ _ (by decide) (h 0 (by decide)),
    bitLoopAt_odd _ _ _ _ (by decide), bitLoopAt_even _ _ _ _ (by decide) (h 1 (by decide)),
    bitLoopAt_odd _ _ _ _ (by decide), bitLoopAt_even _ _ _ _ (by decide) (h 2 (by decide)),
    bitLoopAt_odd _ _ _ _ (by decide), bitLoopAt_even _ _ _ _ (by decide) (h 3 (by decide)),
    bitLoopAt_odd _ _ _ _ (by decide), bitLoopAt_even _ _ _ _ (by decide) (h 4 (by decide)),
    bitLoopAt_odd _ _ _ _ (by decide), bitLoopAt_even _ _ _ _ (by decide) (h 5 (by decide)),
    bitLoopAt_odd _ _ _ _ (by decide), bitLoopAt_even _ _ _ _ (by decide) (h 6 (by decide)),
    bitLoopAt_odd _ _ _ _ (by decide), bitLoopAt_even _ _ _ _ (by decide) (h 7 (by decide)),
    bitLoopAt_zero]
  simp only [stepBit, Nat.reduceAdd, Nat.reduceLeDiff, if_false, if_true, le_refl,
    List.nil_append]
  rw [assemble_bits _ (bitOf_lt _) _ (bitOf_lt _) _ (bitOf_lt _) _ (bitOf_lt _) _ (bitOf_lt _)
    _ (bitOf_lt _) _ (bitOf_lt _) _ (bitOf_lt _)]

/-- C8 (threshold symmetry): the level of the bit extraction is `(400+1200)/2 = 800` and
the comparison is strict: a space `dt` gives bit 1 exactly when `dt > 800`, so 800 µs is a 0
and 801 µs is a 1.  At every even index `i` of the bit loop, whatever the bit count and
whether or not the space ends the frame, the bit shifted into the byte (as its bit 7, the
older bits moving down) is 1 exactly when `dt = t[i+1] − t[i] > 800`; at an odd index no
space is measured.  Hence eight consecutive measured spaces of at most 2000 µs give the
byte whose bit `k` is 1 exactly when the `k`-th space is longer than 800 µs; traces whose
eight spaces are all 800 µs, all 801 µs, and alternately 800 and 801 µs decode to `00`,
`FF` and `AA`.  (The differences are those of `int`s that do not overflow.) -/
theorem threshold_symmetry :
    oneZeroLevel = 800 ∧ (∀ dt : Int, bitOf dt = 1 ↔ 800 < dt) ∧
    (∀ dt : Int, bitOf dt = 0 ↔ dt ≤ 800) ∧ bitOf 800 = 0 ∧ bitOf 801 = 1 ∧
    (∀ (sampleTime : List Int) (n i bc byteIndex byte : Nat) (bytes : List Nat),
      i % 2 = 0 →
      -2147483648 ≤ sampleTime.getD (i + 1) 0 - sampleTime.getD i 0 →
      sampleTime.getD (i + 1) 0 - sampleTime.getD i 0 < 2147483648 →
      bitLoop sampleTime (n + 1) i bc byteIndex byte bytes =
        if 8 ≤ bc + 1 then
          if 2000 < sampleTime.getD (i + 1) 0 - sampleTime.getD i 0 then
            (bytes ++ [shiftIn byte
              (if 800 < sampleTime.getD (i + 1) 0 - sampleTime.getD i 0 then 1 else 0)],
              byteIndex + 1, (i : Int))
          else bitLoop sampleTime n (i + 1) 0 (byteIndex + 1) 0
            (bytes ++ [shiftIn byte
              (if 800 < sampleTime.getD (i + 1) 0 - sampleTime.getD i 0 then 1 else 0)])
        else
          if 2000 < sampleTime.getD (i + 1) 0 - sampleTime.getD i 0 then
            (bytes, byteIndex, (i : Int))
          else bitLoop sampleTime n (i + 1) (bc + 1) byteIndex
            (shiftIn byte
              (if 800 < sampleTime.getD (i + 1) 0 - sampleTime.getD i 0 then 1 else 0))
            bytes) ∧
    (∀ (sampleTime : List Int) (n i bc byteIndex byte : Nat) (bytes : List Nat),
      i % 2 = 1 →
      bitLoop sampleTime (n + 1) i bc byteIndex byte bytes =
        bitLoop sampleTime n (i + 1) bc byteIndex byte bytes) ∧
    (∀ byte bit : Nat, byte < 256 → bit < 2 → shiftIn byte bit = byte / 2 + 128 * bit) ∧
    (∀ T : List Int,
      (∀ k, k < 8 → -2147483648 ≤ T.getD (2 * k + 5) 0 - T.getD (2 * k + 4) 0 ∧
        T.getD (2 * k + 5) 0 - T.getD (2 * k + 4) 0 ≤ 2000) →
      bitLoop T 16 3 0 0 0 [] =
        ([(if 800 < T.getD 5 0 - T.getD 4 0 then 1 else 0) +
            2 * (if 800 < T.getD 7 0 - T.getD 6 0 then 1 else 0) +
            4 * (if 800 < T.getD 9 0 - T.getD 8 0 then 1 else 0) +
            8 * (if 800 < T.getD 11 0 - T.getD 10 0 then 1 else 0) +
            16 * (if 800 < T.getD 13 0 - T.getD 12 0 then 1 else 0) +
            32 * (if 800 < T.getD 15 0 - T.getD 14 0 then 1 else 0) +
            64 * (if 800 < T.getD 17 0 - T.getD 16 0 then 1 else 0) +
            128 * (if 800 < T.getD 19 0 - T.getD 18 0 then 1 else 0)], 1, -1)) ∧
    (decodeRawData space800Times thresholdLevels 21).map (fun d => d.bytes) = some [0] ∧
    (decodeRawData space801Times thresholdLevels 21).map (fun d => d.bytes) = some [255] ∧
    (decodeRawData thresholdTimes thresholdLevels 21).map (fun d => d.bytes) = some [170] := by
  refine ⟨by decide, ?_, ?_, by decide, by decide, ?_, ?_, ?_, ?_,
    by decide, by decide, by decide⟩
  · intro dt
    simp only [bitOf, show oneZeroLevel = 800 by decide]
    split <;> simp [*]
  · intro dt
    simp only [bitOf, show oneZeroLevel = 800 by decide]
    split <;> simp [*]
    omega
  · intro sampleTime n i bc byteIndex byte bytes hi _ _
    simp only [bitLoop, hi, if_true, bitOf_if]
  · intro sampleTime n i bc byteIndex byte bytes hi
    have h : ¬ (i % 2 = 0) := by omega
    simp only [bitLoop, h, if_false]
  · intro byte bit h1 h2
    simp only [shiftIn]
    omega
  · intro T h
    rw [bitLoop_eight T (fun k hk => (h k hk).2)]
    simp only [bitOf_if]

/-- C16, as stated, fails: the call with `startTime = 2147483600`, `hTime = 15`,
`lTime = 11`, `pulseHLength = 428`, `pulseLLength = 1268` satisfies `hTime + lTime > 0` and
`pulseHLength ≥ 0`, and `⌊428 / 26⌋ = 16`, but `startTime + pulseHLength` overflows the
32-bit `int`: the loop test fails at once, no cycle is emitted, the return value is 0 and
not 32, and the start time of the next sample is `−2147482428`. -/
theorem addSample_overflow :
    (0 : Int) < 15 + 11 ∧ (0 : Int) ≤ 428 ∧ 2 * ((428 : Int) / (15 + 11)).toNat = 32 ∧
    wrap32 (2147483600 + 428) = -2147483268 ∧
    Machine.addSample [2147483600] [] 0 15 11 428 1268 = some (0, [-2147482428], []) ∧
    ¬ ∃ st' s', Machine.addSample [2147483600] [] 0 15 11 428 1268 =
      some (2 * ((428 : Int) / (15 + 11)).toNat, st', s') := by
  have h : Machine.addSample [2147483600] [] 0 15 11 428 1268 = some (0, [-2147482428], []) := by
    decide
  refine ⟨by decide, by decide, by decide, by decide, h, ?_⟩
  rintro ⟨st', s', h'⟩
  rw [h] at h'
  have h0 : (0 : Nat) = 2 * ((428 : Int) / (15 + 11)).toNat :=
    congrArg Prod.fst (Option.some.inj h')
  revert h0
  decide

theorem machine_loop_exact (h l limit : Int) (base : Nat) (hpos : 0 < h + l)
    (hhl : h + l < 2147483648) (k : Nat) :
    ∀ (fuel : Nat) (t : Int) (pos : Nat) (A S : List Int),
      t + k * (h + l) ≤ limit → limit < t + (k + 1) * (h + l) →
      -2147483648 ≤ t → -2147483648 ≤ t + h →
      t + k * (h + l) + h < 2147483648 → t + (k + 1) * (h + l) < 2147483648 →
      Machine.addSampleLoop h l limit base fuel t pos A S =
        addSampleLoop h l limit base fuel t pos A S := by
  induction k with
  | zero =>
    intro fuel t pos A S h1 h2 h3 h4 h5 h6
    simp only [Nat.cast_zero, zero_mul, add_zero, zero_add, one_mul] at h1 h2 h5 h6
    have e1 : wrap32 (t + h) = t + h := wrap32_eq _ h4 h5
    have e2 : wrap32 (t + h + l) = t + h + l := wrap32_eq _ (by omega) (by omega)
    have hc : ¬ (t + h + l ≤ limit) := by omega
    cases fuel <;> simp only [Machine.addSampleLoop, addSampleLoop, e1, e2, if_neg hc]
  | succ k ih =>
    intro fuel t pos A S h1 h2 h3 h4 h5 h6
    have hk : (0 : Int) ≤ k * (h + l) := by positivity
    push_cast at h1 h2 h5 h6
    have e1 : wrap32 (t + h) = t + h := wrap32_eq _ h4 (by linarith)
    have e2 : wrap32 (t + h + l) = t + h + l := wrap32_eq _ (by linarith) (by linarith)
    have e3 : wrap32 (h + l) = h + l := wrap32_eq _ (by linarith) hhl
    have e4 : wrap32 (t + (h + l)) = t + (h + l) := wrap32_eq _ (by linarith) (by linarith)
    have hc : t + h + l ≤ limit := by linarith
    cases fuel with
    | zero => simp only [Machine.addSampleLoop, addSampleLoop, e1, e2, if_pos hc]
    | succ fuel =>
      simp only [Machine.addSampleLoop, addSampleLoop, e1, e2, e3, e4, if_pos hc]
      exact ih fuel _ _ _ _ (by linarith) (by linarith) (by linarith) (by linarith)
        (by linarith) (by linarith)

/-- C16 (amended): for every call
`addSample(sampleTime, sample, hTime, lTime, pulseHLength, pulseLLength)` with
`hTime + lTime > 0` and `pulseHLength ≥ 0` in which none of the `int` sums that the function
forms overflows (with `n = ⌊pulseHLength / (hTime + lTime)⌋`: `hTime + lTime`,
`startTime + pulseHLength`, `startTime + hTime`, `startTime + n·(hTime + lTime) + hTime`,
`startTime + (n + 1)·(hTime + lTime)` and `startTime + n·(hTime + lTime) + pulseLLength`
lie in `[−2^31, 2^31)`), on whatever arrays, the loop ends and emits exactly `n` high/low
cycles (a 1 at `startTime + m·(hTime+lTime)` and a 0 `hTime` later, for every `m < n`), the
return value is `2·n`, and the start time of the next sample, `sampleTime[2·n]`, is
`startTime + n·(hTime + lTime) + pulseLLength`; the burst length `n·(hTime + lTime)` never
exceeds `pulseHLength` and undershoots it by at most `hTime + lTime − 1`. -/
theorem addSample_cycles (sampleTime sample : List Int) (base : Nat)
    (hTime lTime pulseHLength pulseLLength : Int)
    (hpos : 0 < hTime + lTime) (hpH : 0 ≤ pulseHLength)
    (hhl : hTime + lTime < 2147483648)
    (hlim : sampleTime.getD base 0 + pulseHLength < 2147483648)
    (hst : -2147483648 ≤ sampleTime.getD base 0)
    (hsth : -2147483648 ≤ sampleTime.getD base 0 + hTime)
    (hmaxh : sampleTime.getD base 0 +
      ((pulseHLength / (hTime + lTime)).toNat : Int) * (hTime + lTime) + hTime < 2147483648)
    (hmax : sampleTime.getD base 0 +
      (((pulseHLength / (hTime + lTime)).toNat : Int) + 1) * (hTime + lTime) < 2147483648)
    (hpL : -2147483648 ≤ sampleTime.getD base 0 +
      ((pulseHLength / (hTime + lTime)).toNat : Int) * (hTime + lTime) + pulseLLength)
    (hmaxL : sampleTime.getD base 0 +
      ((pulseHLength / (hTime + lTime)).toNat : Int) * (hTime + lTime) + pulseLLength <
        2147483648) :
    ∃ st' s', Machine.addSample sampleTime sample base hTime lTime pulseHLength pulseLLength =
        some (2 * (pulseHLength / (hTime + lTime)).toNat, st', s') ∧
      st'.getD (base + 2 * (pulseHLength / (hTime + lTime)).toNat) 0 =
        sampleTime.getD base 0 + (pulseHLength / (hTime + lTime)).toNat * (hTime + lTime) +
          pulseLLength ∧
      (∀ m, m < (pulseHLength / (hTime + lTime)).toNat →
        s'.getD (base + 2 * m) 0 = 1 ∧ s'.getD (base + 2 * m + 1) 0 = 0 ∧
        st'.getD (base + 2 * m + 1) 0 = sampleTime.getD base 0 + m * (hTime + lTime) + hTime ∧
        (m + 1 < (pulseHLength / (hTime + lTime)).toNat →
          st'.getD (base + 2 * m + 2) 0 = sampleTime.getD base 0 + (m + 1) * (hTime + lTime))) ∧
      ((pulseHLength / (hTime + lTime)).toNat : Int) * (hTime + lTime) ≤ pulseHLength ∧
      pulseHLength - ((pulseHLength / (hTime + lTime)).toNat : Int) * (hTime + lTime) ≤
        hTime + lTime - 1 := by
  have hq : 0 ≤ pulseHLength / (hTime + lTime) := Int.ediv_nonneg hpH hpos.le
  have hk : (((pulseHLength / (hTime + lTime)).toNat : Nat) : Int) =
      pulseHLength / (hTime + lTime) := Int.toNat_of_nonneg hq
  have h1 : pulseHLength / (hTime + lTime) * (hTime + lTime) ≤ pulseHLength :=
    Int.ediv_mul_le _ hpos.ne'
  have h2 : pulseHLength < (pulseHLength / (hTime + lTime) + 1) * (hTime + lTime) :=
    Int.lt_ediv_add_one_mul_self _ hpos
  have hfuel : (pulseHLength / (hTime + lTime)).toNat ≤ 4294967296 := by
    have hle : pulseHLength / (hTime + lTime) ≤ pulseHLength := Int.ediv_le_self _ hpH
    omega
  obtain ⟨st', s', e, hm, -, -⟩ := addSampleLoop_cycles hTime lTime
    (sampleTime.getD base 0 + pulseHLength) base hpos (pulseHLength / (hTime + lTime)).toNat
    4294967296 (sampleTime.getD base 0) 0 sampleTime sample hfuel
    (by rw [hk]; linarith) (by rw [hk]; linarith)
  have elim : wrap32 (sampleTime.getD base 0 + pulseHLength) =
      sampleTime.getD base 0 + pulseHLength := wrap32_eq _ (by omega) hlim
  have efin : wrap32 (sampleTime.getD base 0 +
      ((pulseHLength / (hTime + lTime)).toNat : Int) * (hTime + lTime) + pulseLLength) =
      sampleTime.getD base 0 +
        ((pulseHLength / (hTime + lTime)).toNat : Int) * (hTime + lTime) + pulseLLength :=
    wrap32_eq _ hpL hmaxL
  refine ⟨store st' (base + (0 + 2 * (pulseHLength / (hTime + lTime)).toNat))
    (sampleTime.getD base 0 + (pulseHLength / (hTime + lTime)).toNat * (hTime + lTime) +
      pulseLLength), s', ?_, ?_, ?_, by rw [hk]; exact h1, by rw [hk]; linarith⟩
  · unfold Machine.addSample
    simp only [elim]
    rw [machine_loop_exact hTime lTime _ base hpos hhl (pulseHLength / (hTime + lTime)).toNat
      _ _ _ _ _ (by rw [hk]; linarith) (by rw [hk]; linarith) hst hsth hmaxh hmax, e]
    simp only [Nat.zero_add, efin]
  · rw [store_getD, if_pos (by omega)]
  · intro m hm'
    obtain ⟨b1, b2, b3, b4⟩ := hm m hm'
    simp only [Nat.add_zero] at b1 b2 b3 b4
    refine ⟨b1, b2, ?_, ?_⟩
    · rw [store_getD, if_neg (by omega), b3]
    · intro hlt
      rw [store_getD, if_neg (by omega), b4]

theorem addSample_cycles_witness :
    ((0 : Int) < 15 + 11 ∧ (0 : Int) ≤ 428 ∧ (15 : Int) + 11 < 2147483648 ∧
      ([0, 700] : List Int).getD 1 0 + 428 < 2147483648 ∧
      -2147483648 ≤ ([0, 700] : List Int).getD 1 0 ∧
      -2147483648 ≤ ([0, 700] : List Int).getD 1 0 + 15 ∧
      ([0, 700] : List Int).getD 1 0 + (((428 : Int) / (15 + 11)).toNat : Int) * (15 + 11) + 15 <
        2147483648 ∧
      ([0, 700] : List Int).getD 1 0 +
        ((((428 : Int) / (15 + 11)).toNat : Int) + 1) * (15 + 11) < 2147483648 ∧
      -2147483648 ≤ ([0, 700] : List Int).getD 1 0 +
        (((428 : Int) / (15 + 11)).toNat : Int) * (15 + 11) + 1268 ∧
      ([0, 700] : List Int).getD 1 0 +
        (((428 : Int) / (15 + 11)).toNat : Int) * (15 + 11) + 1268 < 2147483648) ∧
    ∃ st' s', Machine.addSample [0, 700] [0] 1 15 11 428 1268 =
        some (2 * ((428 : Int) / (15 + 11)).toNat, st', s') ∧
      st'.getD (1 + 2 * ((428 : Int) / (15 + 11)).toNat) 0 =
        ([0, 700] : List Int).getD 1 0 + (((428 : Int) / (15 + 11)).toNat : Int) * (15 + 11) +
          1268 ∧
      (∀ m, m < ((428 : Int) / (15 + 11)).toNat →
        s'.getD (1 + 2 * m) 0 = 1 ∧ s'.getD (1 + 2 * m + 1) 0 = 0 ∧
        st'.getD (1 + 2 * m + 1) 0 = ([0, 700] : List Int).getD 1 0 + m * (15 + 11) + 15 ∧
        (m + 1 < ((428 : Int) / (15 + 11)).toNat →
          st'.getD (1 + 2 * m + 2) 0 = ([0, 700] : List Int).getD 1 0 + (m + 1) * (15 + 11))) ∧
      (((428 : Int) / (15 + 11)).toNat : Int) * (15 + 11) ≤ 428 ∧
      428 - (((428 : Int) / (15 + 11)).toNat : Int) * (15 + 11) ≤ 15 + 11 - 1 :=
  ⟨⟨by decide, by decide, by decide, by decide, by decide, by decide, by decide, by decide,
      by decide, by decide⟩,
    addSample_cycles [0, 700] [0] 1 15 11 428 1268 (by decide) (by decide) (by decide)
      (by decide) (by decide) (by decide) (by decide) (by decide) (by decide) (by decide)⟩

theorem wrap32_sub (a b c : Int) :
    wrap32 (wrap32 (a - c) - wrap32 (b - c)) = wrap32 (a - b) := by
  unfold wrap32
  omega

theorem rebaseLoop_spec (f : Int) (n : Nat) : ∀ (i : Nat) (st : List Int),
    i + n ≤ st.length →
    (rebaseLoop f n i st).length = st.length ∧
    ∀ q, (rebaseLoop f n i st).getD q 0 =
      if i ≤ q ∧ q < i + n then wrap32 (st.getD q 0 - f) else st.getD q 0 := by
  induction n with
  | zero =>
    intro i st _
    refine ⟨rfl, fun q => ?_⟩
    rw [if_neg (by omega)]
    rfl
  | succ n ih =>
    intro i st h
    obtain ⟨a, b⟩ := ih (i + 1) (st.set i (wrap32 (st.getD i 0 - f)))
      (by rw [List.length_set]; omega)
    rw [List.length_set] at a
    refine ⟨a, fun q => ?_⟩
    show (rebaseLoop f n (i + 1) (st.set i (wrap32 (st.getD i 0 - f)))).getD q 0 = _
    rw [b q, getD_set_int _ _ _ _ (by omega)]
    by_cases hq : q = i
    · subst hq
      rw [if_neg (by omega), if_pos rfl, if_pos (by omega)]
    · rw [if_neg hq]
      by_cases hr : i + 1 ≤ q ∧ q < i + 1 + n
      · rw [if_pos hr, if_pos (by omega)]
      · rw [if_neg hr, if_neg (by omega)]

/-- C15, as stated, fails where the capture crosses `2^31` µs: for the two samples of levels
0, 1 taken at `micros() = 2147483640` and `2147483648` (the `int` `−2147483648`) both are
retained and the rebased times are 0 and 8; the second is not `sampleTime[1] − sampleTime[0]`
`= −4294967288`, and the difference between the two retained times has changed from
`−4294967288` to 8. -/
theorem rebase_wraps :
    sampleGpioTrim [0, 1] [2147483640, -2147483648] 2 = (2, [0, 8], [0, 1]) ∧
    ([2147483640, -2147483648] : List Int).getD 1 0 -
      ([2147483640, -2147483648] : List Int).getD 0 0 = -4294967288 ∧
    ([0, 8] : List Int).getD 1 0 ≠
      ([2147483640, -2147483648] : List Int).getD 1 0 -
        ([2147483640, -2147483648] : List Int).getD 0 0 ∧
    ([0, 8] : List Int).getD 1 0 - ([0, 8] : List Int).getD 0 0 ≠
      ([2147483640, -2147483648] : List Int).getD 1 0 -
        ([2147483640, -2147483648] : List Int).getD 0 0 := by
  refine ⟨by decide, by decide, by decide, by decide⟩

/-- C15 (amended): for a filled buffer of `N ≥ 1` samples the trimming keeps exactly the
samples `0..L`, where `L` is the smallest index such that `samples[L..N−1]` all equal
`samples[N−1]` (so `L = 0` or `samples[L−1] ≠ samples[N−1]`); `sampleCount = L + 1`; the
levels are not touched, so the retained levels are the first `L + 1` levels as sampled,
adjacent equal ones included; every retained time has `sampleTime[0]` subtracted as a 32-bit
`int`, the discarded ones are left alone, the first time becomes 0, and the differences
between retained times are preserved modulo `2^32`; they are preserved exactly, and every
retained time is exactly `sampleTime[i] − sampleTime[0]`, whenever these differences lie in
`[−2^31, 2^31)`, as they do for a capture that does not cross `micros() = 2^31`. -/
theorem tail_trim (samples sampleTime : List Int) (N : Nat) (hN : 1 ≤ N)
    (hs : samples.length = N) (ht : sampleTime.length = N) :
    ∃ L st', sampleGpioTrim samples sampleTime N = (L + 1, st', samples) ∧
      L < N ∧
      (∀ i, L ≤ i → i < N → samples.getD i 0 = samples.getD (N - 1) 0) ∧
      (L = 0 ∨ samples.getD (L - 1) 0 ≠ samples.getD (N - 1) 0) ∧
      (∀ L', (∀ i, L' ≤ i → i < N → samples.getD i 0 = samples.getD (N - 1) 0) → L ≤ L') ∧
      (samples.take (L + 1)).length = L + 1 ∧
      st'.length = N ∧
      (∀ i, i < L + 1 → st'.getD i 0 = wrap32 (sampleTime.getD i 0 - sampleTime.getD 0 0)) ∧
      (∀ i, L + 1 ≤ i → st'.getD i 0 = sampleTime.getD i 0) ∧
      st'.getD 0 0 = 0 ∧
      (∀ i k, i < L + 1 → k < L + 1 →
        wrap32 (st'.getD i 0 - st'.getD k 0) =
          wrap32 (sampleTime.getD i 0 - sampleTime.getD k 0)) ∧
      ((∀ i, i < L + 1 → -2147483648 ≤ sampleTime.getD i 0 - sampleTime.getD 0 0 ∧
          sampleTime.getD i 0 - sampleTime.getD 0 0 < 2147483648) →
        ∀ i k, i < L + 1 → k < L + 1 →
          st'.getD i 0 = sampleTime.getD i 0 - sampleTime.getD 0 0 ∧
          st'.getD i 0 - st'.getD k 0 = sampleTime.getD i 0 - sampleTime.getD k 0) := by
  obtain ⟨a, b, c⟩ := trimLoop_spec samples N (N - 1)
  obtain ⟨d, e⟩ := rebaseLoop_spec (sampleTime.getD 0 0) (trimLoop samples N (N - 1) + 1) 0
    sampleTime (by omega)
  have hin : ∀ i, i < trimLoop samples N (N - 1) + 1 →
      (rebaseLoop (sampleTime.getD 0 0) (trimLoop samples N (N - 1) + 1) 0 sampleTime).getD i 0 =
        wrap32 (sampleTime.getD i 0 - sampleTime.getD 0 0) := by
    intro i hi
    rw [e i, if_pos (by omega)]
  refine ⟨trimLoop samples N (N - 1), _, rfl, by omega, ?_, c, ?_, ?_, by rw [d, ht], hin, ?_,
    ?_, ?_, ?_⟩
  · intro i h1 h2
    by_cases hi : i = N - 1
    · rw [hi]
    · exact b i h1 (by omega)
  · intro L' hL'
    by_contra hlt
    rcases c with c | c
    · omega
    · exact c (hL' _ (by omega) (by omega))
  · rw [List.length_take, hs]
    omega
  · intro i hi
    rw [e i, if_neg (by omega)]
  · rw [hin 0 (by omega), sub_self]
    decide
  · intro i k hi hk
    rw [hin i hi, hin k hk, wrap32_sub]
  · intro hr i k hi hk
    obtain ⟨r1, r2⟩ := hr i hi
    obtain ⟨r3, r4⟩ := hr k hk
    rw [hin i hi, hin k hk, wrap32_eq _ r1 r2, wrap32_eq _ r3 r4]
    exact ⟨rfl, by omega⟩

theorem tail_trim_witness :
    (1 ≤ 6 ∧ ([0, 0, 1, 1, 0, 0] : List Int).length = 6 ∧
      ([100, 104, 109, 113, 118, 122] : List Int).length = 6) ∧
    ∃ L st', sampleGpioTrim [0, 0, 1, 1, 0, 0] [100, 104, 109, 113, 118, 122] 6 =
        (L + 1, st', [0, 0, 1, 1, 0, 0]) ∧
      L < 6 ∧
      (∀ i, L ≤ i → i < 6 → ([0, 0, 1, 1, 0, 0] : List Int).getD i 0 =
        ([0, 0, 1, 1, 0, 0] : List Int).getD (6 - 1) 0) ∧
      (L = 0 ∨ ([0, 0, 1, 1, 0, 0] : List Int).getD (L - 1) 0 ≠
        ([0, 0, 1, 1, 0, 0] : List Int).getD (6 - 1) 0) ∧
      (∀ L', (∀ i, L' ≤ i → i < 6 → ([0, 0, 1, 1, 0, 0] : List Int).getD i 0 =
        ([0, 0, 1, 1, 0, 0] : List Int).getD (6 - 1) 0) → L ≤ L') ∧
      (([0, 0, 1, 1, 0, 0] : List Int).take (L + 1)).length = L + 1 ∧
      st'.length = 6 ∧
      (∀ i, i < L + 1 → st'.getD i 0 =
        wrap32 (([100, 104, 109, 113, 118, 122] : List Int).getD i 0 -
          ([100, 104, 109, 113, 118, 122] : List Int).getD 0 0)) ∧
      (∀ i, L + 1 ≤ i → st'.getD i 0 = ([100, 104, 109, 113, 118, 122] : List Int).getD i 0) ∧
      st'.getD 0 0 = 0 ∧
      (∀ i k, i < L + 1 → k < L + 1 →
        wrap32 (st'.getD i 0 - st'.getD k 0) =
          wrap32 (([100, 104, 109, 113, 118, 122] : List Int).getD i 0 -
            ([100, 104, 109, 113, 118, 122] : List Int).getD k 0)) ∧
      ((∀ i, i < L + 1 →
          -2147483648 ≤ ([100, 104, 109, 113, 118, 122] : List Int).getD i 0 -
            ([100, 104, 109, 113, 118, 122] : List Int).getD 0 0 ∧
          ([100, 104, 109, 113, 118, 122] : List Int).getD i 0 -
            ([100, 104, 109, 113, 118, 122] : List Int).getD 0 0 < 2147483648) →
        ∀ i k, i < L + 1 → k < L + 1 →
          st'.getD i 0 = ([100, 104, 109, 113, 118, 122] : List Int).getD i 0 -
            ([100, 104, 109, 113, 118, 122] : List Int).getD 0 0 ∧
          st'.getD i 0 - st'.getD k 0 =
            ([100, 104, 109, 113, 118, 122] : List Int).getD i 0 -
              ([100, 104, 109, 113, 118, 122] : List Int).getD k 0) :=
  ⟨⟨by decide, by decide, by decide⟩,
    tail_trim [0, 0, 1, 1, 0, 0] [100, 104, 109, 113, 118, 122] 6 (by decide) (by decide)
      (by decide)⟩

end Raspir
